import Mathlib

/-!
# Pack calculator (`pkg/calculator/pack_calculator.go`)

A shallow embedding of `DynamicPackCalculator` and a verification of its
contract: `Calculate` first finds the smallest amount of items that is at least
the quantity and can be made from whole packs (`findMinimumAmount`), then the
fewest packs that make that amount (`findMinimumPacks`).

Conventions of the embedding

* A Go `int` is an `Int`; the result of every arithmetic operation of the source is
  passed through `wrap`, the two's-complement wrap-around of a 64-bit `int`.
* A Go slice is a `List`; `make`, indexing and assignment return `Option`,
  where `none` stands for a run that does not return normally (a run-time
  panic: negative length, index out of range, division by zero).
* A Go `map[int]int` is an association list with distinct keys, in order of
  first insertion; a nil map is `none`.
* `make` fails for a negative length only. The limit that the Go runtime puts on the
  length of a slice (`makeslice: len out of range`, a limit that depends on the platform)
  and the memory of the machine are not represented: the program can fail where the
  embedding makes a table. A `none` of the embedding is a failure of the program; a
  claim that a call which makes a table returns is stated for tables of at most `2^31`
  entries.

Layout: the embedding (the calculator, then the requests, responses, repository and
service around it), the vocabulary of the specification, the invariants of the two
tables, then the claims.
-/

namespace PackCalculator

/-! ## Machine integers, slices, maps -/

/-- Largest value of a 64-bit Go `int`. -/
def intMax : Int := 9223372036854775807

/-- Two's-complement wrap-around of an ideal integer into a 64-bit Go `int`. -/
def wrap (x : Int) : Int := (x + 9223372036854775808) % 18446744073709551616 - 9223372036854775808

/-- Value of `math.MaxInt32`, the marker for "unreachable" in `findMinimumPacks`. -/
def maxInt32 : Int := 2147483647

/-- Slice read `s[i]`; `none` when `i` is out of range. -/
def index {α : Type} (s : List α) (i : Int) : Option α :=
  if 0 ≤ i then s[i.toNat]? else none

/-- Slice write `s[i] = v`; `none` when `i` is out of range. -/
def assign {α : Type} (s : List α) (i : Int) (v : α) : Option (List α) :=
  if 0 ≤ i ∧ i.toNat < s.length then some (s.set i.toNat v) else none

/-- Allocation `make([]T, n)` filled with the zero value; `none` when `n < 0`. The upper
limit of the runtime on `n` is not represented. -/
def make {α : Type} (zero : α) (n : Int) : Option (List α) :=
  if 0 ≤ n then some (List.replicate n.toNat zero) else none

/-- Counting loop `for i := lo; i <= hi; i++ { body }`, run for `count` iterations
starting at `i` (`count` is `hi - lo + 1`, or `0` when `hi < lo`). Every such loop of
the source follows a successful `make(_, hi+1)`, so `hi` is below the largest `int`
and `i++` does not wrap before the exit test. -/
def forRange {σ : Type} (body : σ → Int → Option σ) : Nat → Int → σ → Option σ
  | 0, _, s => some s
  | n + 1, i, s => (body s i).bind (forRange body n (wrap (i + 1)))

/-- Number of iterations of `for i := lo; i <= hi; i++`. -/
def iterations (lo hi : Int) : Nat := (hi - lo + 1).toNat

/-- Breakdown `map[int]int`: pack size to number of packs. -/
abbrev Breakdown := List (Int × Int)

/-- Map update `result[pack]++` (a missing key reads as `0`). -/
def incr : Breakdown → Int → Breakdown
  | [], k => [(k, wrap (0 + 1))]
  | (k', v) :: m, k => if k' = k then (k', wrap (v + 1)) :: m else (k', v) :: incr m k

/-- Map read `m[k]` (a missing key reads as `0`). -/
def lookup : Breakdown → Int → Int
  | [], _ => 0
  | (k', v) :: m, k => if k' = k then v else lookup m k

/-- Total items of a breakdown: the sum of `size * count` (as in the tests). -/
def weightedSum (b : Breakdown) : Int := (b.map (fun kv => kv.1 * kv.2)).sum

/-- Total packs of a breakdown: the sum of the counts. -/
def totalPacks (b : Breakdown) : Int := (b.map (fun kv => kv.2)).sum

/-- Library call `sort.Ints`: the ascending rearrangement of the slice. -/
def sortInts (s : List Int) : List Int := s.insertionSort (fun a b => a ≤ b)

/-! ## findMinimumAmount -/

/-- Inner loop of the reachability table:
`for _, pack := range packSizes { if i >= pack && dp[i-pack] { dp[i] = true; break } }`. -/
def reachInner (dp : List Bool) (i : Int) : List Int → Option (List Bool)
  | [] => some dp
  | pack :: rest =>
    if i ≥ pack then
      match index dp (wrap (i - pack)) with
      | none => none
      | some true => assign dp i true
      | some false => reachInner dp i rest
    else reachInner dp i rest

/-- Table loop `for i := 1; i <= maxSearch; i++ { ... }` of both amount searches. -/
def reachTable (packSizes : List Int) (maxSearch : Int) (dp : List Bool) : Option (List Bool) :=
  forRange (fun dp i => reachInner dp i packSizes) (iterations 1 maxSearch) 1 dp

/-- Scan loop `for amount := quantity; amount <= maxSearch; amount++ { if dp[amount] { return amount } }`:
`some (some a)` when it returns `a`, `some none` when it falls through. -/
def scan (dp : List Bool) : Nat → Int → Option (Option Int)
  | 0, _ => some none
  | n + 1, amount =>
    match index dp amount with
    | none => none
    | some true => some (some amount)
    | some false => scan dp n (wrap (amount + 1))

/-- Step of the loop of `greedyMinimumAmount` for one pack size, on `(remaining, total)`. -/
def greedyStep (st : Int × Int) (pack : Int) : Option (Int × Int) :=
  if pack = 0 then none
  else
    let packs := wrap (Int.tdiv st.1 pack)
    if packs > 0 then some (wrap (st.1 - wrap (packs * pack)), wrap (st.2 + wrap (packs * pack)))
    else some st

/-- Loop `for i := len(packSizes) - 1; i >= 0; i-- { ... }`, over the sizes from last to first. -/
def greedyLoop : List Int → Int × Int → Option (Int × Int)
  | [], st => some st
  | pack :: rest, st => (greedyStep st pack).bind (greedyLoop rest)

/-- Last-resort amount: as many of each size as fit, largest first, plus one smallest pack. -/
def greedyMinimumAmount (quantity : Int) (packSizes : List Int) : Option Int :=
  (greedyLoop packSizes.reverse (quantity, 0)).bind fun st =>
    if st.1 > 0 then (index packSizes 0).bind fun p => some (wrap (st.2 + p))
    else some st.2

/-- Extended search over `[quantity, max(2 * quantity, 10000)]`. -/
def findMinimumAmountExtended (quantity : Int) (packSizes : List Int) : Option Int :=
  let maxSearch := if wrap (quantity * 2) < 10000 then 10000 else wrap (quantity * 2)
  (make false (wrap (maxSearch + 1))).bind fun dp =>
  (assign dp 0 true).bind fun dp =>
  (reachTable packSizes maxSearch dp).bind fun dp =>
  (scan dp (iterations quantity maxSearch) quantity).bind fun r =>
    match r with
    | some amount => some amount
    | none => greedyMinimumAmount quantity packSizes

/-- Minimum number of items `>= quantity` that can be made, searched over
`[quantity, quantity + packSizes[len(packSizes)-1]]` (`len` is never negative,
so `len(packSizes)-1` cannot wrap). -/
def findMinimumAmount (quantity : Int) (packSizes : List Int) : Option Int :=
  (index packSizes ((packSizes.length : Int) - 1)).bind fun last =>
  let maxSearch := wrap (quantity + last)
  (make false (wrap (maxSearch + 1))).bind fun dp =>
  (assign dp 0 true).bind fun dp =>
  (reachTable packSizes maxSearch dp).bind fun dp =>
  (scan dp (iterations quantity maxSearch) quantity).bind fun r =>
    match r with
    | some amount => some amount
    | none => findMinimumAmountExtended quantity packSizes

/-! ## findMinimumPacks -/

/-- Tables of `findMinimumPacks`: `dp` (fewest packs per amount) and `parent`. -/
abbrev Tables := List Int × List Int

/-- Body of the initialisation loop: `dp[i] = math.MaxInt32; parent[i] = -1`. -/
def initStep (t : Tables) (i : Int) : Option Tables :=
  (assign t.1 i maxInt32).bind fun dp =>
  (assign t.2 i (-1)).bind fun parent => some (dp, parent)

/-- Inner loop of the pack-count table:
`for _, pack := range packSizes { if i >= pack && dp[i-pack] != math.MaxInt32 {
   if dp[i-pack]+1 < dp[i] { dp[i] = dp[i-pack] + 1; parent[i] = pack } } }`. -/
def packsInner (i : Int) : Tables → List Int → Option Tables
  | t, [] => some t
  | t, pack :: rest =>
    if i ≥ pack then
      (index t.1 (wrap (i - pack))).bind fun v =>
      if v ≠ maxInt32 then
        (index t.1 i).bind fun cur =>
        if wrap (v + 1) < cur then
          (assign t.1 i (wrap (v + 1))).bind fun dp =>
          (assign t.2 i pack).bind fun parent => packsInner i (dp, parent) rest
        else packsInner i t rest
      else packsInner i t rest
    else packsInner i t rest

/-- Back-pointer walk
`for current > 0 && parent[current] != -1 { pack := parent[current]; result[pack]++; current -= pack }`,
run for at most `fuel` iterations (`none` when the fuel runs out). -/
def backtrack (parent : List Int) : Nat → Int → Breakdown → Option Breakdown
  | 0, _, _ => none
  | fuel + 1, current, result =>
    if current > 0 then
      (index parent current).bind fun pack =>
      if pack ≠ -1 then backtrack parent fuel (wrap (current - pack)) (incr result pack)
      else some result
    else some result

/-- Fewest packs that make exactly `target`, as a breakdown. -/
def findMinimumPacks (target : Int) (packSizes : List Int) : Option Breakdown :=
  (make (0 : Int) (wrap (target + 1))).bind fun dp =>
  (make (0 : Int) (wrap (target + 1))).bind fun parent =>
  (forRange initStep (iterations 1 target) 1 (dp, parent)).bind fun t =>
  (forRange (fun t i => packsInner i t packSizes) (iterations 1 target) 1 t).bind fun t =>
  backtrack t.2 (target.toNat + 1) target []

/-! ## Calculate -/

/-- Pair returned by `Calculate`: the breakdown (`none` is the nil map) and the
error (`none` is the nil error). -/
structure Outcome where
  breakdown : Option Breakdown
  err : Option String
deriving DecidableEq

/-- Optimal pack distribution for `quantity` over `packSizes`. -/
def Calculate (quantity : Int) (packSizes : List Int) : Option Outcome :=
  if quantity ≤ 0 then some ⟨some [], none⟩
  else if packSizes.length = 0 then some ⟨none, none⟩
  else
    let packSizes := sortInts packSizes
    (findMinimumAmount quantity packSizes).bind fun minAmount =>
    (findMinimumPacks minAmount packSizes).bind fun b => some ⟨some b, none⟩

/-! ## Specification vocabulary -/

/-- Amount `n` is the sum of exactly `k` packs whose sizes are drawn from `P`. -/
def RepK (P : List Int) (k : Nat) (n : Int) : Prop :=
  ∃ l : List Int, l.length = k ∧ (∀ x ∈ l, x ∈ P) ∧ l.sum = n

/-- Amount `n` is a non-negative integer combination of the sizes in `P`. -/
def Rep (P : List Int) (n : Int) : Prop :=
  ∃ l : List Int, (∀ x ∈ l, x ∈ P) ∧ l.sum = n

/-- Amount `T` is the smallest representable amount that is at least `q`. -/
def IsMinAmount (P : List Int) (q T : Int) : Prop :=
  q ≤ T ∧ Rep P T ∧ ∀ A, q ≤ A → A < T → ¬ Rep P A

/-- Invariant of the reachability table after the entries below `i` are final. -/
def ReachInv (Q : List Int) (N : Nat) (dp : List Bool) (i : Nat) : Prop :=
  dp.length = N + 1 ∧
  (∀ j, j < i → j ≤ N → ∃ b, dp[j]? = some b ∧ (b = true ↔ Rep Q (j : Int))) ∧
  (∀ j, i ≤ j → j ≤ N → dp[j]? = some false)

/-- Amount `n` can be made with `k` packs from `P` and with no fewer. -/
def MinK (P : List Int) (n : Int) (k : Nat) : Prop :=
  RepK P k n ∧ ∀ k', k' < k → ¬ RepK P k' n

/-- Element `p` is the first element of the list, in list order, that satisfies `C`. -/
def FirstIn (C : Int → Prop) : List Int → Int → Prop
  | [], _ => False
  | a :: rest, p => (C a ∧ p = a) ∨ (¬ C a ∧ FirstIn C rest p)

/-- Size `p` is the first size of `P` with `p ≤ n` such that `n - p` can be made
with `k` packs and no fewer. -/
def FirstPack (P : List Int) (n : Int) (k : Nat) (p : Int) : Prop :=
  FirstIn (fun x => x ≤ n ∧ MinK P (n - x) k) P p

/-- Sequence of sizes removed by the walk that starts at `n` and always removes the
first size of `P` that keeps the number of packs minimal, down to `0`. -/
inductive WalkSeq (P : List Int) : Int → List Int → Prop
  | done : WalkSeq P 0 []
  | step {n p : Int} {l : List Int} : 0 < n → MinK P n (l.length + 1) →
      FirstPack P n l.length p → WalkSeq P (n - p) l → WalkSeq P n (p :: l)

/-- Breakdown that counts the sizes of a sequence: `result[pack]++` for each one. -/
def countPacks (l : List Int) : Breakdown := l.foldl incr []

/-- What a final cell `(dp[j], parent[j])` of `findMinimumPacks` holds. -/
def CellOK (P : List Int) (j : Nat) (d par : Int) : Prop :=
  (d = maxInt32 ∧ par = -1 ∧ ∀ k : Nat, (k : Int) < maxInt32 → ¬ RepK P k (j : Int)) ∨
  (∃ k : Nat, d = (k : Int) ∧ (k : Int) < maxInt32 ∧ MinK P (j : Int) k ∧
    (0 < j → ∃ k', k = k' + 1 ∧ FirstPack P (j : Int) k' par))

/-- Invariant of the tables of `findMinimumPacks` after the cells below `i` are final. -/
def PackInv (P : List Int) (S : Nat) (t : Tables) (i : Nat) : Prop :=
  t.1.length = S + 1 ∧ t.2.length = S + 1 ∧
  (∀ j, j < i → j ≤ S → ∃ d par, t.1[j]? = some d ∧ t.2[j]? = some par ∧ CellOK P j d par) ∧
  (∀ j, i ≤ j → j ≤ S → t.1[j]? = some maxInt32 ∧ t.2[j]? = some (-1))

/-- What cell `i` holds while the sizes `P1` have been tried for it. -/
def InnerInv (Q : List Int) (i : Nat) (P1 : List Int) (c r : Int) : Prop :=
  (c = maxInt32 ∧ r = -1 ∧
    ∀ p ∈ P1, p ≤ (i : Int) → ∀ k : Nat, (k : Int) + 1 < maxInt32 → ¬ MinK Q ((i : Int) - p) k) ∨
  (∃ k : Nat, c = (k : Int) + 1 ∧ (k : Int) + 1 < maxInt32 ∧
    FirstIn (fun x => x ≤ (i : Int) ∧ MinK Q ((i : Int) - x) k) P1 r ∧
    ∀ p ∈ P1, p ≤ (i : Int) → ∀ k', k' < k → ¬ MinK Q ((i : Int) - p) k')

/-- Invariant of the tables inside the inner loop for cell `i`, after the sizes `P1`. -/
def PackMid (Q : List Int) (S : Nat) (t : Tables) (i : Nat) (P1 : List Int) : Prop :=
  t.1.length = S + 1 ∧ t.2.length = S + 1 ∧
  (∀ j, j < i → j ≤ S → ∃ d par, t.1[j]? = some d ∧ t.2[j]? = some par ∧ CellOK Q j d par) ∧
  (∀ j, i < j → j ≤ S → t.1[j]? = some maxInt32 ∧ t.2[j]? = some (-1)) ∧
  ∃ c r, t.1[i]? = some c ∧ t.2[i]? = some r ∧ InnerInv Q i P1 c r

/-- Invariant of the initialisation loop of `findMinimumPacks`. -/
def InitInv (S : Nat) (t : Tables) (i : Nat) : Prop :=
  t.1.length = S + 1 ∧ t.2.length = S + 1 ∧
  t.1[0]? = some 0 ∧ t.2[0]? = some 0 ∧
  ∀ j, 1 ≤ j → j < i → j ≤ S → t.1[j]? = some maxInt32 ∧ t.2[j]? = some (-1)

/-- Packs chosen by an assignment `c` of a count to every size of the list `L`. -/
def expand (c : Int → Nat) : List Int → List Int
  | [] => []
  | p :: ps => List.replicate (c p) p ++ expand c ps

/-! ## Executable checks of the specification vocabulary -/

/-- Check that `n` is the sum of exactly `k` packs drawn from `P`. -/
def repKb (P : List Int) : Nat → Int → Bool
  | 0, n => decide (n = 0)
  | k + 1, n => P.any (fun p => repKb P k (n - p))

/-- Check that `n` can be made with `k` packs from `P` and with no fewer. -/
def minKb (P : List Int) (n : Int) (k : Nat) : Bool :=
  repKb P k n && (List.range k).all (fun j => !repKb P j n)

/-- Check that `p` is the first element of the list that passes `C`. -/
def firstInb (C : Int → Bool) : List Int → Int → Bool
  | [], _ => false
  | a :: rest, p => if C a then decide (p = a) else firstInb C rest p

/-- Check that `l` is the sequence of sizes removed by the walk from `n`. -/
def walkb (P : List Int) : Int → List Int → Bool
  | n, [] => decide (n = 0)
  | n, p :: l =>
    decide (0 < n) && minKb P n (l.length + 1) &&
      firstInb (fun x => decide (x ≤ n) && minKb P (n - x) l.length) P p && walkb P (n - p) l

/-! ## The tie-break as the specification words it -/

/-- Search for the least count `k`, from `k` upwards and for `fuel` candidates,
such that `n` is the sum of `k` packs. -/
def leastCount (P : List Int) (n : Int) : Nat → Nat → Option Nat
  | 0, _ => none
  | fuel + 1, k => if repKb P k n then some k else leastCount P n fuel (k + 1)

/-- The `minCount` of the specification: the fewest packs from `P` that make `n`
exactly, `none` when `n` is not representable. -/
def minCount (P : List Int) (n : Int) : Option Nat := leastCount P n (n.toNat + 1) 0

/-- Smallest element of a list. -/
def smallestOf : List Int → Option Int
  | [] => none
  | a :: l =>
    match smallestOf l with
    | none => some a
    | some b => some (min a b)

/-- Whether removing `p` from `current` keeps the pack count minimal:
`p ≤ current`, `current - p` is representable, and
`minCount (current - p) + 1 = minCount current`. -/
def keepsMinimal (P : List Int) (current p : Int) : Bool :=
  decide (p ≤ current) &&
    match minCount P (current - p), minCount P current with
    | some a, some b => a + 1 == b
    | _, _ => false

/-- The smallest pack size whose removal from `current` keeps the pack count minimal. -/
def tieBreakPick (P : List Int) (current : Int) : Option Int :=
  smallestOf (P.filter (keepsMinimal P current))

/-- Sizes removed by the specification's walk: start at `current` and repeatedly
remove the smallest size that keeps the pack count minimal, until `0` is reached
(or no such size exists); at most `fuel` removals. -/
def tieBreakWalk (P : List Int) : Nat → Int → List Int
  | 0, _ => []
  | fuel + 1, current =>
    if current ≤ 0 then []
    else
      match tieBreakPick P current with
      | none => []
      | some p => p :: tieBreakWalk P fuel (current - p)

/-- Breakdown of the specification's tie-break walk from the target `S`. -/
def tieBreakBreakdown (P : List Int) (S : Int) : Breakdown :=
  countPacks (tieBreakWalk P S.toNat S)

/-! ## Calculate and the caller's slice -/

/-- `Calculate` together with its effect on the slice passed in: the first component is
what the caller's `packSizes` holds after the call (`sort.Ints(packSizes)` sorts the
caller's backing array in place; both early returns come before it, and
`findMinimumAmount` and `findMinimumPacks` only read the slice), the second is the
outcome of `Calculate` (`none` when the run does not return). -/
def CalculateInPlace (quantity : Int) (packSizes : List Int) : List Int × Option Outcome :=
  if quantity ≤ 0 then (packSizes, some ⟨some [], none⟩)
  else if packSizes.length = 0 then (packSizes, some ⟨none, none⟩)
  else
    let packSizes := sortInts packSizes
    (packSizes,
      (findMinimumAmount quantity packSizes).bind fun minAmount =>
      (findMinimumPacks minAmount packSizes).bind fun b => some ⟨some b, none⟩)

/-! ## The first search of findMinimumAmount, in its parts -/

/-- Reachability table that `findMinimumAmount` builds before its scan:
`make`, `dp[0] = true` and the table loop. -/
def amountTable (quantity : Int) (packSizes : List Int) : Option (List Bool) :=
  (index packSizes ((packSizes.length : Int) - 1)).bind fun last =>
  let maxSearch := wrap (quantity + last)
  (make false (wrap (maxSearch + 1))).bind fun dp =>
  (assign dp 0 true).bind fun dp =>
  reachTable packSizes maxSearch dp

/-- First scan of `findMinimumAmount`, over `[quantity, maxSearch]`: `some (some a)` when
the function returns `a` from this scan, `some none` when the scan falls through to
`findMinimumAmountExtended`, `none` when the run fails before or in the scan. -/
def firstScan (quantity : Int) (packSizes : List Int) : Option (Option Int) :=
  (index packSizes ((packSizes.length : Int) - 1)).bind fun last =>
  (amountTable quantity packSizes).bind fun dp =>
  scan dp (iterations quantity (wrap (quantity + last))) quantity

/-! ## Requests, responses and errors (`internal/model`) -/

/-- Go `error` values made in this repository: a `*ValidationError`, the result of
`fmt.Errorf` without a wrapped error, and the result of `fmt.Errorf` with `%w`. -/
inductive GoError
  | validation (message : String)
  | errorf (text : String)
  | wrapping (text : String) (inner : GoError)
deriving DecidableEq

/-- Constructor `NewValidationError(message)`. -/
def NewValidationError (message : String) : GoError := GoError.validation message

/-- Test `IsValidationError(err)`: the type assertion `err.(*ValidationError)`
(`none` is the nil error). -/
def IsValidationError : Option GoError → Bool
  | some (GoError.validation _) => true
  | _ => false

/-- Elements of a slice that may be nil (`none`). -/
def sliceElems : Option (List Int) → List Int
  | none => []
  | some l => l

/-- Struct `PackRequest`; `PackSizes` is `none` for the nil slice. -/
structure PackRequest where
  Quantity : Int
  PackSizes : Option (List Int)
deriving DecidableEq

/-- Method `PackRequest.Validate`: `none` is the nil error. -/
def PackRequest.Validate (r : PackRequest) : Option GoError :=
  if r.Quantity ≤ 0 then some (NewValidationError "quantity must be greater than 0")
  else none

/-- Loop of `GetValidPackSizes`:
`for _, size := range r.PackSizes { if size > 0 { validSizes = append(validSizes, size) } }`. -/
def appendValid (validSizes : List Int) (size : Int) : List Int :=
  if size > 0 then validSizes ++ [size] else validSizes

/-- Method `PackRequest.GetValidPackSizes`: the request after the call and the slice
returned (`none` is nil). -/
def PackRequest.GetValidPackSizes (r : PackRequest) : PackRequest × Option (List Int) :=
  if (sliceElems r.PackSizes).length = 0 then (r, none)
  else (r, some ((sliceElems r.PackSizes).foldl appendValid []))

/-- Method `PackRequest.HasPackSizes`. -/
def PackRequest.HasPackSizes (r : PackRequest) : Bool :=
  decide ((sliceElems r.PackSizes).length > 0)

/-- Struct `PackResponse`; `PackBreakdown` is `none` for the nil map. -/
structure PackResponse where
  Quantity : Int
  TotalItems : Int
  TotalPacks : Int
  PackBreakdown : Option Breakdown
  PackSizesUsed : Option (List Int)
deriving DecidableEq

/-- Entries of a map that may be nil (`none`): a `range` over a nil map has no iteration. -/
def mapEntries : Option Breakdown → Breakdown
  | none => []
  | some b => b

/-- Body of the loop of `CalculateTotals` on `(totalItems, totalPacks)`:
`totalItems += packSize * count; totalPacks += count`. -/
def totalsStep (acc : Int × Int) (kv : Int × Int) : Int × Int :=
  (wrap (acc.1 + wrap (kv.1 * kv.2)), wrap (acc.2 + kv.2))

/-- Method `PackResponse.CalculateTotals`: the response after the call. The `range`
over the map visits its entries in an unspecified order; here it is the order of the
association list. -/
def PackResponse.CalculateTotals (r : PackResponse) : PackResponse :=
  let totals := (mapEntries r.PackBreakdown).foldl totalsStep (0, 0)
  { r with TotalItems := totals.1, TotalPacks := totals.2 }

/-- Constructor `NewPackResponse`. -/
def NewPackResponse (quantity : Int) (breakdown : Option Breakdown)
    (packSizesUsed : Option (List Int)) : PackResponse :=
  PackResponse.CalculateTotals
    { Quantity := quantity, TotalItems := 0, TotalPacks := 0,
      PackBreakdown := breakdown, PackSizesUsed := packSizesUsed }

/-! ## The in-memory repository (`internal/repository`) -/

/-- Struct `InMemoryPackRepository`. -/
structure InMemoryPackRepository where
  packSizes : List Int
deriving DecidableEq

/-- Constructor `NewInMemoryPackRepository`: no sizes stored. -/
def NewInMemoryPackRepository : InMemoryPackRepository := { packSizes := [] }

/-- Method `GetAllPackSizes`: the repository after the call, the slice returned (a sorted
copy of the stored sizes) and the error (always nil). -/
def InMemoryPackRepository.GetAllPackSizes (r : InMemoryPackRepository) :
    InMemoryPackRepository × List Int × Option GoError :=
  (r, sortInts r.packSizes, none)

/-- Method `SetPackSizes`: the repository after the call and the error (always nil).
The loop `for _, size := range sizes { if size <= 0 { continue } }` of the source has no
effect and no counterpart here; the sizes are copied before they are sorted, so the
caller's slice is not touched. -/
def InMemoryPackRepository.SetPackSizes (r : InMemoryPackRepository) (sizes : List Int) :
    InMemoryPackRepository × Option GoError :=
  if sizes.length = 0 then (r, none)
  else ({ packSizes := sortInts sizes }, none)

/-! ## The service (`internal/service`) -/

/-- Struct `packService`: the calculator (interface `PackCalculator`, given by its method
`Calculate` with its effect on the slice passed in, as `CalculateInPlace` is) and the
repository (the in-memory one, the implementation of `PackRepository` in this
repository). -/
structure packService where
  calculator : Int → List Int → List Int × Option Outcome
  repository : InMemoryPackRepository

/-- What a call of `CalculatePackDistribution` gives: the response (`none` is nil), the
error (`none` is nil) and the number of calls of `calculator.Calculate` it made. -/
structure ServiceResult where
  response : Option PackResponse
  err : Option GoError
  calculatorCalls : Nat
deriving DecidableEq

/-- Pack sizes chosen by `CalculatePackDistribution` and the error of the repository:
the valid sizes of the request when it has any size, else the sizes of the repository. -/
def packService.choosePackSizes (s : packService) (request : PackRequest) :
    Option (List Int) × Option GoError :=
  if request.HasPackSizes then (request.GetValidPackSizes.2, none)
  else (some s.repository.GetAllPackSizes.2.1, s.repository.GetAllPackSizes.2.2)

/-- Method `packService.CalculatePackDistribution` (`none` when the run does not return,
which happens only inside the calculator). -/
def packService.CalculatePackDistribution (s : packService) (request : PackRequest) :
    Option ServiceResult :=
  match request.Validate with
  | some e => some { response := none, err := some e, calculatorCalls := 0 }
  | none =>
    match (s.choosePackSizes request).2 with
    | some e =>
      some { response := none,
             err := some (GoError.wrapping "failed to get pack sizes: " e),
             calculatorCalls := 0 }
    | none =>
      if (sliceElems (s.choosePackSizes request).1).length = 0 then
        some { response := none,
               err := some (NewValidationError "no valid pack sizes available"),
               calculatorCalls := 0 }
      else
        match s.calculator request.Quantity (sliceElems (s.choosePackSizes request).1) with
        | (_, none) => none
        | (packSizes, some out) =>
          match out.err with
          | some e =>
            some { response := none,
                   err := some (GoError.wrapping "calculation failed: " (GoError.errorf e)),
                   calculatorCalls := 1 }
          | none =>
            some { response := some (NewPackResponse request.Quantity out.breakdown
                     (some packSizes)),
                   err := none, calculatorCalls := 1 }

/-- Method `packService.GetAvailablePackSizes`: the slice returned (`none` is nil) and
the error. -/
def packService.GetAvailablePackSizes (s : packService) : Option (List Int) × Option GoError :=
  match s.repository.GetAllPackSizes.2.2 with
  | some e => (none, some (GoError.wrapping "failed to get pack sizes: " e))
  | none => (some (sortInts s.repository.GetAllPackSizes.2.1), none)

/-- Method `packService.UpdatePackSizes`: the service after the call and the error. -/
def packService.UpdatePackSizes (s : packService) (sizes : List Int) :
    packService × Option GoError :=
  if sizes.length = 0 then (s, some (GoError.errorf "pack sizes cannot be empty"))
  else
    match sizes.find? (fun size => decide (size ≤ 0)) with
    | some size =>
      (s, some (GoError.errorf ("all pack sizes must be positive, got: " ++ toString size)))
    | none =>
      ({ s with repository := (s.repository.SetPackSizes sizes).1 },
        (s.repository.SetPackSizes sizes).2)

/-- Service of `main`: the dynamic calculator over a repository. -/
def NewPackService (repository : InMemoryPackRepository) : packService :=
  { calculator := CalculateInPlace, repository := repository }

/-- The selected pack-size list: the positive entries of the request's sizes when the
request carries any, the sizes of the repository otherwise. -/
def selectedSizes (repository : InMemoryPackRepository) (request : PackRequest) : List Int :=
  if sliceElems request.PackSizes ≠ [] then
    (sliceElems request.PackSizes).filter (fun x => decide (0 < x))
  else repository.GetAllPackSizes.2.1

/-! ## The greedy fallback in the words of the spec -/

/-- Remainder left of `remaining` after taking `floor(remaining / size)` packs of each size
of the list, in the order of the list. -/
def remainderAfter : List Int → Int → Int
  | [], remaining => remaining
  | size :: rest, remaining => remainderAfter rest (remaining - remaining / size * size)

/-- Total of the greedy fallback in the words of the spec: `q` minus the remainder left
after taking `floor(remaining / size)` packs of each size from the last (largest) to the
first (smallest), plus `P[0]` when that remainder is not zero. -/
def greedyTotal (q : Int) (P : List Int) : Int :=
  q - remainderAfter P.reverse q + (if remainderAfter P.reverse q ≠ 0 then P.headD 0 else 0)

/-! ## Machine integers and slices: basic facts -/

theorem wrap_eq {x : Int} (h1 : -9223372036854775808 ≤ x) (h2 : x ≤ intMax) : wrap x = x := by
  unfold wrap; unfold intMax at h2; omega

theorem index_natCast {α : Type} (s : List α) (n : Nat) : index s (n : Int) = s[n]? := by
  simp [index]

theorem assign_natCast {α : Type} (s : List α) (n : Nat) (v : α) (h : n < s.length) :
    assign s (n : Int) v = some (s.set n v) := by
  simp [assign, h]

/-! ## Representable amounts -/

theorem Rep_zero (P : List Int) : Rep P 0 := ⟨[], by simp, by simp⟩

theorem sum_nonneg_of_pos {P l : List Int} (hP : ∀ p ∈ P, 0 < p) (hl : ∀ x ∈ l, x ∈ P) :
    (l.length : Int) ≤ l.sum := by
  induction l with
  | nil => simp
  | cons a l ih =>
    have ha := hP a (hl a (by simp))
    have := ih (fun x hx => hl x (by simp [hx]))
    simp only [List.length_cons, List.sum_cons]
    push_cast
    omega

theorem Rep_nonneg {P : List Int} (hP : ∀ p ∈ P, 0 < p) {n : Int} (h : Rep P n) : 0 ≤ n := by
  obtain ⟨l, hl, rfl⟩ := h
  have := sum_nonneg_of_pos hP hl
  omega

theorem Rep_add {P : List Int} {n p : Int} (h : Rep P n) (hp : p ∈ P) : Rep P (n + p) := by
  obtain ⟨l, hl, rfl⟩ := h
  refine ⟨p :: l, ?_, ?_⟩
  · intro x hx
    rcases List.mem_cons.1 hx with rfl | hx
    · exact hp
    · exact hl x hx
  · simp [add_comm]

theorem Rep_pred {P : List Int} (hP : ∀ p ∈ P, 0 < p) {n : Int} (h : Rep P n) (hn : 0 < n) :
    ∃ p ∈ P, p ≤ n ∧ Rep P (n - p) := by
  obtain ⟨l, hl, rfl⟩ := h
  cases l with
  | nil => simp at hn
  | cons a l =>
    have hl2 : ∀ x ∈ l, x ∈ P := fun x hx => hl x (by simp [hx])
    have h0 := sum_nonneg_of_pos hP hl2
    refine ⟨a, hl a (by simp), ?_, l, hl2, ?_⟩
    · simp only [List.sum_cons]; omega
    · simp

theorem Rep_step {P : List Int} (hP : ∀ p ∈ P, 0 < p) {n : Int} (hn : 0 < n) :
    Rep P n ↔ ∃ p ∈ P, p ≤ n ∧ Rep P (n - p) := by
  constructor
  · intro h; exact Rep_pred hP h hn
  · rintro ⟨p, hp, _, h⟩
    have := Rep_add h hp
    simpa using this

theorem Rep_mul {P : List Int} {p : Int} (hp : p ∈ P) (k : Nat) : Rep P (p * k) := by
  induction k with
  | zero => simpa using Rep_zero P
  | succ k ih =>
    have := Rep_add ih hp
    have e : p * ((k + 1 : Nat) : Int) = p * k + p := by push_cast; ring
    rw [e]; exact this

/-! ## findMinimumAmount: the reachability table and the scan -/

theorem reachInner_spec {Q : List Int} {N : Nat} {dp : List Bool} {i : Nat}
    (hQ : ∀ p ∈ Q, 0 < p) (hN : (N : Int) < intMax)
    (hinv : ReachInv Q N dp i) (hi1 : 1 ≤ i) (hiN : i ≤ N) :
    ∀ P : List Int, (∀ p ∈ P, p ∈ Q) →
      ∃ dp', reachInner dp (i : Int) P = some dp' ∧ dp'.length = N + 1 ∧
        (∀ j, j ≠ i → dp'[j]? = dp[j]?) ∧
        ∃ b, dp'[i]? = some b ∧ (b = true ↔ ∃ p ∈ P, p ≤ (i : Int) ∧ Rep Q ((i : Int) - p)) := by
  obtain ⟨hlen, hlow, hhigh⟩ := hinv
  intro P
  induction P with
  | nil =>
    intro _
    refine ⟨dp, rfl, hlen, fun _ _ => rfl, false, hhigh i le_rfl hiN, ?_⟩
    simp
  | cons p P ih =>
    intro hsub
    have hp := hQ p (hsub p (by simp))
    obtain ⟨dp', h1, h2, h3, b, h4, h5⟩ := ih (fun x hx => hsub x (by simp [hx]))
    unfold reachInner
    by_cases hpi : (i : Int) ≥ p
    · rw [if_pos hpi]
      obtain ⟨m, hm⟩ := Int.eq_ofNat_of_zero_le (show 0 ≤ (i : Int) - p by omega)
      have hmi : m < i := by omega
      have hw : wrap ((i : Int) - p) = (m : Int) := by
        rw [wrap_eq (by omega) (by unfold intMax at *; omega)]; exact hm
      obtain ⟨c, hc1, hc2⟩ := hlow m hmi (by omega)
      rw [hw, index_natCast, hc1]
      cases c with
      | true =>
        simp only
        rw [assign_natCast _ _ _ (by omega)]
        refine ⟨dp.set i true, rfl, by simp [hlen], ?_, true, ?_, ?_⟩
        · intro j hj
          rw [List.getElem?_set_ne (Ne.symm hj)]
        · rw [List.getElem?_set_self]
          · omega
        · simp only [true_iff]
          exact ⟨p, by simp, hpi, by rw [hm]; exact hc2.1 rfl⟩
      | false =>
        simp only
        refine ⟨dp', h1, h2, h3, b, h4, ?_⟩
        rw [h5]
        constructor
        · rintro ⟨x, hx, hx2⟩; exact ⟨x, by simp [hx], hx2⟩
        · rintro ⟨x, hx, hx2⟩
          rcases List.mem_cons.1 hx with rfl | hx
          · exfalso
            rw [hm] at hx2
            have := hc2.2 hx2.2
            simp at this
          · exact ⟨x, hx, hx2⟩
    · rw [if_neg hpi]
      refine ⟨dp', h1, h2, h3, b, h4, ?_⟩
      rw [h5]
      constructor
      · rintro ⟨x, hx, hx2⟩; exact ⟨x, by simp [hx], hx2⟩
      · rintro ⟨x, hx, hx2⟩
        rcases List.mem_cons.1 hx with rfl | hx
        · exact absurd hx2.1 (by omega)
        · exact ⟨x, hx, hx2⟩

theorem reachInner_inv {Q : List Int} {N : Nat} {dp : List Bool} {i : Nat}
    (hQ : ∀ p ∈ Q, 0 < p) (hN : (N : Int) < intMax)
    (hinv : ReachInv Q N dp i) (hi1 : 1 ≤ i) (hiN : i ≤ N) :
    ∃ dp', reachInner dp (i : Int) Q = some dp' ∧ ReachInv Q N dp' (i + 1) := by
  obtain ⟨dp', h1, h2, h3, b, h4, h5⟩ := reachInner_spec hQ hN hinv hi1 hiN Q (fun _ h => h)
  obtain ⟨hlen, hlow, hhigh⟩ := hinv
  refine ⟨dp', h1, h2, ?_, ?_⟩
  · intro j hj hjN
    by_cases hji : j = i
    · subst hji
      refine ⟨b, h4, ?_⟩
      rw [h5, Rep_step hQ (by omega)]
    · rw [h3 j hji]
      exact hlow j (by omega) hjN
  · intro j hj hjN
    rw [h3 j (by omega)]
    exact hhigh j (by omega) hjN

theorem reachLoop_inv {Q : List Int} {N : Nat} (hQ : ∀ p ∈ Q, 0 < p) (hN : (N : Int) < intMax) :
    ∀ (count i : Nat) (dp : List Bool), ReachInv Q N dp i → 1 ≤ i → i + count = N + 1 →
      ∃ dp', forRange (fun dp i => reachInner dp i Q) count (i : Int) dp = some dp' ∧
        ReachInv Q N dp' (N + 1) := by
  intro count
  induction count with
  | zero =>
    intro i dp hinv _ hc
    have : i = N + 1 := by omega
    subst this
    exact ⟨dp, rfl, hinv⟩
  | succ n ih =>
    intro i dp hinv hi1 hc
    obtain ⟨dp1, h1, h2⟩ := reachInner_inv hQ hN hinv hi1 (by omega)
    obtain ⟨dp2, h3, h4⟩ := ih (i + 1) dp1 h2 (by omega) (by omega)
    refine ⟨dp2, ?_, h4⟩
    simp only [forRange, h1, Option.some_bind]
    rw [wrap_eq (by omega) (by unfold intMax at *; omega)]
    exact_mod_cast h3

theorem reachInit_inv (Q : List Int) (N : Nat) :
    ReachInv Q N ((List.replicate (N + 1) false).set 0 true) 1 := by
  refine ⟨by simp, ?_, ?_⟩
  · intro j hj _
    have : j = 0 := by omega
    subst this
    refine ⟨true, by simp, ?_⟩
    simp only [true_iff]
    exact_mod_cast Rep_zero Q
  · intro j hj hjN
    rw [List.getElem?_set_ne (by omega)]
    simp [List.getElem?_replicate]
    omega

theorem scan_spec {Q : List Int} {N : Nat} {dp : List Bool} (hN : (N : Int) < intMax)
    (hfin : ReachInv Q N dp (N + 1)) {T : Nat} (hT : T ≤ N) (hRep : Rep Q (T : Int)) :
    ∀ (count a : Nat), a ≤ T → a + count = N + 1 →
      (∀ A : Nat, a ≤ A → A < T → ¬ Rep Q (A : Int)) →
      scan dp count (a : Int) = some (some (T : Int)) := by
  obtain ⟨_, hlow, _⟩ := hfin
  intro count
  induction count with
  | zero => intro a h1 h2; omega
  | succ n ih =>
    intro a haT hc hmin
    obtain ⟨b, hb1, hb2⟩ := hlow a (by omega) (by omega)
    unfold scan
    rw [index_natCast, hb1]
    cases b with
    | true =>
      simp only
      have hRa := hb2.1 rfl
      by_cases h : a = T
      · subst h; rfl
      · exact absurd hRa (hmin a le_rfl (by omega))
    | false =>
      simp only
      have hne : a ≠ T := by
        rintro rfl
        have := hb2.2 hRep
        simp at this
      rw [wrap_eq (by omega) (by unfold intMax at *; omega)]
      have := ih (a + 1) (by omega) (by omega) (fun A h1 h2 => hmin A (by omega) h2)
      exact_mod_cast this

theorem ceil_multiple {q p : Int} (hq : 0 < q) (hp : 0 < p) :
    ∃ k : Nat, q ≤ p * k ∧ p * k < q + p := by
  have h1 := Int.ediv_add_emod (q + p - 1) p
  have h2 := Int.emod_nonneg (q + p - 1) (ne_of_gt hp)
  have h3 := Int.emod_lt_of_pos (q + p - 1) hp
  have h4 : 0 ≤ (q + p - 1) / p := Int.ediv_nonneg (by omega) (by omega)
  obtain ⟨k, hk⟩ := Int.eq_ofNat_of_zero_le h4
  refine ⟨k, ?_, ?_⟩
  · rw [← hk]; linarith
  · rw [← hk]; linarith

theorem exists_minAmount {q : Int} {P : List Int} (hq : 0 < q) (hne : P ≠ [])
    (hP : ∀ p ∈ P, 0 < p) : ∃ T, IsMinAmount P q T := by
  classical
  obtain ⟨p, hp⟩ := List.exists_mem_of_ne_nil P hne
  obtain ⟨k, hk1, _⟩ := ceil_multiple hq (hP p hp)
  have hex : ∃ t : Nat, q ≤ (t : Int) ∧ Rep P (t : Int) := by
    have h0 : 0 ≤ p * k := by omega
    obtain ⟨t, ht⟩ := Int.eq_ofNat_of_zero_le h0
    exact ⟨t, by omega, by rw [← ht]; exact Rep_mul hp k⟩
  refine ⟨(Nat.find hex : Nat), (Nat.find_spec hex).1, (Nat.find_spec hex).2, ?_⟩
  intro A hA1 hA2 hRep
  obtain ⟨a, ha⟩ := Int.eq_ofNat_of_zero_le (show 0 ≤ A by omega)
  subst ha
  have : a < Nat.find hex := by exact_mod_cast hA2
  exact Nat.find_min hex this ⟨hA1, hRep⟩

theorem minAmount_lt {q T : Int} {P : List Int} (hq : 0 < q) (hP : ∀ p ∈ P, 0 < p)
    (hT : IsMinAmount P q T) : ∀ p ∈ P, T < q + p := by
  intro p hp
  obtain ⟨k, hk1, hk2⟩ := ceil_multiple hq (hP p hp)
  by_contra hcon
  exact hT.2.2 (p * k) hk1 (by omega) (Rep_mul hp k)

theorem minAmount_unique {q T T' : Int} {P : List Int}
    (hT : IsMinAmount P q T) (hT' : IsMinAmount P q T') : T = T' := by
  rcases lt_trichotomy T T' with h | h | h
  · exact absurd hT.2.1 (hT'.2.2 T hT.1 h)
  · exact h
  · exact absurd hT'.2.1 (hT.2.2 T' hT'.1 h)

theorem index_last {P : List Int} (hne : P ≠ []) :
    index P ((P.length : Int) - 1) = some (P.getLast hne) := by
  have hpos : 0 < P.length := List.length_pos.2 hne
  have : (P.length : Int) - 1 = ((P.length - 1 : Nat) : Int) := by omega
  rw [this, index_natCast, List.getLast_eq_getElem]
  simp

theorem reachTable_spec {Q : List Int} {N : Nat} (hQ : ∀ p ∈ Q, 0 < p) (hN : (N : Int) < intMax) :
    ∃ dp', (make false (wrap ((N : Int) + 1))).bind (fun dp =>
        (assign dp 0 true).bind fun dp => reachTable Q (N : Int) dp) = some dp' ∧
      ReachInv Q N dp' (N + 1) := by
  have hw : wrap ((N : Int) + 1) = ((N + 1 : Nat) : Int) := by
    rw [wrap_eq (by omega) (by unfold intMax at *; omega)]; push_cast; rfl
  have hmk : make false (wrap ((N : Int) + 1)) = some (List.replicate (N + 1) false) := by
    unfold make
    rw [hw, if_pos (Int.natCast_nonneg _), Int.toNat_natCast]
  have hit : iterations 1 (N : Int) = N := by simp [iterations]
  obtain ⟨dp', h1, h2⟩ := reachLoop_inv hQ hN N 1 _ (reachInit_inv Q N) le_rfl (by omega)
  refine ⟨dp', ?_, h2⟩
  rw [hmk]
  simp only [Option.some_bind]
  have ha := assign_natCast (List.replicate (N + 1) false) 0 true (by simp)
  simp only [Nat.cast_zero] at ha
  rw [ha]
  simp only [Option.some_bind, reachTable, hit]
  exact_mod_cast h1

theorem findMinimumAmount_eq {q T : Int} {P : List Int} (hq : 0 < q) (hne : P ≠ [])
    (hP : ∀ p ∈ P, 0 < p) (hB : q + P.getLast hne < intMax)
    (hT : IsMinAmount P q T) : findMinimumAmount q P = some T := by
  have hlastmem : P.getLast hne ∈ P := List.getLast_mem hne
  have hlast := hP _ hlastmem
  have hTlt := minAmount_lt hq hP hT _ hlastmem
  obtain ⟨N, hNe⟩ := Int.eq_ofNat_of_zero_le (show 0 ≤ q + P.getLast hne by omega)
  obtain ⟨t, hte⟩ := Int.eq_ofNat_of_zero_le (show 0 ≤ T by have := hT.1; omega)
  obtain ⟨a, hae⟩ := Int.eq_ofNat_of_zero_le (show 0 ≤ q by omega)
  have hN : (N : Int) < intMax := by omega
  obtain ⟨dp', h1, h2⟩ := reachTable_spec (Q := P) (N := N) hP hN
  have hwN : wrap (q + P.getLast hne) = (N : Int) := by
    rw [wrap_eq (by omega) (by omega)]; exact hNe
  have hsc : scan dp' (iterations q (N : Int)) q = some (some T) := by
    have hit : iterations q (N : Int) = N + 1 - a := by
      simp only [iterations]; omega
    rw [hit, hae, hte]
    have hRep : Rep P (t : Int) := by rw [← hte]; exact hT.2.1
    refine scan_spec hN h2 (by omega) hRep (N + 1 - a) a (by have := hT.1; omega) (by omega) ?_
    intro A hA1 hA2
    exact hT.2.2 A (by omega) (by omega)
  unfold findMinimumAmount
  rw [index_last hne]
  simp only [Option.some_bind, hwN]
  cases hmk : make false (wrap ((N : Int) + 1)) with
  | none => simp [hmk] at h1
  | some d0 =>
    rw [hmk] at h1
    simp only [Option.some_bind] at h1 ⊢
    cases has : assign d0 0 true with
    | none => simp [has] at h1
    | some d1 =>
      rw [has] at h1
      simp only [Option.some_bind] at h1 ⊢
      rw [h1]
      simp only [Option.some_bind, hsc]

/-! ## Fewest packs: representations, first sizes and the walk -/

theorem RepK_zero_iff {P : List Int} {n : Int} : RepK P 0 n ↔ n = 0 := by
  constructor
  · rintro ⟨l, hl, _, rfl⟩
    rw [List.length_eq_zero] at hl
    subst hl; rfl
  · rintro rfl
    exact ⟨[], rfl, by simp, rfl⟩

theorem RepK_le {P : List Int} (hP : ∀ p ∈ P, 0 < p) {k : Nat} {n : Int} (h : RepK P k n) :
    (k : Int) ≤ n := by
  obtain ⟨l, hl, hmem, rfl⟩ := h
  rw [← hl]
  exact sum_nonneg_of_pos hP hmem

theorem RepK_add {P : List Int} {k : Nat} {n p : Int} (h : RepK P k n) (hp : p ∈ P) :
    RepK P (k + 1) (n + p) := by
  obtain ⟨l, hl, hmem, rfl⟩ := h
  refine ⟨p :: l, by simp [hl], ?_, by simp [add_comm]⟩
  intro x hx
  rcases List.mem_cons.1 hx with rfl | hx
  · exact hp
  · exact hmem x hx

theorem RepK_pred {P : List Int} (hP : ∀ p ∈ P, 0 < p) {k : Nat} {n : Int} (h : RepK P k n)
    (hn : 0 < n) : ∃ p ∈ P, ∃ k', k = k' + 1 ∧ p ≤ n ∧ RepK P k' (n - p) := by
  obtain ⟨l, hl, hmem, rfl⟩ := h
  cases l with
  | nil => simp at hn
  | cons a l =>
    have hl2 : ∀ x ∈ l, x ∈ P := fun x hx => hmem x (by simp [hx])
    have h0 := sum_nonneg_of_pos hP hl2
    refine ⟨a, hmem a (by simp), l.length, by simpa using hl.symm, ?_, l, rfl, hl2, by simp⟩
    simp only [List.sum_cons]; omega

theorem RepK_Rep {P : List Int} {k : Nat} {n : Int} (h : RepK P k n) : Rep P n := by
  obtain ⟨l, _, hmem, hs⟩ := h
  exact ⟨l, hmem, hs⟩

theorem Rep_RepK {P : List Int} {n : Int} (h : Rep P n) : ∃ k, RepK P k n := by
  obtain ⟨l, hmem, hs⟩ := h
  exact ⟨l.length, l, rfl, hmem, hs⟩

theorem MinK_unique {P : List Int} {n : Int} {k k' : Nat} (h : MinK P n k) (h' : MinK P n k') :
    k = k' := by
  rcases lt_trichotomy k k' with hlt | heq | hlt
  · exact absurd h.1 (h'.2 k hlt)
  · exact heq
  · exact absurd h'.1 (h.2 k' hlt)

theorem exists_MinK {P : List Int} {n : Int} {k : Nat} (h : RepK P k n) :
    ∃ k0, k0 ≤ k ∧ MinK P n k0 := by
  classical
  have hex : ∃ k, RepK P k n := ⟨k, h⟩
  exact ⟨Nat.find hex, Nat.find_min' hex h, Nat.find_spec hex,
    fun k' hk' => Nat.find_min hex hk'⟩

theorem MinK_zero (P : List Int) : MinK P 0 0 :=
  ⟨RepK_zero_iff.2 rfl, fun k' hk' => absurd hk' (Nat.not_lt_zero k')⟩

theorem MinK_pred {P : List Int} (hP : ∀ p ∈ P, 0 < p) {k : Nat} {n : Int}
    (h : MinK P n (k + 1)) : ∃ p ∈ P, p ≤ n ∧ MinK P (n - p) k := by
  have hn : 0 < n := by have := RepK_le hP h.1; push_cast at this; omega
  obtain ⟨p, hp, k', hk', hpn, hrep⟩ := RepK_pred hP h.1 hn
  have : k' = k := by omega
  subst this
  refine ⟨p, hp, hpn, hrep, ?_⟩
  intro k2 hk2 hrep2
  have := RepK_add hrep2 hp
  rw [sub_add_cancel] at this
  exact h.2 (k2 + 1) (by omega) this

theorem MinK_succ_of {P : List Int} (hP : ∀ p ∈ P, 0 < p) {k : Nat} {n p : Int}
    (hp : p ∈ P) (hn : 0 < n) (h : MinK P (n - p) k)
    (hall : ∀ p' ∈ P, p' ≤ n → ∀ k', k' < k → ¬ MinK P (n - p') k') : MinK P n (k + 1) := by
  constructor
  · have := RepK_add h.1 hp
    rwa [sub_add_cancel] at this
  · intro k2 hk2 hrep2
    obtain ⟨p2, hp2, k3, hk3, hp2n, hrep3⟩ := RepK_pred hP hrep2 hn
    obtain ⟨k0, hk0, hmin⟩ := exists_MinK hrep3
    exact hall p2 hp2 hp2n k0 (by omega) hmin

theorem FirstIn_mem {C : Int → Prop} {l : List Int} {p : Int} (h : FirstIn C l p) :
    p ∈ l ∧ C p := by
  induction l with
  | nil => exact absurd h (by simp [FirstIn])
  | cons a l ih =>
    rcases h with ⟨h1, rfl⟩ | ⟨_, h2⟩
    · exact ⟨by simp, h1⟩
    · exact ⟨by simp [(ih h2).1], (ih h2).2⟩

theorem FirstIn_unique {C : Int → Prop} {l : List Int} {p p' : Int} (h : FirstIn C l p)
    (h' : FirstIn C l p') : p = p' := by
  induction l with
  | nil => exact absurd h (by simp [FirstIn])
  | cons a l ih =>
    rcases h with ⟨h1, rfl⟩ | ⟨h1, h2⟩
    · rcases h' with ⟨_, rfl⟩ | ⟨h3, _⟩
      · rfl
      · exact absurd h1 h3
    · rcases h' with ⟨h3, _⟩ | ⟨_, h4⟩
      · exact absurd h3 h1
      · exact ih h2 h4

theorem FirstIn_append_left {C : Int → Prop} {A : List Int} (B : List Int) {p : Int}
    (h : FirstIn C A p) : FirstIn C (A ++ B) p := by
  induction A with
  | nil => exact absurd h (by simp [FirstIn])
  | cons a A ih =>
    rcases h with ⟨h1, rfl⟩ | ⟨h1, h2⟩
    · exact Or.inl ⟨h1, rfl⟩
    · exact Or.inr ⟨h1, ih h2⟩

theorem FirstIn_append_right {C : Int → Prop} {A B : List Int} {p : Int}
    (hA : ∀ a ∈ A, ¬ C a) (h : FirstIn C B p) : FirstIn C (A ++ B) p := by
  induction A with
  | nil => exact h
  | cons a A ih =>
    exact Or.inr ⟨hA a (by simp), ih (fun x hx => hA x (by simp [hx]))⟩

theorem FirstIn_exists {C : Int → Prop} {l : List Int} (h : ∃ a ∈ l, C a) :
    ∃ p, FirstIn C l p := by
  classical
  induction l with
  | nil => obtain ⟨a, ha, _⟩ := h; simp at ha
  | cons a l ih =>
    by_cases hc : C a
    · exact ⟨a, Or.inl ⟨hc, rfl⟩⟩
    · obtain ⟨x, hx, hcx⟩ := h
      rcases List.mem_cons.1 hx with rfl | hx
      · exact absurd hcx hc
      · obtain ⟨p, hp⟩ := ih ⟨x, hx, hcx⟩
        exact ⟨p, Or.inr ⟨hc, hp⟩⟩

theorem FirstIn_congr {C D : Int → Prop} {l : List Int} {p : Int} (h : ∀ x ∈ l, (C x ↔ D x))
    (hf : FirstIn C l p) : FirstIn D l p := by
  induction l with
  | nil => exact absurd hf (by simp [FirstIn])
  | cons a l ih =>
    have ha := h a (by simp)
    rcases hf with ⟨h1, rfl⟩ | ⟨h1, h2⟩
    · exact Or.inl ⟨ha.1 h1, rfl⟩
    · exact Or.inr ⟨fun hd => h1 (ha.2 hd), ih (fun x hx => h x (by simp [hx])) h2⟩

theorem WalkSeq_props {P : List Int} {n : Int} {l : List Int} (h : WalkSeq P n l) :
    l.sum = n ∧ (∀ x ∈ l, x ∈ P) ∧ MinK P n l.length := by
  induction h with
  | done => exact ⟨rfl, by simp, MinK_zero P⟩
  | step hn hmin hfirst _ ih =>
    obtain ⟨h1, h2, _⟩ := ih
    have hm := FirstIn_mem hfirst
    refine ⟨by simp [h1], ?_, hmin⟩
    intro x hx
    rcases List.mem_cons.1 hx with rfl | hx
    · exact hm.1
    · exact h2 x hx

theorem WalkSeq_exists {P : List Int} (hP : ∀ p ∈ P, 0 < p) :
    ∀ (k : Nat) (n : Int), MinK P n k → ∃ l, WalkSeq P n l ∧ l.length = k := by
  intro k
  induction k with
  | zero =>
    intro n h
    have := RepK_zero_iff.1 h.1
    subst this
    exact ⟨[], WalkSeq.done, rfl⟩
  | succ k ih =>
    intro n h
    have hn : 0 < n := by have := RepK_le hP h.1; push_cast at this; omega
    obtain ⟨p, hp, hpn, hmin⟩ := MinK_pred hP h
    obtain ⟨p0, hp0⟩ := FirstIn_exists (C := fun x => x ≤ n ∧ MinK P (n - x) k) ⟨p, hp, hpn, hmin⟩
    obtain ⟨l, hl, hlen⟩ := ih (n - p0) (FirstIn_mem hp0).2.2
    refine ⟨p0 :: l, WalkSeq.step hn (by rw [hlen]; exact h) (by rw [hlen]; exact hp0) hl, by simp [hlen]⟩

theorem WalkSeq_unique {P : List Int} {n : Int} {l l' : List Int} (h : WalkSeq P n l)
    (h' : WalkSeq P n l') : l = l' := by
  induction h generalizing l' with
  | done =>
    cases h' with
    | done => rfl
    | step hn _ _ _ => exact absurd hn (lt_irrefl _)
  | step hn hmin hfirst _ ih =>
    cases h' with
    | done => exact absurd hn (lt_irrefl _)
    | step hn' hmin' hfirst' hw' =>
      have hk := MinK_unique hmin hmin'
      have hk' : _ = _ := Nat.succ_injective hk
      rw [← hk'] at hfirst'
      have hp := FirstIn_unique hfirst hfirst'
      subst hp
      rw [ih hw']

/-! ## findMinimumPacks: the table loops -/

theorem InnerInv_le {Q : List Int} {i : Nat} {P1 : List Int} {c r : Int}
    (h : InnerInv Q i P1 c r) : c ≤ maxInt32 := by
  rcases h with ⟨h1, _, _⟩ | ⟨k, h1, h2, _, _⟩
  · omega
  · omega

theorem InnerInv_nil (Q : List Int) (i : Nat) : InnerInv Q i [] maxInt32 (-1) :=
  Or.inl ⟨rfl, rfl, by simp⟩

theorem InnerInv_skip {Q : List Int} {i : Nat} {P1 : List Int} {c r p : Int}
    (hnone : ∀ k : Nat, p ≤ (i : Int) → MinK Q ((i : Int) - p) k → c ≤ (k : Int) + 1)
    (h : InnerInv Q i P1 c r) : InnerInv Q i (P1 ++ [p]) c r := by
  rcases h with ⟨h1, h2, h3⟩ | ⟨k, h1, h2, h3, h4⟩
  · refine Or.inl ⟨h1, h2, ?_⟩
    intro x hx hxi k hk hmin
    rcases List.mem_append.1 hx with hx | hx
    · exact h3 x hx hxi k hk hmin
    · simp at hx; subst hx
      have := hnone k hxi hmin
      omega
  · refine Or.inr ⟨k, h1, h2, FirstIn_append_left _ h3, ?_⟩
    intro x hx hxi k' hk' hmin
    rcases List.mem_append.1 hx with hx | hx
    · exact h4 x hx hxi k' hk' hmin
    · simp at hx; subst hx
      have := hnone k' hxi hmin
      omega

theorem InnerInv_update {Q : List Int} {i : Nat} {P1 : List Int} {c r p : Int} {kv : Nat}
    (hpi : p ≤ (i : Int)) (hmin : MinK Q ((i : Int) - p) kv) (hlt : (kv : Int) + 1 < c)
    (h : InnerInv Q i P1 c r) : InnerInv Q i (P1 ++ [p]) ((kv : Int) + 1) p := by
  have hc := InnerInv_le h
  refine Or.inr ⟨kv, rfl, by omega, ?_, ?_⟩
  · refine FirstIn_append_right ?_ (Or.inl ⟨⟨hpi, hmin⟩, rfl⟩)
    rintro a ha ⟨hai, hamin⟩
    rcases h with ⟨h1, _, h3⟩ | ⟨k, h1, _, _, h4⟩
    · exact h3 a ha hai kv (by omega) hamin
    · exact h4 a ha hai kv (by omega) hamin
  · intro x hx hxi k' hk' hmin'
    rcases List.mem_append.1 hx with hx | hx
    · rcases h with ⟨h1, _, h3⟩ | ⟨k, h1, _, _, h4⟩
      · exact h3 x hx hxi k' (by omega) hmin'
      · exact h4 x hx hxi k' (by omega) hmin'
    · simp at hx; subst hx
      have := MinK_unique hmin hmin'
      omega

theorem InnerInv_final {Q : List Int} (hQ : ∀ p ∈ Q, 0 < p) {i : Nat} (hi : 1 ≤ i) {c r : Int}
    (h : InnerInv Q i Q c r) : CellOK Q i c r := by
  have hipos : (0 : Int) < (i : Int) := by omega
  rcases h with ⟨h1, h2, h3⟩ | ⟨k, h1, h2, h3, h4⟩
  · refine Or.inl ⟨h1, h2, ?_⟩
    intro k hk hrep
    obtain ⟨k0, hk0, hmin⟩ := exists_MinK hrep
    cases k0 with
    | zero =>
      have := RepK_zero_iff.1 hmin.1
      omega
    | succ k1 =>
      obtain ⟨p, hp, hpi, hpm⟩ := MinK_pred hQ hmin
      exact h3 p hp hpi k1 (by omega) hpm
  · have hm := FirstIn_mem h3
    refine Or.inr ⟨k + 1, by push_cast; exact h1, by push_cast; exact h2, ?_, ?_⟩
    · exact MinK_succ_of hQ hm.1 hipos hm.2.2 h4
    · intro _
      exact ⟨k, rfl, h3⟩

theorem packsInner_mid {Q : List Int} {S i : Nat} (hQ : ∀ p ∈ Q, 0 < p)
    (hS : (S : Int) < intMax) (hiS : i ≤ S) :
    ∀ (P' P1 : List Int) (t : Tables), Q = P1 ++ P' → PackMid Q S t i P1 →
      ∃ t', packsInner (i : Int) t P' = some t' ∧ PackMid Q S t' i Q := by
  intro P'
  induction P' with
  | nil =>
    intro P1 t hQe hmid
    simp at hQe; subst hQe
    exact ⟨t, rfl, hmid⟩
  | cons p P' ih =>
    intro P1 t hQe hmid
    have hQe' : Q = (P1 ++ [p]) ++ P' := by simp [hQe]
    have hpQ : p ∈ Q := by rw [hQe]; simp
    have hp := hQ p hpQ
    suffices h : ∃ t1, packsInner (i : Int) t (p :: P') = packsInner (i : Int) t1 P' ∧
        PackMid Q S t1 i (P1 ++ [p]) by
      obtain ⟨t1, h1, h2⟩ := h
      rw [h1]; exact ih (P1 ++ [p]) t1 hQe' h2
    obtain ⟨hl1, hl2, hlow, hhigh, c, r, hc, hr, hinv⟩ := hmid
    have hcM := InnerInv_le hinv
    by_cases hpi : (i : Int) ≥ p
    · obtain ⟨m, hm⟩ := Int.eq_ofNat_of_zero_le (show 0 ≤ (i : Int) - p by omega)
      have hmi : m < i := by omega
      have hw : wrap ((i : Int) - p) = (m : Int) := by
        rw [wrap_eq (by omega) (by unfold intMax at *; omega)]; exact hm
      obtain ⟨d, par, hd, _, hcell⟩ := hlow m hmi (by omega)
      rcases hcell with ⟨hd1, _, hd3⟩ | ⟨kv, hd1, hd2, hd3, _⟩
      · refine ⟨t, ?_, hl1, hl2, hlow, hhigh, c, r, hc, hr, InnerInv_skip ?_ hinv⟩
        · simp only [packsInner, if_pos hpi, hw, index_natCast, hd, Option.some_bind, hd1,
            ne_eq, not_true_eq_false, if_false]
        · intro k _ hmin
          by_contra hcon
          rw [hm] at hmin
          exact hd3 k (by omega) hmin.1
      · have hw2 : wrap (d + 1) = (kv : Int) + 1 := by
          rw [hd1, wrap_eq (by omega) (by unfold intMax maxInt32 at *; omega)]
        have hdne : d ≠ maxInt32 := by omega
        rw [← hm] at hd3
        by_cases hlt : (kv : Int) + 1 < c
        · refine ⟨(t.1.set i ((kv : Int) + 1), t.2.set i p), ?_, by simp [hl1], by simp [hl2],
            ?_, ?_, (kv : Int) + 1, p, ?_, ?_, InnerInv_update hpi hd3 hlt hinv⟩
          · simp only [packsInner, if_pos hpi, hw, index_natCast, hd, Option.some_bind,
              hc, hw2, if_pos hlt, ne_eq, hdne, not_false_eq_true, if_true]
            rw [assign_natCast _ _ _ (by omega), Option.some_bind,
              assign_natCast _ _ _ (by omega), Option.some_bind]
          · intro j hj hjS
            simp only [List.getElem?_set_ne (show i ≠ j by omega)]
            exact hlow j hj hjS
          · intro j hj hjS
            simp only [List.getElem?_set_ne (show i ≠ j by omega)]
            exact hhigh j hj hjS
          · simp only [List.getElem?_set_self (show i < t.1.length by omega)]
          · simp only [List.getElem?_set_self (show i < t.2.length by omega)]
        · refine ⟨t, ?_, hl1, hl2, hlow, hhigh, c, r, hc, hr, InnerInv_skip ?_ hinv⟩
          · simp only [packsInner, if_pos hpi, hw, index_natCast, hd, Option.some_bind,
              hc, hw2, if_neg hlt, ne_eq, hdne, not_false_eq_true, if_true]
          · intro k _ hmin
            have := MinK_unique hd3 hmin
            subst this
            omega
    · refine ⟨t, ?_, hl1, hl2, hlow, hhigh, c, r, hc, hr, InnerInv_skip ?_ hinv⟩
      · simp only [packsInner, if_neg hpi]
      · intro k hk _
        omega

theorem packsInner_inv {Q : List Int} {S i : Nat} {t : Tables} (hQ : ∀ p ∈ Q, 0 < p)
    (hS : (S : Int) < intMax) (hi1 : 1 ≤ i) (hiS : i ≤ S) (hinv : PackInv Q S t i) :
    ∃ t', packsInner (i : Int) t Q = some t' ∧ PackInv Q S t' (i + 1) := by
  obtain ⟨hl1, hl2, hlow, hhigh⟩ := hinv
  have hmid : PackMid Q S t i [] :=
    ⟨hl1, hl2, hlow, fun j hj hjS => hhigh j (by omega) hjS, maxInt32, -1,
      (hhigh i le_rfl hiS).1, (hhigh i le_rfl hiS).2, InnerInv_nil Q i⟩
  obtain ⟨t', h1, g1, g2, glow, ghigh, c, r, gc, gr, ginv⟩ :=
    packsInner_mid hQ hS hiS Q [] t (by simp) hmid
  refine ⟨t', h1, g1, g2, ?_, ?_⟩
  · intro j hj hjS
    by_cases hji : j = i
    · subst hji
      exact ⟨c, r, gc, gr, InnerInv_final hQ hi1 ginv⟩
    · exact glow j (by omega) hjS
  · intro j hj hjS
    exact ghigh j (by omega) hjS

theorem packsLoop_inv {Q : List Int} {S : Nat} (hQ : ∀ p ∈ Q, 0 < p) (hS : (S : Int) < intMax) :
    ∀ (count i : Nat) (t : Tables), PackInv Q S t i → 1 ≤ i → i + count = S + 1 →
      ∃ t', forRange (fun t i => packsInner i t Q) count (i : Int) t = some t' ∧
        PackInv Q S t' (S + 1) := by
  intro count
  induction count with
  | zero =>
    intro i t hinv _ hc
    have : i = S + 1 := by omega
    subst this
    exact ⟨t, rfl, hinv⟩
  | succ n ih =>
    intro i t hinv hi1 hc
    obtain ⟨t1, h1, h2⟩ := packsInner_inv hQ hS hi1 (by omega) hinv
    obtain ⟨t2, h3, h4⟩ := ih (i + 1) t1 h2 (by omega) (by omega)
    refine ⟨t2, ?_, h4⟩
    simp only [forRange, h1, Option.some_bind]
    rw [wrap_eq (by omega) (by unfold intMax at *; omega)]
    exact_mod_cast h3

theorem initLoop_inv {S : Nat} (hS : (S : Int) < intMax) :
    ∀ (count i : Nat) (t : Tables), InitInv S t i → 1 ≤ i → i + count = S + 1 →
      ∃ t', forRange initStep count (i : Int) t = some t' ∧ InitInv S t' (S + 1) := by
  intro count
  induction count with
  | zero =>
    intro i t hinv _ hc
    have : i = S + 1 := by omega
    subst this
    exact ⟨t, rfl, hinv⟩
  | succ n ih =>
    intro i t hinv hi1 hc
    obtain ⟨hl1, hl2, h01, h02, hj⟩ := hinv
    have hstep : initStep t (i : Int) = some (t.1.set i maxInt32, t.2.set i (-1)) := by
      unfold initStep
      rw [assign_natCast _ _ _ (by omega), Option.some_bind,
        assign_natCast _ _ _ (by omega), Option.some_bind]
    have hinv1 : InitInv S (t.1.set i maxInt32, t.2.set i (-1)) (i + 1) := by
      refine ⟨by simp [hl1], by simp [hl2], ?_, ?_, ?_⟩
      · simp only [List.getElem?_set_ne (show i ≠ 0 by omega)]; exact h01
      · simp only [List.getElem?_set_ne (show i ≠ 0 by omega)]; exact h02
      · intro j hj1 hj2 hjS
        by_cases hji : j = i
        · subst hji
          simp only [List.getElem?_set_self (show j < t.1.length by omega),
            List.getElem?_set_self (show j < t.2.length by omega), and_self]
        · simp only [List.getElem?_set_ne (show i ≠ j by omega)]
          exact hj j hj1 (by omega) hjS
    obtain ⟨t2, h3, h4⟩ := ih (i + 1) _ hinv1 (by omega) (by omega)
    refine ⟨t2, ?_, h4⟩
    simp only [forRange, hstep, Option.some_bind]
    rw [wrap_eq (by omega) (by unfold intMax at *; omega)]
    exact_mod_cast h3

theorem InitInv_PackInv {Q : List Int} {S : Nat} {t : Tables} (h : InitInv S t (S + 1)) :
    PackInv Q S t 1 := by
  obtain ⟨hl1, hl2, h01, h02, hj⟩ := h
  refine ⟨hl1, hl2, ?_, ?_⟩
  · intro j hj1 _
    have : j = 0 := by omega
    subst this
    refine ⟨0, 0, h01, h02, Or.inr ⟨0, rfl, by unfold maxInt32; decide, ?_, ?_⟩⟩
    · exact_mod_cast MinK_zero Q
    · intro h; omega
  · intro j hj1 hjS
    exact hj j hj1 (by omega) hjS

theorem packTables_spec {Q : List Int} {S : Nat} (hQ : ∀ p ∈ Q, 0 < p) (hS : (S : Int) < intMax) :
    ∃ t, ((make (0 : Int) (wrap ((S : Int) + 1))).bind fun dp =>
        (make (0 : Int) (wrap ((S : Int) + 1))).bind fun parent =>
        (forRange initStep (iterations 1 (S : Int)) 1 (dp, parent)).bind fun t =>
        forRange (fun t i => packsInner i t Q) (iterations 1 (S : Int)) 1 t) = some t ∧
      PackInv Q S t (S + 1) := by
  have hw : wrap ((S : Int) + 1) = ((S + 1 : Nat) : Int) := by
    rw [wrap_eq (by omega) (by unfold intMax at *; omega)]; push_cast; rfl
  have hmk : make (0 : Int) (wrap ((S : Int) + 1)) = some (List.replicate (S + 1) 0) := by
    unfold make
    rw [hw, if_pos (Int.natCast_nonneg _), Int.toNat_natCast]
  have hit : iterations 1 (S : Int) = S := by simp [iterations]
  have hinit : InitInv S (List.replicate (S + 1) (0 : Int), List.replicate (S + 1) (0 : Int)) 1 := by
    refine ⟨by simp, by simp, by simp, by simp, ?_⟩
    intro j h1 h2; omega
  obtain ⟨t1, h1, h2⟩ := initLoop_inv hS S 1 _ hinit le_rfl (by omega)
  obtain ⟨t2, h3, h4⟩ := packsLoop_inv hQ hS S 1 t1 (InitInv_PackInv h2) le_rfl (by omega)
  refine ⟨t2, ?_, h4⟩
  rw [hmk, hit]
  simp only [Option.some_bind]
  have h1' : forRange initStep S 1 (List.replicate (S + 1) (0 : Int), List.replicate (S + 1) (0 : Int))
      = some t1 := by exact_mod_cast h1
  rw [h1']
  simp only [Option.some_bind]
  exact_mod_cast h3

/-! ## findMinimumPacks: the back-pointer walk and the breakdown -/

theorem WalkSeq_nil_inv {P : List Int} {n : Int} (h : WalkSeq P n []) : n = 0 := by
  cases h; rfl

theorem WalkSeq_cons_inv {P : List Int} {n p : Int} {l : List Int} (h : WalkSeq P n (p :: l)) :
    0 < n ∧ MinK P n (l.length + 1) ∧ FirstPack P n l.length p ∧ WalkSeq P (n - p) l := by
  cases h with
  | step h1 h2 h3 h4 => exact ⟨h1, h2, h3, h4⟩

theorem backtrack_walk {Q : List Int} {S : Nat} {t : Tables} (hQ : ∀ p ∈ Q, 0 < p)
    (hS : (S : Int) < intMax) (hinv : PackInv Q S t (S + 1)) :
    ∀ (l : List Int) (n : Nat), WalkSeq Q (n : Int) l → n ≤ S → (l.length : Int) < maxInt32 →
      ∀ (fuel : Nat) (acc : Breakdown), l.length < fuel →
        backtrack t.2 fuel (n : Int) acc = some (l.foldl incr acc) := by
  obtain ⟨_, _, hlow, _⟩ := hinv
  intro l
  induction l with
  | nil =>
    intro n hw _ _ fuel acc hf
    have hn := WalkSeq_nil_inv hw
    cases fuel with
    | zero => omega
    | succ f =>
      unfold backtrack
      rw [if_neg (by omega)]
      rfl
  | cons p l ih =>
    intro n hw hnS hlen fuel acc hf
    obtain ⟨hn, hmin, hfirst, hw'⟩ := WalkSeq_cons_inv hw
    simp only [List.length_cons] at hlen hf
    push_cast at hlen
    cases fuel with
    | zero => omega
    | succ f =>
      obtain ⟨d, par, _, hpar, hcell⟩ := hlow n (by omega) hnS
      have hfm := FirstIn_mem hfirst
      have hp := hQ p hfm.1
      have hpn : p ≤ (n : Int) := hfm.2.1
      have hparp : par = p := by
        rcases hcell with ⟨_, _, h3⟩ | ⟨k, _, _, hk, hk2⟩
        · exact absurd hmin.1 (h3 (l.length + 1) (by push_cast; omega))
        · obtain ⟨k', hk', hfp⟩ := hk2 (by omega)
          have := MinK_unique hmin hk
          have hkk : k' = l.length := by omega
          subst hkk
          exact FirstIn_unique hfp hfirst
      subst hparp
      obtain ⟨m, hm⟩ := Int.eq_ofNat_of_zero_le (show 0 ≤ (n : Int) - par by omega)
      have hwr : wrap ((n : Int) - par) = (m : Int) := by
        rw [wrap_eq (by omega) (by unfold intMax at *; omega)]; exact hm
      unfold backtrack
      rw [if_pos (by omega), index_natCast, hpar]
      simp only [Option.some_bind]
      rw [if_pos (by omega), hwr]
      rw [hm] at hw'
      have := ih m hw' (by omega) (by omega) f (incr acc par) (by omega)
      rw [this]
      rfl

theorem backtrack_stop {Q : List Int} {S : Nat} {t : Tables} (hinv : PackInv Q S t (S + 1))
    {n : Nat} (hn : 0 < n) (hnS : n ≤ S)
    (hno : ∀ k : Nat, (k : Int) < maxInt32 → ¬ RepK Q k (n : Int)) (fuel : Nat) (acc : Breakdown) :
    backtrack t.2 (fuel + 1) (n : Int) acc = some acc := by
  obtain ⟨_, _, hlow, _⟩ := hinv
  obtain ⟨d, par, _, hpar, hcell⟩ := hlow n (by omega) hnS
  have hp : par = -1 := by
    rcases hcell with ⟨_, h2, _⟩ | ⟨k, _, hk1, hk, _⟩
    · exact h2
    · exact absurd hk.1 (hno k hk1)
  unfold backtrack
  rw [if_pos (by omega), index_natCast, hpar]
  simp only [Option.some_bind]
  rw [if_neg (by simp [hp])]

theorem keys_incr (m : Breakdown) (k : Int) :
    (incr m k).map Prod.fst =
      if k ∈ m.map Prod.fst then m.map Prod.fst else m.map Prod.fst ++ [k] := by
  induction m with
  | nil => simp [incr]
  | cons a m ih =>
    obtain ⟨k', v⟩ := a
    by_cases h : k' = k
    · subst h; simp [incr]
    · have h' : ¬ k = k' := fun e => h e.symm
      simp only [incr, if_neg h, List.map_cons, ih, List.mem_cons, h', false_or]
      split <;> simp

theorem incr_spec (k : Int) :
    ∀ m : Breakdown, (∀ kv ∈ m, 0 < kv.2) → totalPacks m < intMax →
      weightedSum (incr m k) = weightedSum m + k ∧ totalPacks (incr m k) = totalPacks m + 1 ∧
      (∀ kv ∈ incr m k, 0 < kv.2) := by
  intro m
  induction m with
  | nil =>
    intro _ _
    have : wrap (0 + 1) = 1 := by unfold wrap; decide
    simp only [incr, this]
    simp [weightedSum, totalPacks]
  | cons a m ih =>
    obtain ⟨k', v⟩ := a
    intro hpos htot
    have hv : 0 < v := hpos (k', v) (by simp)
    have hpos' : ∀ kv ∈ m, 0 < kv.2 := fun kv h => hpos kv (by simp [h])
    have hnn : 0 ≤ totalPacks m := by
      unfold totalPacks
      apply List.sum_nonneg
      intro x hx
      obtain ⟨kv, hkv, rfl⟩ := List.mem_map.1 hx
      exact le_of_lt (hpos' kv hkv)
    have htot' : totalPacks (((k', v) :: m : Breakdown)) = v + totalPacks m := by
      simp [totalPacks]
    rw [htot'] at htot
    by_cases h : k' = k
    · subst h
      have hw : wrap (v + 1) = v + 1 := wrap_eq (by omega) (by omega)
      simp only [incr, if_true, hw]
      refine ⟨?_, ?_, ?_⟩
      · simp [weightedSum]; ring
      · simp [totalPacks]; ring
      · intro kv hkv
        rcases List.mem_cons.1 hkv with rfl | hkv
        · simp; omega
        · exact hpos' kv hkv
    · obtain ⟨h1, h2, h3⟩ := ih hpos' (by omega)
      simp only [incr, if_neg h]
      refine ⟨?_, ?_, ?_⟩
      · simp only [weightedSum, List.map_cons, List.sum_cons] at h1 ⊢
        rw [h1]; ring
      · simp only [totalPacks, List.map_cons, List.sum_cons] at h2 ⊢
        rw [h2]; ring
      · intro kv hkv
        rcases List.mem_cons.1 hkv with rfl | hkv
        · exact hv
        · exact h3 kv hkv

theorem foldl_incr_spec :
    ∀ (l : List Int) (acc : Breakdown), (∀ kv ∈ acc, 0 < kv.2) →
      totalPacks acc + l.length ≤ intMax →
      weightedSum (l.foldl incr acc) = weightedSum acc + l.sum ∧
      totalPacks (l.foldl incr acc) = totalPacks acc + l.length ∧
      (∀ kv ∈ l.foldl incr acc, 0 < kv.2) ∧
      (∀ x ∈ (l.foldl incr acc).map Prod.fst, x ∈ l ∨ x ∈ acc.map Prod.fst) ∧
      ((acc.map Prod.fst).Nodup → ((l.foldl incr acc).map Prod.fst).Nodup) := by
  intro l
  induction l with
  | nil =>
    intro acc hpos _
    refine ⟨by simp, by simp, hpos, fun x hx => Or.inr hx, fun h => h⟩
  | cons a l ih =>
    intro acc hpos htot
    simp only [List.length_cons] at htot
    push_cast at htot
    obtain ⟨h1, h2, h3⟩ := incr_spec a acc hpos (by omega)
    obtain ⟨g1, g2, g3, g4, g5⟩ := ih (incr acc a) h3 (by omega)
    simp only [List.foldl_cons]
    refine ⟨by rw [g1, h1]; simp; ring, by rw [g2, h2]; simp; ring, g3, ?_, ?_⟩
    · intro x hx
      rcases g4 x hx with h | h
      · exact Or.inl (by simp [h])
      · rw [keys_incr] at h
        split at h
        · exact Or.inr h
        · rcases List.mem_append.1 h with h | h
          · exact Or.inr h
          · simp at h; exact Or.inl (by simp [h])
    · intro hnd
      apply g5
      rw [keys_incr]
      split
      · exact hnd
      · rename_i hk
        rw [List.nodup_append]
        refine ⟨hnd, by simp, ?_⟩
        intro x hx hx2
        simp at hx2; subst hx2
        exact hk hx

theorem countPacks_spec {l : List Int} (hlen : (l.length : Int) ≤ intMax) :
    weightedSum (countPacks l) = l.sum ∧ totalPacks (countPacks l) = l.length ∧
    (∀ kv ∈ countPacks l, 0 < kv.2) ∧ (∀ kv ∈ countPacks l, kv.1 ∈ l) ∧
    ((countPacks l).map Prod.fst).Nodup := by
  obtain ⟨h1, h2, h3, h4, h5⟩ := foldl_incr_spec l [] (by simp) (by simp [totalPacks]; omega)
  refine ⟨by simpa [weightedSum] using h1, by simpa [totalPacks] using h2, h3, ?_, h5 (by simp)⟩
  intro kv hkv
  rcases h4 kv.1 (List.mem_map.2 ⟨kv, hkv, rfl⟩) with h | h
  · exact h
  · simp at h

/-! ## findMinimumPacks and Calculate: what is returned -/

theorem findMinimumPacks_bind (S : Int) (Q : List Int) :
    findMinimumPacks S Q =
      ((make (0 : Int) (wrap (S + 1))).bind fun dp =>
        (make (0 : Int) (wrap (S + 1))).bind fun parent =>
        (forRange initStep (iterations 1 S) 1 (dp, parent)).bind fun t =>
        forRange (fun t i => packsInner i t Q) (iterations 1 S) 1 t).bind
      (fun t => backtrack t.2 (S.toNat + 1) S []) := by
  unfold findMinimumPacks
  cases make (0 : Int) (wrap (S + 1)) with
  | none => rfl
  | some dp =>
    simp only [Option.some_bind]
    cases forRange initStep (iterations 1 S) 1 (dp, dp) with
    | none => rfl
    | some t => simp only [Option.some_bind]

theorem findMinimumPacks_walk {Q : List Int} {S : Nat} (hQ : ∀ p ∈ Q, 0 < p)
    (hS : (S : Int) < intMax) {l : List Int} (hw : WalkSeq Q (S : Int) l)
    (hlen : (l.length : Int) < maxInt32) :
    findMinimumPacks (S : Int) Q = some (countPacks l) := by
  obtain ⟨t, h1, h2⟩ := packTables_spec hQ hS
  have hp := WalkSeq_props hw
  have hls := sum_nonneg_of_pos hQ hp.2.1
  rw [hp.1] at hls
  rw [findMinimumPacks_bind, h1]
  simp only [Option.some_bind, Int.toNat_natCast]
  exact backtrack_walk hQ hS h2 l S hw le_rfl hlen (S + 1) [] (by omega)

theorem findMinimumPacks_stop {Q : List Int} {S : Nat} (hQ : ∀ p ∈ Q, 0 < p)
    (hS : (S : Int) < intMax) (hpos : 0 < S)
    (hno : ∀ k : Nat, (k : Int) < maxInt32 → ¬ RepK Q k (S : Int)) :
    findMinimumPacks (S : Int) Q = some [] := by
  obtain ⟨t, h1, h2⟩ := packTables_spec hQ hS
  rw [findMinimumPacks_bind, h1]
  simp only [Option.some_bind, Int.toNat_natCast]
  exact backtrack_stop h2 hpos le_rfl hno S []

theorem mem_sortInts {P : List Int} {x : Int} : x ∈ sortInts P ↔ x ∈ P :=
  (List.perm_insertionSort _ P).mem_iff

theorem sortInts_ne_nil {P : List Int} (h : P ≠ []) : sortInts P ≠ [] := by
  intro he
  have := (List.perm_insertionSort (fun a b : Int => a ≤ b) P).length_eq
  unfold sortInts at he
  rw [he] at this
  exact h (List.length_eq_zero.1 this.symm)

theorem RepK_congr {P Q : List Int} (h : ∀ x, x ∈ P ↔ x ∈ Q) {k : Nat} {n : Int} :
    RepK P k n ↔ RepK Q k n := by
  constructor
  · rintro ⟨l, h1, h2, h3⟩; exact ⟨l, h1, fun x hx => (h x).1 (h2 x hx), h3⟩
  · rintro ⟨l, h1, h2, h3⟩; exact ⟨l, h1, fun x hx => (h x).2 (h2 x hx), h3⟩

theorem Rep_congr {P Q : List Int} (h : ∀ x, x ∈ P ↔ x ∈ Q) {n : Int} :
    Rep P n ↔ Rep Q n := by
  constructor
  · rintro ⟨l, h2, h3⟩; exact ⟨l, fun x hx => (h x).1 (h2 x hx), h3⟩
  · rintro ⟨l, h2, h3⟩; exact ⟨l, fun x hx => (h x).2 (h2 x hx), h3⟩

theorem IsMinAmount_congr {P Q : List Int} (h : ∀ x, x ∈ P ↔ x ∈ Q) {q T : Int} :
    IsMinAmount P q T ↔ IsMinAmount Q q T := by
  unfold IsMinAmount
  constructor
  · rintro ⟨h1, h2, h3⟩
    exact ⟨h1, (Rep_congr h).1 h2, fun A a b c => h3 A a b ((Rep_congr h).2 c)⟩
  · rintro ⟨h1, h2, h3⟩
    exact ⟨h1, (Rep_congr h).2 h2, fun A a b c => h3 A a b ((Rep_congr h).1 c)⟩

theorem MinK_congr {P Q : List Int} (h : ∀ x, x ∈ P ↔ x ∈ Q) {k : Nat} {n : Int} :
    MinK P n k ↔ MinK Q n k := by
  unfold MinK
  constructor
  · rintro ⟨h1, h2⟩
    exact ⟨(RepK_congr h).1 h1, fun k' a b => h2 k' a ((RepK_congr h).2 b)⟩
  · rintro ⟨h1, h2⟩
    exact ⟨(RepK_congr h).2 h1, fun k' a b => h2 k' a ((RepK_congr h).1 b)⟩

theorem Calculate_unfold {q : Int} {P : List Int} (hq : 0 < q) (hne : P ≠ []) :
    Calculate q P = (findMinimumAmount q (sortInts P)).bind fun minAmount =>
      (findMinimumPacks minAmount (sortInts P)).bind fun b => some ⟨some b, none⟩ := by
  unfold Calculate
  rw [if_neg (by omega), if_neg (by simpa using hne)]

theorem Calculate_walk {q T : Int} {P l : List Int} (hq : 0 < q) (hne : P ≠ [])
    (hP : ∀ p ∈ P, 0 < p) (hB : ∀ p ∈ P, q + p < intMax) (hT : IsMinAmount P q T)
    (hw : WalkSeq (sortInts P) T l) (hlen : (l.length : Int) < maxInt32) :
    Calculate q P = some ⟨some (countPacks l), none⟩ := by
  have hne' := sortInts_ne_nil hne
  have hP' : ∀ p ∈ sortInts P, 0 < p := fun p hp => hP p (mem_sortInts.1 hp)
  have hlast : List.getLast (sortInts P) hne' ∈ P := mem_sortInts.1 (List.getLast_mem hne')
  have hT' : IsMinAmount (sortInts P) q T := (IsMinAmount_congr (fun x => mem_sortInts)).2 hT
  have hTlt := minAmount_lt hq hP hT _ hlast
  have hBl := hB _ hlast
  obtain ⟨S, hS⟩ := Int.eq_ofNat_of_zero_le (show 0 ≤ T by have := hT.1; omega)
  subst hS
  have hSS : (S : Int) < intMax := by omega
  rw [Calculate_unfold hq hne, findMinimumAmount_eq hq hne' hP' hBl hT', Option.some_bind,
    findMinimumPacks_walk hP' hSS hw hlen, Option.some_bind]

theorem Calculate_stop {q T : Int} {P : List Int} (hq : 0 < q) (hne : P ≠ [])
    (hP : ∀ p ∈ P, 0 < p) (hB : ∀ p ∈ P, q + p < intMax) (hT : IsMinAmount P q T)
    (hno : ∀ k : Nat, (k : Int) < maxInt32 → ¬ RepK P k T) :
    Calculate q P = some ⟨some [], none⟩ := by
  have hne' := sortInts_ne_nil hne
  have hP' : ∀ p ∈ sortInts P, 0 < p := fun p hp => hP p (mem_sortInts.1 hp)
  have hlast : List.getLast (sortInts P) hne' ∈ P := mem_sortInts.1 (List.getLast_mem hne')
  have hT' : IsMinAmount (sortInts P) q T := (IsMinAmount_congr (fun x => mem_sortInts)).2 hT
  have hTlt := minAmount_lt hq hP hT _ hlast
  have hBl := hB _ hlast
  obtain ⟨S, hS⟩ := Int.eq_ofNat_of_zero_le (show 0 ≤ T by have := hT.1; omega)
  subst hS
  have hSS : (S : Int) < intMax := by omega
  have hS0 : 0 < S := by have := hT.1; omega
  rw [Calculate_unfold hq hne, findMinimumAmount_eq hq hne' hP' hBl hT', Option.some_bind,
    findMinimumPacks_stop hP' hSS hS0
      (fun k hk hr => hno k hk ((RepK_congr (fun x => mem_sortInts)).1 hr)), Option.some_bind]

/-- Within the range of the marker: the minimal amount exists, the walk exists, and
`Calculate` returns the breakdown that counts the walk. -/
theorem Calculate_bounded {q : Int} {P : List Int} (hq : 0 < q) (hne : P ≠ [])
    (hP : ∀ p ∈ P, 0 < p) (hB : ∀ p ∈ P, q + p ≤ maxInt32) :
    ∃ T l, IsMinAmount P q T ∧ WalkSeq (sortInts P) T l ∧ (l.length : Int) ≤ T ∧
      T < maxInt32 ∧ Calculate q P = some ⟨some (countPacks l), none⟩ := by
  obtain ⟨T, hT⟩ := exists_minAmount hq hne hP
  have hP' : ∀ p ∈ sortInts P, 0 < p := fun p hp => hP p (mem_sortInts.1 hp)
  obtain ⟨p0, hp0⟩ := List.exists_mem_of_ne_nil P hne
  have hTlt := minAmount_lt hq hP hT p0 hp0
  have hB0 := hB p0 hp0
  obtain ⟨k, hk⟩ := Rep_RepK hT.2.1
  obtain ⟨k0, _, hmin⟩ := exists_MinK hk
  have hmin' : MinK (sortInts P) T k0 := (MinK_congr (fun x => mem_sortInts)).2 hmin
  obtain ⟨l, hl, hlen⟩ := WalkSeq_exists hP' k0 T hmin'
  have hle := RepK_le hP hmin.1
  refine ⟨T, l, hT, hl, by omega, by omega, ?_⟩
  exact Calculate_walk hq hne hP (fun p hp => by
    have := hB p hp; unfold intMax; unfold maxInt32 at this; omega) hT hl (by omega)

theorem sum_ones {l : List Int} (h : ∀ x ∈ l, x ∈ [(1 : Int)]) : l.sum = (l.length : Int) := by
  induction l with
  | nil => simp
  | cons a l ih =>
    have ha : a = 1 := by simpa using h a (by simp)
    have := ih (fun x hx => h x (by simp [hx]))
    simp only [List.sum_cons, List.length_cons, this, ha]
    push_cast; ring

theorem RepK_ones {k : Nat} {n : Int} (h : RepK [1] k n) : n = (k : Int) := by
  obtain ⟨l, hl, hmem, rfl⟩ := h
  rw [sum_ones hmem, hl]

theorem IsMinAmount_self {P : List Int} {q : Int} (h : Rep P q) : IsMinAmount P q q :=
  ⟨le_rfl, h, fun A h1 h2 => by omega⟩

/-- At the quantity `math.MaxInt32` with the single size `1` the count of packs
meets the marker and `Calculate` returns the empty breakdown. -/
theorem Calculate_at_marker : Calculate 2147483647 [1] = some ⟨some [], none⟩ := by
  have hrep : Rep [1] (2147483647 : Int) := by
    have := Rep_mul (P := [1]) (p := 1) (by simp) 2147483647
    simpa using this
  refine Calculate_stop (T := 2147483647) (by decide) (by simp) (by simp) ?_
    (IsMinAmount_self hrep) ?_
  · intro p hp
    have : p = 1 := by simpa using hp
    subst this
    unfold intMax; decide
  · intro k hk hr
    have := RepK_ones hr
    unfold maxInt32 at hk
    omega

theorem findMinimumAmount_at_marker : findMinimumAmount 2147483647 [1] = some 2147483647 := by
  have hrep : Rep [1] (2147483647 : Int) := by
    have := Rep_mul (P := [1]) (p := 1) (by simp) 2147483647
    simpa using this
  exact findMinimumAmount_eq (by decide) (by simp) (by simp) (by simp [intMax])
    (IsMinAmount_self hrep)

/-! ## Assignments of counts, sorting, and the executable checks -/

theorem expand_spec (c : Int → Nat) (L : List Int) :
    (expand c L).sum = (L.map (fun p => p * (c p : Int))).sum ∧
    ((expand c L).length : Int) = (L.map (fun p => (c p : Int))).sum ∧
    ∀ x ∈ expand c L, x ∈ L := by
  induction L with
  | nil => simp [expand]
  | cons a L ih =>
    obtain ⟨h1, h2, h3⟩ := ih
    refine ⟨?_, ?_, ?_⟩
    · simp only [expand, List.sum_append, List.sum_replicate, List.map_cons, List.sum_cons, h1,
        smul_eq_mul, nsmul_eq_mul]
      ring
    · simp only [expand, List.length_append, List.length_replicate, List.map_cons, List.sum_cons]
      push_cast
      rw [h2]
    · intro x hx
      simp only [expand, List.mem_append] at hx
      rcases hx with hx | hx
      · have := (List.mem_replicate.1 hx).2
        simp [this]
      · simp [h3 x hx]

theorem sortInts_perm_eq {P P' : List Int} (h : P.Perm P') : sortInts P = sortInts P' := by
  unfold sortInts
  have hs : ∀ L : List Int, List.Sorted (fun a b : Int => a ≤ b) (L.insertionSort (fun a b => a ≤ b)) :=
    fun L => List.sorted_insertionSort (fun a b : Int => a ≤ b) L
  have hp : (P.insertionSort (fun a b : Int => a ≤ b)).Perm (P'.insertionSort (fun a b : Int => a ≤ b)) :=
    ((List.perm_insertionSort _ P).trans h).trans (List.perm_insertionSort _ P').symm
  exact List.eq_of_perm_of_sorted hp (hs P) (hs P')

theorem RepK_succ_iff {P : List Int} {k : Nat} {n : Int} :
    RepK P (k + 1) n ↔ ∃ p ∈ P, RepK P k (n - p) := by
  constructor
  · rintro ⟨l, hl, hmem, rfl⟩
    cases l with
    | nil => simp at hl
    | cons a l =>
      refine ⟨a, hmem a (by simp), l, by simpa using hl, fun x hx => hmem x (by simp [hx]), ?_⟩
      simp
  · rintro ⟨p, hp, h⟩
    have := RepK_add h hp
    rwa [sub_add_cancel] at this

theorem repKb_iff {P : List Int} : ∀ {k : Nat} {n : Int}, repKb P k n = true ↔ RepK P k n := by
  intro k
  induction k with
  | zero =>
    intro n
    simp [repKb, RepK_zero_iff]
  | succ k ih =>
    intro n
    rw [RepK_succ_iff]
    simp only [repKb, List.any_eq_true]
    constructor
    · rintro ⟨p, hp, h⟩; exact ⟨p, hp, ih.1 h⟩
    · rintro ⟨p, hp, h⟩; exact ⟨p, hp, ih.2 h⟩

theorem minKb_iff {P : List Int} {n : Int} {k : Nat} : minKb P n k = true ↔ MinK P n k := by
  unfold minKb MinK
  rw [Bool.and_eq_true, repKb_iff, List.all_eq_true]
  constructor
  · rintro ⟨h1, h2⟩
    refine ⟨h1, fun k' hk' hr => ?_⟩
    have := h2 k' (List.mem_range.2 hk')
    rw [repKb_iff.2 hr] at this
    simp at this
  · rintro ⟨h1, h2⟩
    refine ⟨h1, fun j hj => ?_⟩
    have hn := h2 j (List.mem_range.1 hj)
    cases hb : repKb P j n with
    | true => exact absurd (repKb_iff.1 hb) hn
    | false => rfl

theorem firstInb_iff {C : Int → Prop} {Cb : Int → Bool} (h : ∀ x, Cb x = true ↔ C x) :
    ∀ {l : List Int} {p : Int}, firstInb Cb l p = true ↔ FirstIn C l p := by
  intro l
  induction l with
  | nil => intro p; simp [firstInb, FirstIn]
  | cons a l ih =>
    intro p
    simp only [firstInb, FirstIn]
    by_cases ha : Cb a = true
    · have hc := (h a).1 ha
      simp [ha, hc]
    · have hc : ¬ C a := fun hc => ha ((h a).2 hc)
      simp [ha, hc, ih]

theorem walkb_sound {P : List Int} : ∀ (l : List Int) (n : Int), walkb P n l = true → WalkSeq P n l := by
  intro l
  induction l with
  | nil =>
    intro n h
    simp only [walkb, decide_eq_true_eq] at h
    subst h
    exact WalkSeq.done
  | cons p l ih =>
    intro n h
    simp only [walkb, Bool.and_eq_true, decide_eq_true_eq] at h
    obtain ⟨⟨⟨h1, h2⟩, h3⟩, h4⟩ := h
    refine WalkSeq.step h1 (minKb_iff.1 h2) ?_ (ih _ h4)
    refine (firstInb_iff ?_).1 h3
    intro x
    simp only [Bool.and_eq_true, decide_eq_true_eq, minKb_iff]

theorem Rep_dvd {P : List Int} {d n : Int} (hd : ∀ p ∈ P, d ∣ p) (h : Rep P n) : d ∣ n := by
  obtain ⟨l, hl, rfl⟩ := h
  exact List.dvd_sum (fun x hx => hd x (hl x hx))

/-- Check of one scenario: the minimal amount and the walk determine what `Calculate` returns. -/
theorem Calculate_scenario {q T : Int} {P l : List Int} (hq : 0 < q) (hne : P ≠ [])
    (hP : ∀ p ∈ P, 0 < p) (hB : ∀ p ∈ P, q + p < intMax) (hqT : q ≤ T)
    (hrep : repKb P l.length T = true) {d : Int} (hd : ∀ p ∈ P, d ∣ p)
    (hgap : ∀ A, q ≤ A → A < T → ¬ d ∣ A)
    (hw : walkb (sortInts P) T l = true) (hlen : (l.length : Int) < maxInt32) :
    Calculate q P = some ⟨some (countPacks l), none⟩ :=
  Calculate_walk hq hne hP hB
    ⟨hqT, RepK_Rep (repKb_iff.1 hrep), fun A h1 h2 h3 => hgap A h1 h2 (Rep_dvd hd h3)⟩
    (walkb_sound l T hw) hlen

theorem sum_single {p : Int} {l : List Int} (h : ∀ x ∈ l, x ∈ [p]) : l.sum = p * (l.length : Int) := by
  induction l with
  | nil => simp
  | cons a l ih =>
    have ha : a = p := by simpa using h a (by simp)
    have := ih (fun x hx => h x (by simp [hx]))
    simp only [List.sum_cons, List.length_cons, this, ha]
    push_cast; ring

theorem RepK_single {p : Int} {k : Nat} {n : Int} : RepK [p] k n ↔ n = p * (k : Int) := by
  constructor
  · rintro ⟨l, hl, hmem, rfl⟩
    rw [sum_single hmem, hl]
  · rintro rfl
    refine ⟨List.replicate k p, by simp, ?_, by simp [mul_comm]⟩
    intro x hx
    simp [(List.mem_replicate.1 hx).2]

theorem MinK_single {p : Int} (hp : 0 < p) (k : Nat) : MinK [p] (p * (k : Int)) k := by
  refine ⟨RepK_single.2 rfl, fun k' hk' hr => ?_⟩
  have h := RepK_single.1 hr
  have h2 : (k : Int) = (k' : Int) := mul_left_cancel₀ (ne_of_gt hp) h
  omega

theorem WalkSeq_single {p : Int} (hp : 0 < p) :
    ∀ k : Nat, WalkSeq [p] (p * (k : Int)) (List.replicate k p) := by
  intro k
  induction k with
  | zero => simpa using (WalkSeq.done (P := [p]))
  | succ k ih =>
    have hsub : p * ((k + 1 : Nat) : Int) - p = p * (k : Int) := by push_cast; ring
    have hk0 : (0 : Int) ≤ p * (k : Int) := mul_nonneg (le_of_lt hp) (Int.natCast_nonneg k)
    rw [List.replicate_succ]
    refine WalkSeq.step ?_ ?_ ?_ ?_
    · rw [← hsub] at hk0; omega
    · rw [List.length_replicate]; exact MinK_single hp (k + 1)
    · rw [List.length_replicate]
      refine Or.inl ⟨⟨?_, ?_⟩, rfl⟩
      · rw [← hsub] at hk0; omega
      · rw [hsub]; exact MinK_single hp k
    · rw [hsub]; exact ih

theorem foldl_incr_replicate (p : Int) :
    ∀ (m : Nat) (j : Int), 0 ≤ j → j + m ≤ intMax →
      (List.replicate m p).foldl incr [(p, j)] = [(p, j + m)] := by
  intro m
  induction m with
  | zero => intro j _ _; simp
  | succ m ih =>
    intro j hj hb
    push_cast at hb
    have hw : wrap (j + 1) = j + 1 := wrap_eq (by omega) (by omega)
    rw [List.replicate_succ, List.foldl_cons]
    have : incr [(p, j)] p = [(p, j + 1)] := by simp [incr, hw]
    rw [this, ih (j + 1) (by omega) (by omega)]
    push_cast
    rw [add_assoc, add_comm 1 (m : Int)]

theorem countPacks_replicate (p : Int) {k : Nat} (hk : 1 ≤ k) (hb : (k : Int) ≤ intMax) :
    countPacks (List.replicate k p) = [(p, (k : Int))] := by
  obtain ⟨m, rfl⟩ : ∃ m, k = m + 1 := ⟨k - 1, by omega⟩
  push_cast at hb
  unfold countPacks
  rw [List.replicate_succ, List.foldl_cons]
  have hw : wrap (0 + 1) = 1 := by unfold wrap; decide
  have : incr [] p = [(p, 1)] := by simp only [incr, hw]
  rw [this, foldl_incr_replicate p m 1 (by omega) (by omega)]
  push_cast
  rw [add_comm]

theorem ceil_div_spec {q p : Int} (hq : 0 < q) (hp : 0 < p) :
    q ≤ p * ((q + p - 1) / p) ∧ p * ((q + p - 1) / p) < q + p ∧ 1 ≤ (q + p - 1) / p := by
  have h1 := Int.ediv_add_emod (q + p - 1) p
  have h2 := Int.emod_nonneg (q + p - 1) (ne_of_gt hp)
  have h3 := Int.emod_lt_of_pos (q + p - 1) hp
  refine ⟨by linarith, by linarith, ?_⟩
  by_contra hcon
  have hle : (q + p - 1) / p ≤ 0 := by omega
  have := mul_le_mul_of_nonneg_left hle (le_of_lt hp)
  rw [mul_zero] at this
  linarith

theorem IsMinAmount_single {q p : Int} (hq : 0 < q) (hp : 0 < p) :
    IsMinAmount [p] q (p * ((q + p - 1) / p)) := by
  obtain ⟨h1, h2, h3⟩ := ceil_div_spec hq hp
  obtain ⟨k, hk⟩ := Int.eq_ofNat_of_zero_le (show 0 ≤ (q + p - 1) / p by omega)
  refine ⟨h1, ?_, ?_⟩
  · rw [hk]; exact Rep_mul (by simp) k
  · intro A hA1 hA2 hrep
    obtain ⟨j, hj⟩ := Rep_RepK hrep
    have hAj := RepK_single.1 hj
    subst hAj
    have hlt : (j : Int) < (q + p - 1) / p := lt_of_mul_lt_mul_left hA2 (le_of_lt hp)
    have hle : (j : Int) ≤ (q + p - 1) / p - 1 := by omega
    have := mul_le_mul_of_nonneg_left hle (le_of_lt hp)
    rw [mul_sub, mul_one] at this
    linarith

theorem leastCount_some {P : List Int} {n : Int} {k : Nat} (hk : repKb P k n = true) :
    ∀ (fuel k0 : Nat), k0 ≤ k → k < k0 + fuel →
      (∀ j, k0 ≤ j → j < k → repKb P j n = false) → leastCount P n fuel k0 = some k := by
  intro fuel
  induction fuel with
  | zero => intro k0 h1 h2; omega
  | succ f ih =>
    intro k0 h1 h2 hlow
    unfold leastCount
    by_cases hk0 : k0 = k
    · subst hk0; rw [if_pos hk]
    · have := hlow k0 le_rfl (by omega)
      rw [this]
      simp only [Bool.false_eq_true, if_false]
      exact ih (k0 + 1) (by omega) (by omega) (fun j hj1 hj2 => hlow j (by omega) hj2)

theorem leastCount_none {P : List Int} {n : Int} (h : ∀ j, repKb P j n = false) :
    ∀ (fuel k0 : Nat), leastCount P n fuel k0 = none := by
  intro fuel
  induction fuel with
  | zero => intro k0; rfl
  | succ f ih =>
    intro k0
    unfold leastCount
    rw [h k0]
    simp only [Bool.false_eq_true, if_false]
    exact ih (k0 + 1)

theorem minCount_of_MinK {P : List Int} (hP : ∀ p ∈ P, 0 < p) {n : Int} {k : Nat}
    (h : MinK P n k) : minCount P n = some k := by
  have hle := RepK_le hP h.1
  unfold minCount
  refine leastCount_some (repKb_iff.2 h.1) _ 0 (Nat.zero_le k) (by omega) ?_
  intro j _ hj
  cases hb : repKb P j n with
  | true => exact absurd (repKb_iff.1 hb) (h.2 j hj)
  | false => rfl

theorem minCount_none {P : List Int} {n : Int} (h : ∀ k, ¬ RepK P k n) : minCount P n = none := by
  unfold minCount
  refine leastCount_none ?_ _ 0
  intro j
  cases hb : repKb P j n with
  | true => exact absurd (repKb_iff.1 hb) (h j)
  | false => rfl

theorem minCount_cases {P : List Int} (hP : ∀ p ∈ P, 0 < p) (n : Int) :
    (∃ k, MinK P n k ∧ minCount P n = some k) ∨ ((∀ k, ¬ RepK P k n) ∧ minCount P n = none) := by
  by_cases h : ∃ k, RepK P k n
  · obtain ⟨k, hk⟩ := h
    obtain ⟨k0, _, hmin⟩ := exists_MinK hk
    exact Or.inl ⟨k0, hmin, minCount_of_MinK hP hmin⟩
  · have h' : ∀ k, ¬ RepK P k n := fun k hk => h ⟨k, hk⟩
    exact Or.inr ⟨h', minCount_none h'⟩

theorem keepsMinimal_iff {P : List Int} (hP : ∀ p ∈ P, 0 < p) {n : Int} {k : Nat}
    (hmin : MinK P n (k + 1)) (x : Int) :
    keepsMinimal P n x = true ↔ x ≤ n ∧ MinK P (n - x) k := by
  unfold keepsMinimal
  rw [minCount_of_MinK hP hmin, Bool.and_eq_true, decide_eq_true_eq]
  rcases minCount_cases hP (n - x) with ⟨a, ha, hc⟩ | ⟨hno, hc⟩
  · rw [hc]
    simp only [beq_iff_eq, add_left_inj]
    constructor
    · rintro ⟨h1, h2⟩; subst h2; exact ⟨h1, ha⟩
    · rintro ⟨h1, h2⟩; exact ⟨h1, MinK_unique ha h2⟩
  · rw [hc]
    simp only [Bool.false_eq_true, and_false, false_iff, not_and]
    intro _ h2
    exact hno k h2.1

theorem keepsMinimal_false {P : List Int} {n : Int} (hno : ∀ k, ¬ RepK P k n) (x : Int) :
    keepsMinimal P n x = false := by
  unfold keepsMinimal
  rw [minCount_none hno]
  cases minCount P (n - x) <;> simp

theorem smallestOf_mem : ∀ {L : List Int} {b : Int}, smallestOf L = some b → b ∈ L := by
  intro L
  induction L with
  | nil => intro b h; simp [smallestOf] at h
  | cons a L ih =>
    intro b h
    unfold smallestOf at h
    cases hs : smallestOf L with
    | none =>
      rw [hs] at h
      simp only [Option.some.injEq] at h
      simp [h]
    | some c =>
      rw [hs] at h
      simp only [Option.some.injEq] at h
      rcases min_choice a c with hm | hm
      · rw [hm] at h; simp [h]
      · rw [hm] at h; subst h; simp [ih hs]

theorem smallestOf_head {a : Int} {L : List Int} (h : ∀ x ∈ L, a ≤ x) :
    smallestOf (a :: L) = some a := by
  unfold smallestOf
  cases hs : smallestOf L with
  | none => rfl
  | some c =>
    have := h c (smallestOf_mem hs)
    simp only [Option.some.injEq]
    exact min_eq_left this

theorem smallestOf_filter_first {C : Int → Prop} {Cb : Int → Bool}
    (hC : ∀ x, Cb x = true ↔ C x) :
    ∀ {L : List Int} {p : Int}, L.Sorted (fun a b => a ≤ b) → FirstIn C L p →
      smallestOf (L.filter Cb) = some p := by
  intro L
  induction L with
  | nil => intro p _ h; exact absurd h (by simp [FirstIn])
  | cons a L ih =>
    intro p hs hf
    have hs' := List.sorted_cons.1 hs
    rcases hf with ⟨h1, rfl⟩ | ⟨h1, h2⟩
    · rw [List.filter_cons_of_pos ((hC p).2 h1)]
      apply smallestOf_head
      intro x hx
      exact hs'.1 x (List.mem_filter.1 hx).1
    · have : ¬ Cb a = true := fun h => h1 ((hC a).1 h)
      rw [List.filter_cons_of_neg this]
      exact ih hs'.2 h2

theorem tieBreakPick_first {P : List Int} (hP : ∀ p ∈ P, 0 < p)
    (hsorted : P.Sorted (fun a b => a ≤ b)) {n : Int} {k : Nat} {p : Int}
    (hmin : MinK P n (k + 1)) (hf : FirstPack P n k p) : tieBreakPick P n = some p :=
  smallestOf_filter_first (keepsMinimal_iff hP hmin) hsorted hf

theorem tieBreakWalk_eq {P : List Int} (hP : ∀ p ∈ P, 0 < p)
    (hsorted : P.Sorted (fun a b => a ≤ b)) :
    ∀ (l : List Int) (n : Int), WalkSeq P n l → ∀ fuel, l.length ≤ fuel →
      tieBreakWalk P fuel n = l := by
  intro l
  induction l with
  | nil =>
    intro n hw fuel _
    have := WalkSeq_nil_inv hw
    subst this
    cases fuel with
    | zero => rfl
    | succ f => simp [tieBreakWalk]
  | cons p l ih =>
    intro n hw fuel hfuel
    obtain ⟨hn, hmin, hfirst, hw'⟩ := WalkSeq_cons_inv hw
    simp only [List.length_cons] at hfuel
    cases fuel with
    | zero => omega
    | succ f =>
      unfold tieBreakWalk
      rw [if_neg (by omega), tieBreakPick_first hP hsorted hmin hfirst]
      simp only
      rw [ih (n - p) hw' f (by omega)]

theorem tieBreakWalk_none {P : List Int} {n : Int} (hno : ∀ k, ¬ RepK P k n) (fuel : Nat) :
    tieBreakWalk P fuel n = [] := by
  cases fuel with
  | zero => rfl
  | succ f =>
    unfold tieBreakWalk
    split
    · rfl
    · have : P.filter (keepsMinimal P n) = [] := by
        rw [List.filter_eq_nil_iff]
        intro x _
        rw [keepsMinimal_false hno x]
        simp
      unfold tieBreakPick
      rw [this]
      rfl

theorem lookup_incr (k x : Int) :
    ∀ m : Breakdown, (∀ kv ∈ m, 0 < kv.2) → totalPacks m < intMax →
      lookup (incr m k) x = if x = k then lookup m k + 1 else lookup m x := by
  intro m
  induction m with
  | nil =>
    intro _ _
    have hw : wrap (0 + 1) = 1 := by unfold wrap; decide
    simp only [incr, lookup, hw]
    by_cases h : x = k
    · subst h; simp
    · have h' : ¬ k = x := fun e => h e.symm
      simp [h, h']
  | cons a m ih =>
    obtain ⟨k', v⟩ := a
    intro hpos htot
    have hv : 0 < v := hpos (k', v) (by simp)
    have hpos' : ∀ kv ∈ m, 0 < kv.2 := fun kv h => hpos kv (by simp [h])
    have hnn : 0 ≤ totalPacks m := by
      unfold totalPacks
      apply List.sum_nonneg
      intro y hy
      obtain ⟨kv, hkv, rfl⟩ := List.mem_map.1 hy
      exact le_of_lt (hpos' kv hkv)
    have htot' : totalPacks (((k', v) :: m : Breakdown)) = v + totalPacks m := by
      simp [totalPacks]
    rw [htot'] at htot
    by_cases h : k' = k
    · subst h
      have hw : wrap (v + 1) = v + 1 := wrap_eq (by omega) (by omega)
      simp only [incr, if_true, hw, lookup]
      by_cases hx : x = k'
      · subst hx; simp
      · have hx' : ¬ k' = x := fun e => hx e.symm
        simp [hx, hx']
    · have := ih hpos' (by omega)
      simp only [incr, if_neg h, lookup]
      by_cases hx : k' = x
      · subst hx
        have hx' : ¬ k' = k := h
        simp [hx']
      · simp only [if_neg hx, this, if_neg h]

theorem lookup_foldl_incr (x : Int) :
    ∀ (l : List Int) (acc : Breakdown), (∀ kv ∈ acc, 0 < kv.2) →
      totalPacks acc + l.length ≤ intMax →
      lookup (l.foldl incr acc) x = lookup acc x + (l.count x : Int) := by
  intro l
  induction l with
  | nil => intro acc _ _; simp
  | cons a l ih =>
    intro acc hpos htot
    simp only [List.length_cons] at htot
    push_cast at htot
    obtain ⟨_, h2, h3⟩ := incr_spec a acc hpos (by omega)
    rw [List.foldl_cons, ih (incr acc a) h3 (by omega), lookup_incr a x acc hpos (by omega)]
    by_cases hx : x = a
    · subst hx
      simp only [if_true, List.count_cons_self]
      push_cast; ring
    · have hx' : ¬ a = x := fun e => hx e.symm
      rw [if_neg hx, List.count_cons_of_ne hx]

theorem lookup_countPacks {l : List Int} (hlen : (l.length : Int) ≤ intMax) (x : Int) :
    lookup (countPacks l) x = (l.count x : Int) := by
  have := lookup_foldl_incr x l [] (by simp) (by simp [totalPacks]; omega)
  simpa [lookup, countPacks] using this

theorem tieBreak_ones (k : Nat) :
    tieBreakBreakdown [1] (k : Int) = countPacks (List.replicate k 1) := by
  unfold tieBreakBreakdown
  rw [Int.toNat_natCast]
  have hw := WalkSeq_single (p := 1) (by decide) k
  rw [one_mul] at hw
  rw [tieBreakWalk_eq (P := [1]) (by simp) (by simp) _ _ hw k (by simp)]

theorem findMinimumPacks_ones_marker :
    findMinimumPacks ((2147483647 : Nat) : Int) [1] = some [] := by
  refine findMinimumPacks_stop (by simp) (by unfold intMax; decide) (by decide) ?_
  intro k hk hr
  have := RepK_ones hr
  unfold maxInt32 at hk
  omega

/-! ## Calculate and the caller's slice -/

theorem CalculateInPlace_outcome (q : Int) (P : List Int) :
    (CalculateInPlace q P).2 = Calculate q P := by
  unfold CalculateInPlace Calculate
  split
  · rfl
  · split
    · rfl
    · rfl

theorem CalculateInPlace_slice (q : Int) (P : List Int) :
    (CalculateInPlace q P).1 = if q ≤ 0 ∨ P = [] then P else sortInts P := by
  unfold CalculateInPlace
  by_cases hq : q ≤ 0
  · simp [hq]
  · by_cases hP : P = []
    · subst hP; simp [hq]
    · have hlen : ¬ P.length = 0 := by simpa using hP
      rw [if_neg hq, if_neg hlen, if_neg (by simp [hq, hP])]

/-! ## Requests and responses -/

theorem foldl_appendValid (l : List Int) :
    ∀ acc : List Int, l.foldl appendValid acc = acc ++ l.filter (fun x => decide (0 < x)) := by
  induction l with
  | nil => intro acc; simp
  | cons a l ih =>
    intro acc
    rw [List.foldl_cons, ih]
    unfold appendValid
    by_cases ha : a > 0
    · have ha' : 0 < a := ha
      simp [ha, ha']
    · have ha' : ¬ 0 < a := ha
      simp [ha, ha']

theorem GetValidPackSizes_elems (r : PackRequest) :
    sliceElems r.GetValidPackSizes.2 =
      (sliceElems r.PackSizes).filter (fun x => decide (0 < x)) := by
  unfold PackRequest.GetValidPackSizes
  by_cases h : (sliceElems r.PackSizes).length = 0
  · rw [if_pos h]
    have : sliceElems r.PackSizes = [] := List.length_eq_zero.1 h
    rw [this]
    rfl
  · rw [if_neg h]
    simp [sliceElems, foldl_appendValid]

theorem wrap_add_wrap (a b : Int) : wrap (a + wrap b) = wrap (a + b) := by
  unfold wrap; omega

theorem wrap_wrap_add (a b : Int) : wrap (wrap a + b) = wrap (a + b) := by
  unfold wrap; omega

theorem foldl_totalsStep (l : Breakdown) :
    ∀ a b : Int, l.foldl totalsStep (wrap a, wrap b) =
      (wrap (a + weightedSum l), wrap (b + totalPacks l)) := by
  induction l with
  | nil => intro a b; simp [weightedSum, totalPacks]
  | cons kv l ih =>
    intro a b
    have h1 : totalsStep (wrap a, wrap b) kv = (wrap (a + kv.1 * kv.2), wrap (b + kv.2)) := by
      unfold totalsStep
      simp only [wrap_add_wrap, wrap_wrap_add]
    rw [List.foldl_cons, h1, ih]
    simp only [weightedSum, totalPacks, List.map_cons, List.sum_cons, add_assoc]

theorem CalculateTotals_eq (r : PackResponse) :
    r.CalculateTotals =
      { r with TotalItems := wrap (weightedSum (mapEntries r.PackBreakdown)),
               TotalPacks := wrap (totalPacks (mapEntries r.PackBreakdown)) } := by
  have h := foldl_totalsStep (mapEntries r.PackBreakdown) 0 0
  have h0 : wrap 0 = 0 := by unfold wrap; decide
  rw [h0, zero_add, zero_add] at h
  unfold PackResponse.CalculateTotals
  simp only [h]

theorem weightedSum_perm {b b' : Breakdown} (h : b.Perm b') : weightedSum b = weightedSum b' := by
  unfold weightedSum
  exact (h.map _).sum_eq

theorem totalPacks_perm {b b' : Breakdown} (h : b.Perm b') : totalPacks b = totalPacks b' := by
  unfold totalPacks
  exact (h.map _).sum_eq

/-! ## The repository and the service -/

theorem sortInts_sorted (l : List Int) : (sortInts l).Sorted (fun a b => a ≤ b) :=
  List.sorted_insertionSort (fun a b : Int => a ≤ b) l

theorem sortInts_perm (l : List Int) : (sortInts l).Perm l :=
  List.perm_insertionSort (fun a b : Int => a ≤ b) l

theorem sortInts_idem (l : List Int) : sortInts (sortInts l) = sortInts l :=
  sortInts_perm_eq (sortInts_perm l)

theorem sortInts_eq_nil {l : List Int} : sortInts l = [] ↔ l = [] := by
  constructor
  · intro h
    by_contra hne
    exact sortInts_ne_nil hne h
  · rintro rfl; rfl

theorem choosePackSizes_elems (s : packService) (request : PackRequest) :
    sliceElems (s.choosePackSizes request).1 = selectedSizes s.repository request := by
  unfold packService.choosePackSizes selectedSizes PackRequest.HasPackSizes
  by_cases h : sliceElems request.PackSizes = []
  · have hlen : ¬ (sliceElems request.PackSizes).length > 0 := by rw [h]; simp
    simp only [hlen, decide_False, h, ne_eq, not_true_eq_false, if_false]
    rfl
  · have hlen : (sliceElems request.PackSizes).length > 0 := List.length_pos.2 h
    simp only [hlen, decide_True, if_true, ne_eq, h, not_false_eq_true]
    exact GetValidPackSizes_elems request

theorem choosePackSizes_err (s : packService) (request : PackRequest) :
    (s.choosePackSizes request).2 = none := by
  unfold packService.choosePackSizes
  split <;> rfl

theorem CalculatePackDistribution_eq (s : packService) (request : PackRequest) :
    s.CalculatePackDistribution request =
      if request.Quantity ≤ 0 then
        some { response := none,
               err := some (GoError.validation "quantity must be greater than 0"),
               calculatorCalls := 0 }
      else if selectedSizes s.repository request = [] then
        some { response := none,
               err := some (GoError.validation "no valid pack sizes available"),
               calculatorCalls := 0 }
      else
        match s.calculator request.Quantity (selectedSizes s.repository request) with
        | (_, none) => none
        | (packSizes, some out) =>
          match out.err with
          | some e =>
            some { response := none,
                   err := some (GoError.wrapping "calculation failed: " (GoError.errorf e)),
                   calculatorCalls := 1 }
          | none =>
            some { response := some (NewPackResponse request.Quantity out.breakdown
                     (some packSizes)),
                   err := none, calculatorCalls := 1 } := by
  unfold packService.CalculatePackDistribution
  by_cases hq : request.Quantity ≤ 0
  · have hv : request.Validate = some (GoError.validation "quantity must be greater than 0") := by
      unfold PackRequest.Validate NewValidationError
      rw [if_pos hq]
    rw [hv, if_pos hq]
  · have hv : request.Validate = none := by
      unfold PackRequest.Validate
      rw [if_neg hq]
    rw [hv, if_neg hq]
    simp only [choosePackSizes_err, choosePackSizes_elems, List.length_eq_zero, NewValidationError]
    try rfl

theorem CalculatePackDistribution_ok {s : packService} {request : PackRequest}
    {packSizes : List Int} {b : Option Breakdown} (hq : ¬ request.Quantity ≤ 0)
    (hne : selectedSizes s.repository request ≠ [])
    (hc : s.calculator request.Quantity (selectedSizes s.repository request) =
      (packSizes, some ⟨b, none⟩)) :
    s.CalculatePackDistribution request =
      some { response := some (NewPackResponse request.Quantity b (some packSizes)),
             err := none, calculatorCalls := 1 } := by
  rw [CalculatePackDistribution_eq, if_neg hq, if_neg hne, hc]

theorem CalculatePackDistribution_none {s : packService} {request : PackRequest}
    {packSizes : List Int} (hq : ¬ request.Quantity ≤ 0)
    (hne : selectedSizes s.repository request ≠ [])
    (hc : s.calculator request.Quantity (selectedSizes s.repository request) =
      (packSizes, none)) :
    s.CalculatePackDistribution request = none := by
  rw [CalculatePackDistribution_eq, if_neg hq, if_neg hne, hc]

theorem CalculatePackDistribution_called {s : packService} {request : PackRequest}
    (hq : ¬ request.Quantity ≤ 0) (hne : selectedSizes s.repository request ≠ [])
    {r : ServiceResult} (hr : s.CalculatePackDistribution request = some r) :
    IsValidationError r.err = false ∧ r.calculatorCalls = 1 := by
  rw [CalculatePackDistribution_eq, if_neg hq, if_neg hne] at hr
  rcases hc : s.calculator request.Quantity (selectedSizes s.repository request) with
    ⟨ps, _ | out⟩
  · rw [hc] at hr
    exact Option.noConfusion hr
  · rw [hc] at hr
    rcases he : out.err with _ | e
    · simp only [he, Option.some.injEq] at hr
      subst hr
      exact ⟨rfl, rfl⟩
    · simp only [he, Option.some.injEq] at hr
      subst hr
      exact ⟨rfl, rfl⟩

theorem NewPackService_calculator (repository : InMemoryPackRepository) (q : Int)
    (P : List Int) (hq : ¬ q ≤ 0) (hne : P ≠ []) :
    (NewPackService repository).calculator q P = (sortInts P, Calculate q P) := by
  have h1 := CalculateInPlace_slice q P
  have h2 := CalculateInPlace_outcome q P
  rw [if_neg (by simp [hq, hne])] at h1
  show CalculateInPlace q P = _
  rw [← h1, ← h2]

theorem find?_nonpositive {sizes : List Int} :
    (sizes.find? (fun size => decide (size ≤ 0))).isSome = true ↔ ∃ x ∈ sizes, x ≤ 0 := by
  rw [List.find?_isSome]
  simp

/-! ## The first scan of findMinimumAmount -/

theorem findMinimumAmount_firstScan (q : Int) (P : List Int) :
    findMinimumAmount q P = (firstScan q P).bind fun r =>
      match r with
      | some amount => some amount
      | none => findMinimumAmountExtended q P := by
  unfold findMinimumAmount firstScan amountTable
  cases index P ((P.length : Int) - 1) with
  | none => rfl
  | some last =>
    simp only [Option.some_bind]
    cases make false (wrap (wrap (q + last) + 1)) with
    | none => rfl
    | some d0 =>
      simp only [Option.some_bind]
      cases assign d0 0 true with
      | none => rfl
      | some d1 =>
        simp only [Option.some_bind]
        cases reachTable P (wrap (q + last)) d1 with
        | none => rfl
        | some d2 => rfl

theorem amountTable_spec {q : Int} {P : List Int} {N : Nat} (hne : P ≠ [])
    (hP : ∀ p ∈ P, 0 < p) (hNe : q + P.getLast hne = (N : Int)) (hN : (N : Int) < intMax) :
    ∃ dp, amountTable q P = some dp ∧ ReachInv P N dp (N + 1) := by
  obtain ⟨dp, h1, h2⟩ := reachTable_spec (Q := P) (N := N) hP hN
  have hwN : wrap (q + P.getLast hne) = (N : Int) := by
    rw [wrap_eq (by omega) (by omega)]; exact hNe
  refine ⟨dp, ?_, h2⟩
  unfold amountTable
  rw [index_last hne]
  simp only [Option.some_bind, hwN]
  exact h1

theorem firstScan_of_le {q T : Int} {P : List Int} (hq : 0 ≤ q) (hne : P ≠ [])
    (hP : ∀ p ∈ P, 0 < p) (hB : q + P.getLast hne < intMax)
    (hT : IsMinAmount P q T) (hTle : T ≤ q + P.getLast hne) :
    firstScan q P = some (some T) := by
  have hlast := hP _ (List.getLast_mem hne)
  obtain ⟨N, hNe⟩ := Int.eq_ofNat_of_zero_le (show 0 ≤ q + P.getLast hne by omega)
  obtain ⟨t, hte⟩ := Int.eq_ofNat_of_zero_le (show 0 ≤ T by have := hT.1; omega)
  obtain ⟨a, hae⟩ := Int.eq_ofNat_of_zero_le hq
  have hN : (N : Int) < intMax := by omega
  obtain ⟨dp, h1, h2⟩ := amountTable_spec hne hP hNe hN
  have hwN : wrap (q + P.getLast hne) = (N : Int) := by
    rw [wrap_eq (by omega) (by omega)]; exact hNe
  have hsc : scan dp (iterations q (N : Int)) q = some (some T) := by
    have hit : iterations q (N : Int) = N + 1 - a := by
      simp only [iterations]; omega
    rw [hit, hae, hte]
    have hRep : Rep P (t : Int) := by rw [← hte]; exact hT.2.1
    refine scan_spec hN h2 (by omega) hRep (N + 1 - a) a (by have := hT.1; omega) (by omega) ?_
    intro A hA1 hA2
    exact hT.2.2 A (by omega) (by omega)
  unfold firstScan
  rw [index_last hne, h1]
  simp only [Option.some_bind, hwN]
  exact hsc

theorem firstScan_eq {q T : Int} {P : List Int} (hq : 0 < q) (hne : P ≠ [])
    (hP : ∀ p ∈ P, 0 < p) (hB : q + P.getLast hne < intMax)
    (hT : IsMinAmount P q T) : firstScan q P = some (some T) :=
  firstScan_of_le (le_of_lt hq) hne hP hB hT
    (le_of_lt (minAmount_lt hq hP hT _ (List.getLast_mem hne)))

theorem IsMinAmount_zero (P : List Int) : IsMinAmount P 0 0 :=
  ⟨le_rfl, Rep_zero P, fun A h1 h2 => by omega⟩

theorem firstScan_zero {P : List Int} (hne : P ≠ []) (hP : ∀ p ∈ P, 0 < p)
    (hB : P.getLast hne < intMax) : firstScan 0 P = some (some 0) :=
  firstScan_of_le le_rfl hne hP (by omega) (IsMinAmount_zero P)
    (by have := hP _ (List.getLast_mem hne); omega)

theorem firstScan_neg {q : Int} {P : List Int} (hq : q < 0)
    (hmin : -9223372036854775808 ≤ q) (hne : P ≠ []) (hP : ∀ p ∈ P, 0 < p)
    (hB : P.getLast hne ≤ intMax) : firstScan q P = none := by
  have hlast := hP _ (List.getLast_mem hne)
  have hw : wrap (q + P.getLast hne) = q + P.getLast hne :=
    wrap_eq (by omega) (by unfold intMax at *; omega)
  rcases lt_trichotomy (q + P.getLast hne) (-1) with h | h | h
  · have hw2 : wrap (q + P.getLast hne + 1) = q + P.getLast hne + 1 :=
      wrap_eq (by omega) (by unfold intMax at *; omega)
    unfold firstScan amountTable
    rw [index_last hne]
    simp only [Option.some_bind, hw, hw2]
    have : make false (q + P.getLast hne + 1) = none := by
      unfold make
      rw [if_neg (by omega)]
    rw [this]
    rfl
  · unfold firstScan amountTable
    rw [index_last hne]
    simp only [Option.some_bind, hw, h]
    rfl
  · obtain ⟨N, hNe⟩ := Int.eq_ofNat_of_zero_le (show 0 ≤ q + P.getLast hne by omega)
    have hN : (N : Int) < intMax := by unfold intMax at *; omega
    obtain ⟨dp, h1, _⟩ := amountTable_spec hne hP hNe hN
    unfold firstScan
    rw [index_last hne, h1]
    simp only [Option.some_bind, hw]
    rw [hNe]
    have hit : iterations q (N : Int) = (N - q).toNat + 1 := by
      simp only [iterations]; omega
    rw [hit]
    unfold scan
    have : index dp q = none := by
      unfold index
      rw [if_neg (by omega)]
    rw [this]

theorem amountTable_length {q : Int} {P : List Int} {dp : List Bool} (hne : P ≠ [])
    (hP : ∀ p ∈ P, 0 < p) (h0 : 0 ≤ q + P.getLast hne) (hB : q + P.getLast hne < intMax)
    (h : amountTable q P = some dp) : (dp.length : Int) = q + P.getLast hne + 1 := by
  obtain ⟨N, hNe⟩ := Int.eq_ofNat_of_zero_le h0
  obtain ⟨dp', h1, h2⟩ := amountTable_spec hne hP hNe (by omega)
  rw [h] at h1
  cases h1
  rw [h2.1, hNe]
  push_cast
  rfl

/-! ## The two ways findMinimumPacks and Calculate can end -/

theorem findMinimumPacks_cases {Q : List Int} {S : Nat} (hQ : ∀ p ∈ Q, 0 < p)
    (hS : (S : Int) < intMax) :
    (∃ l, WalkSeq Q (S : Int) l ∧ (l.length : Int) < maxInt32 ∧
      findMinimumPacks (S : Int) Q = some (countPacks l)) ∨
    (0 < S ∧ (∀ k : Nat, (k : Int) < maxInt32 → ¬ RepK Q k (S : Int)) ∧
      findMinimumPacks (S : Int) Q = some []) := by
  by_cases h : ∃ k : Nat, (k : Int) < maxInt32 ∧ RepK Q k (S : Int)
  · obtain ⟨k, hk, hr⟩ := h
    obtain ⟨k0, hk0, hmin⟩ := exists_MinK hr
    obtain ⟨l, hl, hlen⟩ := WalkSeq_exists hQ k0 (S : Int) hmin
    have hlt : (l.length : Int) < maxInt32 := by
      rw [hlen]
      have : (k0 : Int) ≤ (k : Int) := by exact_mod_cast hk0
      omega
    exact Or.inl ⟨l, hl, hlt, findMinimumPacks_walk hQ hS hl hlt⟩
  · have hno : ∀ k : Nat, (k : Int) < maxInt32 → ¬ RepK Q k (S : Int) :=
      fun k hk hr => h ⟨k, hk, hr⟩
    have hpos : 0 < S := by
      rcases Nat.eq_zero_or_pos S with h0 | h0
      · subst h0
        exact absurd (RepK_zero_iff.2 rfl) (hno 0 (by decide))
      · exact h0
    exact Or.inr ⟨hpos, hno, findMinimumPacks_stop hQ hS hpos hno⟩

theorem weightedSum_walk {Q : List Int} {n : Int} {l : List Int} (hw : WalkSeq Q n l)
    (hlen : (l.length : Int) < maxInt32) :
    weightedSum (countPacks l) = n ∧ totalPacks (countPacks l) = l.length := by
  have h := countPacks_spec (l := l) (by unfold intMax; unfold maxInt32 at hlen; omega)
  exact ⟨by rw [h.1, (WalkSeq_props hw).1], h.2.1⟩

theorem weightedSum_nil : weightedSum [] = 0 := rfl

theorem Calculate_cases {q : Int} {P : List Int} (hq : 0 < q) (hne : P ≠ [])
    (hP : ∀ p ∈ P, 0 < p) (hB : ∀ p ∈ P, q + p < intMax) :
    ∃ T, IsMinAmount P q T ∧ findMinimumAmount q (sortInts P) = some T ∧
      ((∃ l, WalkSeq (sortInts P) T l ∧ (l.length : Int) < maxInt32 ∧
          findMinimumPacks T (sortInts P) = some (countPacks l) ∧
          Calculate q P = some ⟨some (countPacks l), none⟩) ∨
        ((∀ k : Nat, (k : Int) < maxInt32 → ¬ RepK P k T) ∧
          findMinimumPacks T (sortInts P) = some [] ∧
          Calculate q P = some ⟨some [], none⟩)) := by
  obtain ⟨T, hT⟩ := exists_minAmount hq hne hP
  have hne' := sortInts_ne_nil hne
  have hP' : ∀ p ∈ sortInts P, 0 < p := fun p hp => hP p (mem_sortInts.1 hp)
  have hlast : List.getLast (sortInts P) hne' ∈ P := mem_sortInts.1 (List.getLast_mem hne')
  have hT' : IsMinAmount (sortInts P) q T := (IsMinAmount_congr (fun x => mem_sortInts)).2 hT
  have hTlt := minAmount_lt hq hP hT _ hlast
  have hBl := hB _ hlast
  obtain ⟨S, hS⟩ := Int.eq_ofNat_of_zero_le (show 0 ≤ T by have := hT.1; omega)
  subst hS
  have hSS : (S : Int) < intMax := by omega
  refine ⟨(S : Int), hT, findMinimumAmount_eq hq hne' hP' hBl hT', ?_⟩
  rcases findMinimumPacks_cases hP' hSS with ⟨l, hl, hlen, hf⟩ | ⟨_, hno, hf⟩
  · exact Or.inl ⟨l, hl, hlen, hf, Calculate_walk hq hne hP hB hT hl hlen⟩
  · have hno' : ∀ k : Nat, (k : Int) < maxInt32 → ¬ RepK P k (S : Int) :=
      fun k hk hr => hno k hk ((RepK_congr (fun x => mem_sortInts)).2 hr)
    exact Or.inr ⟨hno', hf, Calculate_stop hq hne hP hB hT hno'⟩

theorem findMinimumAmount_overflow {q : Int} {P : List Int} (hq : 0 < q) (hq2 : q ≤ intMax)
    (hne : P ≠ []) (h0 : 0 < P.getLast hne) (h1 : P.getLast hne ≤ intMax)
    (hB : intMax ≤ q + P.getLast hne) : findMinimumAmount q P = none := by
  have hmk : make false (wrap (wrap (q + P.getLast hne) + 1)) = none := by
    unfold make
    rw [if_neg]
    unfold wrap
    unfold intMax at *
    omega
  unfold findMinimumAmount
  rw [index_last hne]
  simp only [Option.some_bind]
  rw [hmk]
  rfl

theorem sortInts_le_getLast {P : List Int} (hne : sortInts P ≠ []) :
    ∀ p ∈ P, p ≤ (sortInts P).getLast hne := by
  intro p hp
  have hs := sortInts_sorted P
  have hp' : p ∈ sortInts P := mem_sortInts.2 hp
  obtain ⟨i, hi, rfl⟩ := List.getElem_of_mem hp'
  rw [List.getLast_eq_getElem]
  have hpair := List.pairwise_iff_getElem.1 hs
  by_cases hlt : i < (sortInts P).length - 1
  · exact hpair i ((sortInts P).length - 1) hi (by omega) hlt
  · have : i = (sortInts P).length - 1 := by omega
    subst this
    exact le_rfl

theorem Calculate_overflow {q : Int} {P : List Int} (hq : 0 < q) (hq2 : q ≤ intMax)
    (hne : P ≠ []) (hP : ∀ p ∈ P, 0 < p ∧ p ≤ intMax) {p : Int} (hp : p ∈ P)
    (hB : intMax ≤ q + p) : Calculate q P = none := by
  have hne' := sortInts_ne_nil hne
  have hlast : List.getLast (sortInts P) hne' ∈ P := mem_sortInts.1 (List.getLast_mem hne')
  have hle := sortInts_le_getLast hne' p hp
  rw [Calculate_unfold hq hne,
    findMinimumAmount_overflow hq hq2 hne' (hP _ hlast).1 (hP _ hlast).2 (by omega)]
  rfl

/-! ## Lists with the same sizes -/

theorem FirstIn_sorted_iff {C : Int → Prop} {p : Int} :
    ∀ {L : List Int}, L.Sorted (fun a b => a ≤ b) →
      (FirstIn C L p ↔ p ∈ L ∧ C p ∧ ∀ a ∈ L, a < p → ¬ C a) := by
  intro L
  induction L with
  | nil => intro _; simp [FirstIn]
  | cons a rest ih =>
    intro hs
    have hle : ∀ b ∈ rest, a ≤ b := (List.sorted_cons.1 hs).1
    have ih' := ih (List.sorted_cons.1 hs).2
    constructor
    · rintro (⟨hCa, rfl⟩ | ⟨hna, hf⟩)
      · refine ⟨by simp, hCa, ?_⟩
        intro b hb hlt
        rcases List.mem_cons.1 hb with rfl | hb'
        · omega
        · have := hle b hb'; omega
      · obtain ⟨hm, hCp, hall⟩ := ih'.1 hf
        refine ⟨List.mem_cons_of_mem _ hm, hCp, ?_⟩
        intro b hb hlt
        rcases List.mem_cons.1 hb with rfl | hb'
        · exact hna
        · exact hall b hb' hlt
    · rintro ⟨hm, hCp, hall⟩
      by_cases hCa : C a
      · left
        refine ⟨hCa, ?_⟩
        rcases List.mem_cons.1 hm with rfl | hm'
        · rfl
        · have h1 := hle p hm'
          by_contra hne
          exact hall a (by simp) (lt_of_le_of_ne h1 (fun h => hne h.symm)) hCa
      · right
        refine ⟨hCa, ih'.2 ⟨?_, hCp, fun b hb => hall b (List.mem_cons_of_mem _ hb)⟩⟩
        rcases List.mem_cons.1 hm with rfl | hm'
        · exact absurd hCp hCa
        · exact hm'

theorem FirstPack_sorted_congr {L L' : List Int} (hs : L.Sorted (fun a b => a ≤ b))
    (hs' : L'.Sorted (fun a b => a ≤ b)) (hmem : ∀ x, x ∈ L ↔ x ∈ L') {n : Int} {k : Nat}
    {p : Int} (h : FirstPack L n k p) : FirstPack L' n k p := by
  unfold FirstPack at h ⊢
  obtain ⟨hm, hC, hall⟩ := (FirstIn_sorted_iff hs).1 h
  refine (FirstIn_sorted_iff hs').2 ⟨(hmem p).1 hm, ⟨hC.1, (MinK_congr hmem).1 hC.2⟩, ?_⟩
  intro a ha hlt hCa
  exact hall a ((hmem a).2 ha) hlt ⟨hCa.1, (MinK_congr hmem).2 hCa.2⟩

theorem WalkSeq_sorted_congr {L L' : List Int} (hs : L.Sorted (fun a b => a ≤ b))
    (hs' : L'.Sorted (fun a b => a ≤ b)) (hmem : ∀ x, x ∈ L ↔ x ∈ L') {n : Int}
    {l : List Int} (h : WalkSeq L n l) : WalkSeq L' n l := by
  induction h with
  | done => exact WalkSeq.done
  | step hn hmin hfirst _ ih =>
    exact WalkSeq.step hn ((MinK_congr hmem).1 hmin) (FirstPack_sorted_congr hs hs' hmem hfirst) ih

theorem Calculate_mem_congr {q : Int} {P P' : List Int} (hq : 0 < q) (hq2 : q ≤ intMax)
    (hne : P ≠ []) (hP : ∀ p ∈ P, 0 < p ∧ p ≤ intMax) (hmem : ∀ x, x ∈ P' ↔ x ∈ P) :
    Calculate q P' = Calculate q P := by
  have hne' : P' ≠ [] := by
    obtain ⟨p, hp⟩ := List.exists_mem_of_ne_nil P hne
    exact List.ne_nil_of_mem ((hmem p).2 hp)
  have hP' : ∀ p ∈ P', 0 < p ∧ p ≤ intMax := fun p hp => hP p ((hmem p).1 hp)
  have hpos : ∀ p ∈ P, 0 < p := fun p hp => (hP p hp).1
  have hpos' : ∀ p ∈ P', 0 < p := fun p hp => (hP' p hp).1
  have hsm : ∀ x, x ∈ sortInts P ↔ x ∈ sortInts P' := fun x =>
    ⟨fun h => mem_sortInts.2 ((hmem x).2 (mem_sortInts.1 h)),
      fun h => mem_sortInts.2 ((hmem x).1 (mem_sortInts.1 h))⟩
  by_cases hB : ∀ p ∈ P, q + p < intMax
  · have hB' : ∀ p ∈ P', q + p < intMax := fun p hp => hB p ((hmem p).1 hp)
    obtain ⟨T, hT, _, hcase⟩ := Calculate_cases hq hne hpos hB
    have hT' : IsMinAmount P' q T := (IsMinAmount_congr hmem).2 hT
    rcases hcase with ⟨l, hl, hlen, _, hc⟩ | ⟨hno, _, hc⟩
    · rw [hc]
      exact Calculate_walk hq hne' hpos' hB' hT'
        (WalkSeq_sorted_congr (sortInts_sorted P) (sortInts_sorted P') hsm hl) hlen
    · rw [hc]
      exact Calculate_stop hq hne' hpos' hB' hT'
        (fun k hk hr => hno k hk ((RepK_congr hmem).1 hr))
  · have hex : ∃ p ∈ P, intMax ≤ q + p := by
      by_contra hcon
      exact hB (fun p hp => by
        by_contra hlt
        exact hcon ⟨p, hp, by omega⟩)
    obtain ⟨p, hp, hge⟩ := hex
    rw [Calculate_overflow hq hq2 hne hP hp hge,
      Calculate_overflow hq hq2 hne' hP' ((hmem p).2 hp) hge]

/-! ## The greedy fallback -/
theorem Rep_append {P : List Int} {a b : Int} (ha : Rep P a) (hb : Rep P b) : Rep P (a + b) := by
  obtain ⟨l1, h1, rfl⟩ := ha
  obtain ⟨l2, h2, rfl⟩ := hb
  refine ⟨l1 ++ l2, ?_, by simp⟩
  intro x hx
  rcases List.mem_append.1 hx with h | h
  · exact h1 x h
  · exact h2 x h

theorem greedyStep_spec {r t pack : Int} (hp : 0 < pack) (hr : 0 ≤ r) (ht : 0 ≤ t)
    (hB : r + t ≤ intMax) :
    greedyStep (r, t) pack = some (r - r / pack * pack, t + r / pack * pack) ∧
    0 ≤ r / pack ∧ 0 ≤ r - r / pack * pack ∧ r - r / pack * pack < pack ∧
    r / pack * pack ≤ r ∧ 0 ≤ r / pack * pack := by
  have hk0 : 0 ≤ r / pack := Int.ediv_nonneg hr (le_of_lt hp)
  have hm : r / pack * pack ≤ r := Int.ediv_mul_le r (ne_of_gt hp)
  have hmod : r - r / pack * pack < pack := by
    have h1 := Int.emod_lt_of_pos r hp
    have h2 := Int.emod_def r pack
    have h3 : pack * (r / pack) = r / pack * pack := mul_comm _ _
    omega
  have hkm : r / pack ≤ r / pack * pack := le_mul_of_one_le_right hk0 (by omega)
  have hm0 : 0 ≤ r / pack * pack := mul_nonneg hk0 (le_of_lt hp)
  refine ⟨?_, hk0, by omega, hmod, hm, hm0⟩
  have hwk : wrap (r / pack) = r / pack := wrap_eq (by omega) (by omega)
  have hwm : wrap (r / pack * pack) = r / pack * pack := wrap_eq (by omega) (by omega)
  have hw1 : wrap (r - r / pack * pack) = r - r / pack * pack := wrap_eq (by omega) (by omega)
  have hw2 : wrap (t + r / pack * pack) = t + r / pack * pack := wrap_eq (by omega) (by omega)
  unfold greedyStep
  rw [if_neg (ne_of_gt hp)]
  simp only [Int.tdiv_eq_ediv hr (le_of_lt hp), hwk, hwm, hw1, hw2]
  by_cases hk : r / pack > 0
  · rw [if_pos hk]
  · rw [if_neg hk]
    have : r / pack = 0 := by omega
    rw [this]
    simp

theorem greedyLoop_spec {P : List Int} (hP : ∀ p ∈ P, 0 < p) :
    ∀ (L : List Int) (r t : Int), (∀ p ∈ L, p ∈ P) → 0 ≤ r → 0 ≤ t → r + t ≤ intMax →
      Rep P t →
      greedyLoop L (r, t) = some (remainderAfter L r, t + (r - remainderAfter L r)) ∧
      0 ≤ remainderAfter L r ∧ remainderAfter L r ≤ r ∧
      Rep P (t + (r - remainderAfter L r)) := by
  intro L
  induction L with
  | nil =>
    intro r t _ hr _ _ hrep
    refine ⟨?_, hr, le_rfl, ?_⟩
    · simp [greedyLoop, remainderAfter]
    · simpa [remainderAfter] using hrep
  | cons pack rest ih =>
    intro r t hL hr ht hB hrep
    have hpm : pack ∈ P := hL pack (by simp)
    have hp := hP pack hpm
    obtain ⟨hs, hk0, hr0, _, hm, hm0⟩ := greedyStep_spec hp hr ht hB
    obtain ⟨k, hk⟩ := Int.eq_ofNat_of_zero_le hk0
    have hrep1 : Rep P (t + r / pack * pack) := by
      refine Rep_append hrep ?_
      rw [hk, mul_comm]
      exact Rep_mul hpm k
    obtain ⟨h1, h2, h3, h4⟩ := ih (r - r / pack * pack) (t + r / pack * pack)
      (fun p hp => hL p (List.mem_cons_of_mem _ hp)) hr0 (by omega) (by omega) hrep1
    have e : t + r / pack * pack + (r - r / pack * pack - remainderAfter rest (r - r / pack * pack))
        = t + (r - remainderAfter rest (r - r / pack * pack)) := by ring
    refine ⟨?_, ?_, ?_, ?_⟩
    · simp only [greedyLoop, hs, Option.some_bind, remainderAfter, h1, e]
    · simpa [remainderAfter] using h2
    · simp only [remainderAfter]; omega
    · simp only [remainderAfter]; rw [← e]; exact h4

theorem remainderAfter_append (L1 L2 : List Int) (r : Int) :
    remainderAfter (L1 ++ L2) r = remainderAfter L2 (remainderAfter L1 r) := by
  induction L1 generalizing r with
  | nil => rfl
  | cons a rest ih =>
    simp only [List.cons_append, remainderAfter]
    exact ih _

theorem remainderAfter_nonneg {L : List Int} (hL : ∀ p ∈ L, 0 < p) :
    ∀ r, 0 ≤ r → 0 ≤ remainderAfter L r := by
  induction L with
  | nil => intro r hr; exact hr
  | cons a rest ih =>
    intro r hr
    have ha := hL a (by simp)
    have hm : r / a * a ≤ r := Int.ediv_mul_le r (ne_of_gt ha)
    exact ih (fun p hp => hL p (List.mem_cons_of_mem _ hp)) _ (by omega)

theorem remainderAfter_lt_head {p0 : Int} {tl : List Int} (hP : ∀ p ∈ p0 :: tl, 0 < p)
    (q : Int) : remainderAfter (p0 :: tl).reverse q < p0 := by
  have hp0 := hP p0 (by simp)
  rw [List.reverse_cons, remainderAfter_append]
  simp only [remainderAfter]
  have h1 := Int.emod_lt_of_pos (remainderAfter tl.reverse q) hp0
  have h2 := Int.emod_def (remainderAfter tl.reverse q) p0
  have h3 : p0 * (remainderAfter tl.reverse q / p0) = remainderAfter tl.reverse q / p0 * p0 :=
    mul_comm _ _
  omega

theorem greedyMinimumAmount_spec {q : Int} {P : List Int} (hq : 0 < q) (hq2 : q ≤ intMax)
    (hne : P ≠ []) (hP : ∀ p ∈ P, 0 < p) :
    greedyMinimumAmount q P = some (wrap (greedyTotal q P)) ∧
    q ≤ greedyTotal q P ∧ Rep P (greedyTotal q P) ∧ greedyTotal q P < q + P.head hne ∧
    0 ≤ remainderAfter P.reverse q ∧ remainderAfter P.reverse q < P.head hne := by
  obtain ⟨p0, tl, rfl⟩ := List.exists_cons_of_ne_nil hne
  have hp0 := hP p0 (by simp)
  obtain ⟨h1, h2, h3, h4⟩ := greedyLoop_spec hP (p0 :: tl).reverse q 0
    (fun p hp => List.mem_reverse.1 hp) (le_of_lt hq) le_rfl (by omega) (Rep_zero _)
  have hlt := remainderAfter_lt_head hP q
  have hidx : index (p0 :: tl) 0 = some p0 := by simp [index]
  simp only [List.head_cons]
  simp only [zero_add] at h1 h4
  by_cases hr : remainderAfter (p0 :: tl).reverse q = 0
  · have hG : greedyTotal q (p0 :: tl) = q := by
      unfold greedyTotal
      rw [hr]; simp
    rw [hG]
    refine ⟨?_, le_rfl, ?_, by omega, h2, hlt⟩
    · unfold greedyMinimumAmount
      rw [h1, hr]
      simp only [Option.some_bind, gt_iff_lt, lt_self_iff_false, if_false, sub_zero]
      rw [wrap_eq (by omega) hq2]
    · rw [hr] at h4; simpa using h4
  · have hG : greedyTotal q (p0 :: tl) = q - remainderAfter (p0 :: tl).reverse q + p0 := by
      unfold greedyTotal
      rw [if_pos hr]; rfl
    have hpos : remainderAfter (p0 :: tl).reverse q > 0 := by omega
    rw [hG]
    refine ⟨?_, by omega, Rep_add h4 (by simp), by omega, h2, hlt⟩
    unfold greedyMinimumAmount
    rw [h1]
    simp only [Option.some_bind, if_pos hpos, hidx]

/-! ## Pack sizes that are not positive -/

theorem assign_length {α : Type} {s s' : List α} {i : Int} {v : α}
    (h : assign s i v = some s') : s'.length = s.length := by
  unfold assign at h
  split at h
  · cases h; simp
  · exact Option.noConfusion h

theorem reachInner_length {i : Int} : ∀ (Q : List Int) {dp dp' : List Bool},
    reachInner dp i Q = some dp' → dp'.length = dp.length := by
  intro Q
  induction Q with
  | nil =>
    intro dp dp' h
    simp only [reachInner] at h
    cases h; rfl
  | cons pack rest ih =>
    intro dp dp' h
    simp only [reachInner] at h
    split at h
    · split at h
      · exact Option.noConfusion h
      · exact assign_length h
      · exact ih h
    · exact ih h

theorem reachInner_neg_last {p0 : Int} {rest : List Int} {dp : List Bool} {M : Int}
    (hp0 : p0 < 0) (hmin : -9223372036854775808 ≤ p0) (hM : 0 ≤ M) (hM2 : M ≤ intMax)
    (hlen : (dp.length : Int) = M + 1) : reachInner dp M (p0 :: rest) = none := by
  have hidx : index dp (wrap (M - p0)) = none := by
    unfold index
    by_cases h : 0 ≤ wrap (M - p0)
    · rw [if_pos h]
      have hge : M + 1 ≤ wrap (M - p0) := by
        unfold wrap at h ⊢
        unfold intMax at hM2
        omega
      exact List.getElem?_eq_none (by omega)
    · rw [if_neg h]
  simp only [reachInner]
  rw [if_pos (by omega), hidx]

theorem forRange_neg {p0 : Int} {rest : List Int} {M : Int} (hp0 : p0 < 0)
    (hmin : -9223372036854775808 ≤ p0) (hM2 : M < intMax) :
    ∀ (count : Nat) (i : Int) (dp : List Bool), 1 ≤ i → (dp.length : Int) = M + 1 →
      i + (count : Int) = M →
      forRange (fun dp i => reachInner dp i (p0 :: rest)) (count + 1) i dp = none := by
  intro count
  induction count with
  | zero =>
    intro i dp hi hlen hc
    have : i = M := by simpa using hc
    subst this
    simp only [forRange]
    rw [reachInner_neg_last hp0 hmin (by omega) (le_of_lt hM2) hlen]
    rfl
  | succ n ih =>
    intro i dp hi hlen hc
    rw [forRange]
    cases hb : reachInner dp i (p0 :: rest) with
    | none => rfl
    | some dp1 =>
      have hl1 : (dp1.length : Int) = M + 1 := by rw [reachInner_length _ hb]; exact hlen
      have hw : wrap (i + 1) = i + 1 :=
        wrap_eq (by omega) (by unfold intMax at *; push_cast at hc; omega)
      simp only [Option.some_bind, hw]
      exact ih (i + 1) dp1 (by omega) hl1 (by push_cast at hc ⊢; omega)

theorem table_neg {p0 : Int} {rest : List Int} {M : Int} (hp0 : p0 < 0)
    (hmin : -9223372036854775808 ≤ p0) (hM1 : -9223372036854775808 ≤ M) (hM2 : M ≤ intMax)
    (hM0 : M ≠ 0) :
    ((make false (wrap (M + 1))).bind fun dp =>
      (assign dp 0 true).bind fun dp => reachTable (p0 :: rest) M dp) = none := by
  by_cases hneg : wrap (M + 1) < 0
  · have : make false (wrap (M + 1)) = none := by
      unfold make
      rw [if_neg (by omega)]
    rw [this]; rfl
  · have hMlt : M < intMax := by
      by_contra hcon
      have : M = intMax := by omega
      subst this
      exact hneg (by decide)
    have hw : wrap (M + 1) = M + 1 := wrap_eq (by omega) (by unfold intMax at *; omega)
    rw [hw] at hneg ⊢
    rcases lt_trichotomy M 0 with h | h | h
    · have hM : M = -1 := by omega
      subst hM
      rfl
    · exact absurd h hM0
    · obtain ⟨n, hn⟩ := Int.eq_ofNat_of_zero_le (show 0 ≤ M - 1 by omega)
      have hmk : make false (M + 1) = some (List.replicate (M + 1).toNat false) := by
        unfold make
        rw [if_pos (by omega)]
      rw [hmk]
      simp only [Option.some_bind]
      cases ha : assign (List.replicate (M + 1).toNat false) 0 true with
      | none => rfl
      | some dp1 =>
        have hl : (dp1.length : Int) = M + 1 := by
          rw [assign_length ha, List.length_replicate]
          omega
        simp only [Option.some_bind, reachTable]
        have hit : iterations 1 M = n + 1 := by
          simp only [iterations]; omega
        rw [hit]
        exact forRange_neg hp0 hmin hMlt n 1 dp1 le_rfl hl (by omega)

theorem extended_bound (q : Int) :
    10000 ≤ (if wrap (q * 2) < 10000 then 10000 else wrap (q * 2)) ∧
    (if wrap (q * 2) < 10000 then 10000 else wrap (q * 2)) < intMax := by
  by_cases h : wrap (q * 2) < 10000
  · rw [if_pos h]; exact ⟨le_rfl, by decide⟩
  · rw [if_neg h]
    refine ⟨by omega, ?_⟩
    unfold wrap intMax
    omega

theorem findMinimumAmountExtended_neg {p0 : Int} {rest : List Int} (q : Int) (hp0 : p0 < 0)
    (hmin : -9223372036854775808 ≤ p0) : findMinimumAmountExtended q (p0 :: rest) = none := by
  obtain ⟨h1, h2⟩ := extended_bound q
  have ht := @table_neg p0 rest _ hp0 hmin (by omega) (le_of_lt h2) (by omega)
  unfold findMinimumAmountExtended
  simp only
  cases hmk : make false (wrap ((if wrap (q * 2) < 10000 then 10000 else wrap (q * 2)) + 1)) with
  | none => rfl
  | some d0 =>
    rw [hmk] at ht
    simp only [Option.some_bind] at ht ⊢
    cases ha : assign d0 0 true with
    | none => rfl
    | some d1 =>
      rw [ha] at ht
      simp only [Option.some_bind] at ht ⊢
      rw [ht]
      rfl

theorem findMinimumAmount_neg {p0 : Int} {rest : List Int} {q : Int} (hq : 0 < q)
    (hp0 : p0 < 0) (hmin : -9223372036854775808 ≤ p0) :
    findMinimumAmount q (p0 :: rest) = none := by
  have hne : p0 :: rest ≠ [] := List.cons_ne_nil _ _
  rw [findMinimumAmount_firstScan]
  by_cases hM0 : wrap (q + (p0 :: rest).getLast hne) = 0
  · have hfs : firstScan q (p0 :: rest) = some none := by
      unfold firstScan amountTable
      rw [index_last hne]
      simp only [Option.some_bind, hM0]
      have hit : iterations q 0 = 0 := by simp only [iterations]; omega
      rw [hit]
      rfl
    rw [hfs]
    exact findMinimumAmountExtended_neg q hp0 hmin
  · have ht := @table_neg p0 rest (wrap (q + (p0 :: rest).getLast hne)) hp0 hmin
      (by unfold wrap; omega) (by unfold wrap intMax; omega) hM0
    have hfs : firstScan q (p0 :: rest) = none := by
      unfold firstScan amountTable
      rw [index_last hne]
      simp only [Option.some_bind]
      rw [ht]
      rfl
    rw [hfs]
    rfl

theorem sortInts_head_le {P : List Int} {p0 : Int} {rest : List Int}
    (h : sortInts P = p0 :: rest) : ∀ x ∈ P, p0 ≤ x := by
  intro x hx
  have hs := sortInts_sorted P
  rw [h] at hs
  have hx' : x ∈ p0 :: rest := by rw [← h]; exact mem_sortInts.2 hx
  rcases List.mem_cons.1 hx' with rfl | hr
  · exact le_rfl
  · exact (List.sorted_cons.1 hs).1 x hr

theorem Calculate_negative_size {q : Int} {P : List Int} (hq : 0 < q)
    (hP : ∀ p ∈ P, -9223372036854775808 ≤ p) {x : Int} (hx : x ∈ P)
    (hneg : x < 0) : Calculate q P = none := by
  have hne : P ≠ [] := List.ne_nil_of_mem hx
  obtain ⟨p0, rest, hs⟩ := List.exists_cons_of_ne_nil (sortInts_ne_nil hne)
  have hp0 : p0 < 0 := lt_of_le_of_lt (sortInts_head_le hs x hx) hneg
  have hmem : ∀ y ∈ p0 :: rest, y ∈ P := fun y hy => mem_sortInts.1 (by rw [hs]; exact hy)
  rw [Calculate_unfold hq hne, hs,
    findMinimumAmount_neg hq hp0 (hP p0 (hmem p0 (by simp)))]
  rfl

theorem reachInner_zero {dp : List Bool} {i : Int} (hi : 0 ≤ i) (hi2 : i ≤ intMax)
    (h : index dp i = some false) : reachInner dp i [0] = some dp := by
  have hw : wrap (i - 0) = i := by rw [sub_zero]; exact wrap_eq (by omega) hi2
  simp only [reachInner]
  rw [if_pos hi, hw, h]

theorem forRange_zero {dp : List Bool} :
    ∀ (count : Nat) (i : Int), 0 ≤ i → i + (count : Int) ≤ intMax →
      (∀ j : Int, i ≤ j → j < i + (count : Int) → index dp j = some false) →
      forRange (fun dp i => reachInner dp i [0]) count i dp = some dp := by
  intro count
  induction count with
  | zero => intro i _ _ _; rfl
  | succ n ih =>
    intro i hi hB hall
    rw [forRange, reachInner_zero hi (by push_cast at hB; omega)
      (hall i le_rfl (by push_cast; omega))]
    have hw : wrap (i + 1) = i + 1 := wrap_eq (by omega) (by push_cast at hB; omega)
    simp only [Option.some_bind, hw]
    exact ih (i + 1) (by omega) (by push_cast at hB ⊢; omega)
      (fun j h1 h2 => hall j (by omega) (by push_cast at h2 ⊢; omega))

theorem scan_false {dp : List Bool} :
    ∀ (count : Nat) (a : Int), a + (count : Int) ≤ intMax → -9223372036854775808 ≤ a →
      (∀ j : Int, a ≤ j → j < a + (count : Int) → index dp j = some false) →
      scan dp count a = some none := by
  intro count
  induction count with
  | zero => intro a _ _ _; rfl
  | succ n ih =>
    intro a hB ha hall
    rw [scan, hall a le_rfl (by push_cast; omega)]
    have hw : wrap (a + 1) = a + 1 := wrap_eq (by omega) (by push_cast at hB; omega)
    simp only [hw]
    exact ih (a + 1) (by push_cast at hB ⊢; omega) (by omega)
      (fun j h1 h2 => hall j (by omega) (by push_cast at h2 ⊢; omega))

theorem search_zero {q M : Int} (hq : 0 < q) (hq2 : q ≤ intMax) (hM : 0 ≤ M)
    (hM2 : M < intMax) :
    ∃ dp, make false (wrap (M + 1)) = some (List.replicate (M + 1).toNat false) ∧
      assign (List.replicate (M + 1).toNat false) 0 true = some dp ∧
      reachTable [0] M dp = some dp ∧
      scan dp (iterations q M) q = some none := by
  have hw : wrap (M + 1) = M + 1 := wrap_eq (by omega) (by unfold intMax at *; omega)
  obtain ⟨n, hn⟩ := Int.eq_ofNat_of_zero_le hM
  subst hn
  have htn : ((n : Int) + 1).toNat = n + 1 := by omega
  have hfalse : ∀ j : Int, 1 ≤ j → j < (n : Int) + 1 →
      index ((List.replicate (n + 1) false).set 0 true) j = some false := by
    intro j h1 h2
    obtain ⟨m, hm⟩ := Int.eq_ofNat_of_zero_le (show 0 ≤ j by omega)
    subst hm
    rw [index_natCast, List.getElem?_set_ne (by omega)]
    rw [List.getElem?_replicate, if_pos (by omega)]
  refine ⟨(List.replicate (n + 1) false).set 0 true, ?_, ?_, ?_, ?_⟩
  · unfold make
    rw [hw, if_pos (by omega)]
  · rw [htn]
    have := assign_natCast (List.replicate (n + 1) false) 0 true (by simp)
    simpa using this
  · unfold reachTable
    have hit : iterations 1 (n : Int) = n := by simp [iterations]
    rw [hit]
    exact forRange_zero n 1 (by omega) (by omega) (fun j h1 h2 => hfalse j h1 (by omega))
  · refine scan_false _ q ?_ (by omega) ?_
    · simp only [iterations]
      by_cases h : q ≤ (n : Int)
      · have : (((n : Int) - q + 1).toNat : Int) = (n : Int) - q + 1 := by omega
        omega
      · have : (((n : Int) - q + 1).toNat : Int) = 0 := by omega
        unfold intMax at *; omega
    · intro j h1 h2
      simp only [iterations] at h2
      exact hfalse j (by omega) (by omega)

theorem greedyMinimumAmount_zero (q : Int) : greedyMinimumAmount q [0] = none := rfl

theorem findMinimumAmountExtended_zero {q : Int} (hq : 0 < q) (hq2 : q ≤ intMax) :
    findMinimumAmountExtended q [0] = none := by
  obtain ⟨h1, h2⟩ := extended_bound q
  obtain ⟨dp, e1, e2, e3, e4⟩ := search_zero hq hq2 (by omega) h2
  unfold findMinimumAmountExtended
  simp only [e1, Option.some_bind, e2, e3, e4]
  rfl

theorem findMinimumAmount_zero_size {q : Int} (hq : 0 < q) (hq2 : q ≤ intMax) :
    findMinimumAmount q [0] = none := by
  have hl : index [(0 : Int)] ((([0] : List Int).length : Int) - 1) = some 0 := rfl
  have hwq : wrap (q + 0) = q := by rw [add_zero]; exact wrap_eq (by omega) hq2
  by_cases hmax : q = intMax
  · subst hmax
    rfl
  · obtain ⟨dp, e1, e2, e3, e4⟩ := search_zero hq hq2 (le_of_lt hq) (lt_of_le_of_ne hq2 hmax)
    unfold findMinimumAmount
    rw [hl]
    simp only [Option.some_bind, hwq, e1, e2, e3, e4]
    exact findMinimumAmountExtended_zero hq hq2

theorem Calculate_zero_size {q : Int} (hq : 0 < q) (hq2 : q ≤ intMax) :
    Calculate q [0] = none := by
  rw [Calculate_unfold hq (by simp)]
  have hs : sortInts [0] = [0] := rfl
  rw [hs, findMinimumAmount_zero_size hq hq2]
  rfl

/-! ## The extended search -/

theorem findMinimumAmountExtended_scan {q : Int} {P : List Int} (hP : ∀ p ∈ P, 0 < p)
    {N : Nat} (hN : (N : Int) = (if wrap (q * 2) < 10000 then 10000 else wrap (q * 2))) :
    ∃ dp, ReachInv P N dp (N + 1) ∧
      (∀ a, scan dp (iterations q (N : Int)) q = some (some a) →
        findMinimumAmountExtended q P = some a) ∧
      (scan dp (iterations q (N : Int)) q = some none →
        findMinimumAmountExtended q P = greedyMinimumAmount q P) := by
  have hNlt : (N : Int) < intMax := by rw [hN]; exact (extended_bound q).2
  obtain ⟨dp, h1, hinv⟩ := reachTable_spec (Q := P) (N := N) hP hNlt
  have key : ∀ r, scan dp (iterations q (N : Int)) q = some r →
      findMinimumAmountExtended q P =
        (match r with
          | some amount => some amount
          | none => greedyMinimumAmount q P) := by
    intro r hr
    unfold findMinimumAmountExtended
    simp only [← hN]
    cases hmk : make false (wrap ((N : Int) + 1)) with
    | none => simp [hmk] at h1
    | some d0 =>
      rw [hmk] at h1
      simp only [Option.some_bind] at h1 ⊢
      cases has : assign d0 0 true with
      | none => simp [has] at h1
      | some d1 =>
        rw [has] at h1
        simp only [Option.some_bind] at h1 ⊢
        rw [h1]
        simp only [Option.some_bind, hr]
  exact ⟨dp, hinv, fun a ha => key (some a) ha, fun hn => key none hn⟩

theorem remainderAfter_small : ∀ (L : List Int) (r : Int), 0 ≤ r → (∀ p ∈ L, r < p) →
    remainderAfter L r = r := by
  intro L
  induction L with
  | nil => intro r _ _; rfl
  | cons a rest ih =>
    intro r hr hL
    have hz : r / a = 0 := Int.ediv_eq_zero_of_lt hr (hL a (by simp))
    simp only [remainderAfter, hz, zero_mul, sub_zero]
    exact ih r hr (fun p hp => hL p (List.mem_cons_of_mem _ hp))

theorem Rep_ge_of_le {P : List Int} {h T : Int} (hP : ∀ p ∈ P, 0 < p) (hh : ∀ p ∈ P, h ≤ p)
    (hT : Rep P T) (hpos : 0 < T) : h ≤ T := by
  obtain ⟨l, hl, rfl⟩ := hT
  cases l with
  | nil => simp at hpos
  | cons x l' =>
    have h1 := hh x (hl x (by simp))
    have h2 := sum_nonneg_of_pos hP (fun y hy => hl y (List.mem_cons_of_mem _ hy))
    simp only [List.sum_cons]
    omega

theorem sorted_head_le {P : List Int} (hne : P ≠ []) (hs : P.Sorted (fun a b => a ≤ b)) :
    ∀ p ∈ P, P.head hne ≤ p := by
  obtain ⟨p0, tl, rfl⟩ := List.exists_cons_of_ne_nil hne
  intro p hp
  simp only [List.head_cons]
  rcases List.mem_cons.1 hp with rfl | h
  · exact le_rfl
  · exact (List.sorted_cons.1 hs).1 p h

theorem greedyMinimumAmount_small {q : Int} {P : List Int} (hq : 0 < q) (hq2 : q ≤ intMax)
    (hne : P ≠ []) (hP : ∀ p ∈ P, 0 < p ∧ p ≤ intMax) (hbig : ∀ p ∈ P, q < p) :
    greedyMinimumAmount q P = some (P.head hne) := by
  have hpos : ∀ p ∈ P, 0 < p := fun p hp => (hP p hp).1
  have hrem : remainderAfter P.reverse q = q :=
    remainderAfter_small P.reverse q (le_of_lt hq) (fun p hp => hbig p (List.mem_reverse.1 hp))
  have hG : greedyTotal q P = P.head hne := by
    unfold greedyTotal
    rw [hrem, if_pos (ne_of_gt hq)]
    obtain ⟨p0, tl, rfl⟩ := List.exists_cons_of_ne_nil hne
    simp
  rw [(greedyMinimumAmount_spec hq hq2 hne hpos).1, hG,
    wrap_eq (by have := hpos _ (List.head_mem hne); omega) (hP _ (List.head_mem hne)).2]

theorem findMinimumAmountExtended_eq {q T : Int} {P : List Int} (hq : 0 < q)
    (hq2 : q * 2 ≤ intMax) (hne : P ≠ []) (hP : ∀ p ∈ P, 0 < p ∧ p ≤ intMax)
    (hs : P.Sorted (fun a b => a ≤ b)) (hT : IsMinAmount P q T) :
    findMinimumAmountExtended q P = some T ∧
    ((if q * 2 < 10000 then 10000 else q * 2) < T →
      greedyMinimumAmount q P = some T ∧ T = P.head hne ∧ ∀ p ∈ P, q < p) := by
  have hpos : ∀ p ∈ P, 0 < p := fun p hp => (hP p hp).1
  have hw : wrap (q * 2) = q * 2 := wrap_eq (by omega) hq2
  have hE0 : 10000 ≤ (if q * 2 < 10000 then 10000 else q * 2) ∧
      q * 2 ≤ (if q * 2 < 10000 then 10000 else q * 2) := by
    by_cases h : q * 2 < 10000
    · rw [if_pos h]; omega
    · rw [if_neg h]; omega
  obtain ⟨N, hNe⟩ := Int.eq_ofNat_of_zero_le
    (show 0 ≤ (if q * 2 < 10000 then 10000 else q * 2) by omega)
  rw [hNe] at hE0 ⊢
  have hN : (N : Int) = (if wrap (q * 2) < 10000 then 10000 else wrap (q * 2)) := by
    rw [hw, hNe]
  have hNlt : (N : Int) < intMax := by rw [hN]; exact (extended_bound q).2
  obtain ⟨dp, hinv, hfound, hnone⟩ := findMinimumAmountExtended_scan hpos hN
  obtain ⟨t, hte⟩ := Int.eq_ofNat_of_zero_le (show 0 ≤ T by have := hT.1; omega)
  obtain ⟨a, hae⟩ := Int.eq_ofNat_of_zero_le (le_of_lt hq)
  have hgreedy : (N : Int) < T →
      greedyMinimumAmount q P = some T ∧ T = P.head hne ∧ ∀ p ∈ P, q < p := by
    intro hlt
    have hbig : ∀ p ∈ P, q < p := by
      intro p hp
      have := minAmount_lt hq hpos hT p hp
      omega
    have hhead := List.head_mem hne
    have hTh : T = P.head hne := by
      have hrh : Rep P (P.head hne) := by
        have := Rep_add (Rep_zero P) hhead
        simpa using this
      have h1 : T ≤ P.head hne := by
        by_contra hcon
        exact hT.2.2 (P.head hne) (le_of_lt (hbig _ hhead)) (by omega) hrh
      have h2 : P.head hne ≤ T :=
        Rep_ge_of_le hpos (sorted_head_le hne hs) hT.2.1 (by have := hT.1; omega)
      omega
    refine ⟨?_, hTh, hbig⟩
    rw [hTh]
    exact greedyMinimumAmount_small hq (by omega) hne hP hbig
  refine ⟨?_, hgreedy⟩
  by_cases hTE : T ≤ (N : Int)
  · apply hfound
    have hit : iterations q (N : Int) = N + 1 - a := by
      simp only [iterations]; omega
    rw [hit, hae, hte]
    have hRep : Rep P (t : Int) := by rw [← hte]; exact hT.2.1
    refine scan_spec hNlt hinv (by omega) hRep (N + 1 - a) a (by have := hT.1; omega)
      (by omega) ?_
    intro A hA1 hA2
    exact hT.2.2 A (by omega) (by omega)
  · rw [hnone ?_]
    · exact (hgreedy (by omega)).1
    · refine scan_false _ q ?_ (by omega) ?_
      · simp only [iterations]; unfold intMax at *; omega
      · intro j h1 h2
        simp only [iterations] at h2
        obtain ⟨m, hm⟩ := Int.eq_ofNat_of_zero_le (show 0 ≤ j by omega)
        subst hm
        have hmN : m ≤ N := by omega
        obtain ⟨b, hb1, hb2⟩ := hinv.2.1 m (by omega) hmN
        rw [index_natCast, hb1]
        cases b with
        | false => rfl
        | true => exact absurd (hb2.1 rfl) (hT.2.2 _ h1 (by omega))

theorem findMinimumAmountExtended_beyond {q : Int} {P : List Int} (hP : ∀ p ∈ P, 0 < p)
    (hq : (if wrap (q * 2) < 10000 then 10000 else wrap (q * 2)) < q) :
    findMinimumAmountExtended q P = greedyMinimumAmount q P := by
  obtain ⟨h0, _⟩ := extended_bound q
  obtain ⟨N, hN⟩ := Int.eq_ofNat_of_zero_le
    (show 0 ≤ (if wrap (q * 2) < 10000 then 10000 else wrap (q * 2)) by omega)
  obtain ⟨dp, _, _, hnone⟩ := findMinimumAmountExtended_scan (q := q) hP hN.symm
  apply hnone
  have hit : iterations q (N : Int) = 0 := by
    simp only [iterations]; omega
  rw [hit]
  rfl

theorem sorted_le_getLast {P : List Int} (hne : P ≠ []) (hs : P.Sorted (fun a b => a ≤ b)) :
    ∀ p ∈ P, p ≤ P.getLast hne := by
  induction P with
  | nil => exact absurd rfl hne
  | cons a rest ih =>
    intro p hp
    have hs' := List.sorted_cons.1 hs
    by_cases hr : rest = []
    · subst hr
      simp only [List.mem_singleton] at hp
      subst hp
      simp
    · rw [List.getLast_cons hr]
      rcases List.mem_cons.1 hp with rfl | h
      · exact hs'.1 _ (List.getLast_mem hr)
      · exact ih hr hs'.2 p h

/-! ## The claims

The bound `q + max(P) ≤ math.MaxInt32` is written `∀ p ∈ P, q + p ≤ maxInt32`.
Beyond it two things happen: a sum past the range of `int` makes `make` fail, and a
pack count that reaches `math.MaxInt32` is taken by `findMinimumPacks` for its marker of
an unreachable amount. -/

/-- C1 (amended). For every quantity `q > 0` and non-empty list `P` of positive pack sizes with
`q + max(P) ≤ math.MaxInt32`, `Calculate q P` returns a breakdown with no error whose
weighted sum is at least `q`. -/
theorem no_undershipment (q : Int) (P : List Int) (hq : 0 < q) (hne : P ≠ [])
    (hP : ∀ p ∈ P, 0 < p) (hB : ∀ p ∈ P, q + p ≤ maxInt32) :
    ∃ b, Calculate q P = some ⟨some b, none⟩ ∧ q ≤ weightedSum b := by
  obtain ⟨T, l, hT, hw, hlen, hTM, hc⟩ := Calculate_bounded hq hne hP hB
  refine ⟨countPacks l, hc, ?_⟩
  have hs := countPacks_spec (l := l) (by unfold intMax; unfold maxInt32 at hTM; omega)
  rw [hs.1, (WalkSeq_props hw).1]
  exact hT.1

/-- C1 at the quantity `3` with the sizes `[2, 5]`. -/
theorem no_undershipment_witness :
    (0 : Int) < 3 ∧ ([2, 5] : List Int) ≠ [] ∧ (∀ p ∈ ([2, 5] : List Int), 0 < p) ∧
    (∀ p ∈ ([2, 5] : List Int), 3 + p ≤ maxInt32) ∧
    ∃ b, Calculate 3 [2, 5] = some ⟨some b, none⟩ ∧ 3 ≤ weightedSum b :=
  ⟨by decide, by simp, by simp, by simp [maxInt32],
    no_undershipment 3 [2, 5] (by decide) (by simp) (by simp) (by simp [maxInt32])⟩

/-- C1 (as stated) fails: for the quantity `2147483647` and the single pack size `1`,
`Calculate` returns the empty breakdown, whose weighted sum `0` is below the quantity;
and for the quantity `1` and the single pack size `9223372036854775807` the search bound
wraps around and `Calculate` does not return. -/
theorem no_undershipment_counterexample :
    (Calculate 2147483647 [1] = some ⟨some [], none⟩ ∧
      ¬ ∃ b, Calculate 2147483647 [1] = some ⟨some b, none⟩ ∧
        (2147483647 : Int) ≤ weightedSum b) ∧
    Calculate 1 [9223372036854775807] = none := by
  refine ⟨⟨Calculate_at_marker, ?_⟩, by decide⟩
  rintro ⟨b, hb, hle⟩
  rw [Calculate_at_marker] at hb
  have : b = [] := by
    injection hb with hb
    injection hb with hb
    injection hb with hb
    exact hb.symm
  subst this
  simp [weightedSum] at hle

/-- C2 (amended). For every quantity `q > 0` and non-empty list `P` of positive pack sizes with
`q + max(P) ≤ math.MaxInt32`, the weighted sum `T` of the breakdown returned by `Calculate q P`
is the smallest representable amount that is at least `q`: `q ≤ T`, `T` is a non-negative
integer combination of the sizes in `P`, and no amount `A` with `q ≤ A < T` is one. -/
theorem minimal_amount (q : Int) (P : List Int) (hq : 0 < q) (hne : P ≠ [])
    (hP : ∀ p ∈ P, 0 < p) (hB : ∀ p ∈ P, q + p ≤ maxInt32) :
    ∃ b, Calculate q P = some ⟨some b, none⟩ ∧ q ≤ weightedSum b ∧ Rep P (weightedSum b) ∧
      ∀ A, q ≤ A → A < weightedSum b → ¬ Rep P A := by
  obtain ⟨T, l, hT, hw, hlen, hTM, hc⟩ := Calculate_bounded hq hne hP hB
  refine ⟨countPacks l, hc, ?_⟩
  have hs := countPacks_spec (l := l) (by unfold intMax; unfold maxInt32 at hTM; omega)
  rw [hs.1, (WalkSeq_props hw).1]
  exact hT

/-- C2 at the quantity `3` with the sizes `[2, 5]`. -/
theorem minimal_amount_witness :
    (0 : Int) < 3 ∧ ([2, 5] : List Int) ≠ [] ∧ (∀ p ∈ ([2, 5] : List Int), 0 < p) ∧
    (∀ p ∈ ([2, 5] : List Int), 3 + p ≤ maxInt32) ∧
    ∃ b, Calculate 3 [2, 5] = some ⟨some b, none⟩ ∧ 3 ≤ weightedSum b ∧
      Rep [2, 5] (weightedSum b) ∧ ∀ A, 3 ≤ A → A < weightedSum b → ¬ Rep [2, 5] A :=
  ⟨by decide, by simp, by simp, by simp [maxInt32],
    minimal_amount 3 [2, 5] (by decide) (by simp) (by simp) (by simp [maxInt32])⟩

/-- C2 (as stated) fails: for the quantity `2147483647` and the single pack size `1` the
weighted sum of the returned breakdown is `0`, which is below the quantity, so it is not
the smallest representable amount that is at least the quantity; and for the quantity `1`
and the single pack size `9223372036854775807` no breakdown is returned. -/
theorem minimal_amount_counterexample :
    (¬ ∃ b, Calculate 2147483647 [1] = some ⟨some b, none⟩ ∧
      (2147483647 : Int) ≤ weightedSum b ∧ Rep [1] (weightedSum b) ∧
      ∀ A, (2147483647 : Int) ≤ A → A < weightedSum b → ¬ Rep [1] A) ∧
    ¬ ∃ b, Calculate 1 [9223372036854775807] = some ⟨some b, none⟩ := by
  constructor
  · rintro ⟨b, hb, hle, _⟩
    rw [Calculate_at_marker] at hb
    have : b = [] := by
      injection hb with hb
      injection hb with hb
      injection hb with hb
      exact hb.symm
    subst this
    simp [weightedSum] at hle
  · rintro ⟨b, hb⟩
    have hnone : Calculate 1 [9223372036854775807] = none := by decide
    rw [hnone] at hb
    exact Option.noConfusion hb

/-- C3. For every quantity `q > 0` and non-empty list `P` of positive pack sizes with
`q + max(P) < math.MaxInt32`, `Calculate q P` returns a breakdown `b`, and every assignment
`c` of non-negative counts to the sizes of `P` whose weighted sum equals the weighted sum of
`b` has a total count at least the total count of `b`. -/
theorem minimal_pack_count (q : Int) (P : List Int) (hq : 0 < q) (hne : P ≠ [])
    (hP : ∀ p ∈ P, 0 < p) (hB : ∀ p ∈ P, q + p < maxInt32) :
    ∃ b, Calculate q P = some ⟨some b, none⟩ ∧
      ∀ c : Int → Nat, (P.dedup.map (fun p => p * (c p : Int))).sum = weightedSum b →
        totalPacks b ≤ (P.dedup.map (fun p => (c p : Int))).sum := by
  obtain ⟨T, l, hT, hw, hlen, hTM, hc⟩ :=
    Calculate_bounded hq hne hP (fun p hp => le_of_lt (hB p hp))
  refine ⟨countPacks l, hc, ?_⟩
  have hs := countPacks_spec (l := l) (by unfold intMax; unfold maxInt32 at hTM; omega)
  obtain ⟨hsum, _, hmin⟩ := WalkSeq_props hw
  intro c hcsum
  rw [hs.1, hsum] at hcsum
  rw [hs.2.1]
  obtain ⟨e1, e2, e3⟩ := expand_spec c P.dedup
  have hrep : RepK (sortInts P) (expand c P.dedup).length T :=
    ⟨expand c P.dedup, rfl, fun x hx => mem_sortInts.2 (List.mem_dedup.1 (e3 x hx)),
      by rw [e1, hcsum]⟩
  rw [← e2]
  by_contra hcon
  exact hmin.2 _ (by omega) hrep

/-- C3 at the quantity `3` with the sizes `[2, 5]`. -/
theorem minimal_pack_count_witness :
    (0 : Int) < 3 ∧ ([2, 5] : List Int) ≠ [] ∧ (∀ p ∈ ([2, 5] : List Int), 0 < p) ∧
    (∀ p ∈ ([2, 5] : List Int), 3 + p < maxInt32) ∧
    ∃ b, Calculate 3 [2, 5] = some ⟨some b, none⟩ ∧
      ∀ c : Int → Nat,
        ((([2, 5] : List Int).dedup).map (fun p => p * (c p : Int))).sum = weightedSum b →
        totalPacks b ≤ ((([2, 5] : List Int).dedup).map (fun p => (c p : Int))).sum :=
  ⟨by decide, by simp, by simp, by simp [maxInt32],
    minimal_pack_count 3 [2, 5] (by decide) (by simp) (by simp) (by simp [maxInt32])⟩

/-- C4 (amended). For every quantity `q > 0` and non-empty list `P` of positive pack sizes with
`q + max(P) ≤ math.MaxInt32`, the breakdown returned by `Calculate q P` has distinct keys,
each one a size of `P`, every value a positive (so non-negative) integer, and its weighted
sum equals the amount returned by `findMinimumAmount` on the sorted sizes. -/
theorem breakdown_invariant (q : Int) (P : List Int) (hq : 0 < q) (hne : P ≠ [])
    (hP : ∀ p ∈ P, 0 < p) (hB : ∀ p ∈ P, q + p ≤ maxInt32) :
    ∃ b T, Calculate q P = some ⟨some b, none⟩ ∧ findMinimumAmount q (sortInts P) = some T ∧
      (∀ kv ∈ b, kv.1 ∈ P) ∧ (∀ kv ∈ b, 0 ≤ kv.2) ∧ (b.map Prod.fst).Nodup ∧
      weightedSum b = T := by
  obtain ⟨T, l, hT, hw, hlen, hTM, hc⟩ := Calculate_bounded hq hne hP hB
  have hs := countPacks_spec (l := l) (by unfold intMax; unfold maxInt32 at hTM; omega)
  obtain ⟨hsum, hmem, _⟩ := WalkSeq_props hw
  have hne' := sortInts_ne_nil hne
  have hP' : ∀ p ∈ sortInts P, 0 < p := fun p hp => hP p (mem_sortInts.1 hp)
  have hlast : List.getLast (sortInts P) hne' ∈ P := mem_sortInts.1 (List.getLast_mem hne')
  have hfa : findMinimumAmount q (sortInts P) = some T :=
    findMinimumAmount_eq hq hne' hP'
      (by have := hB _ hlast; unfold intMax; unfold maxInt32 at this; omega)
      ((IsMinAmount_congr (fun x => mem_sortInts)).2 hT)
  refine ⟨countPacks l, T, hc, hfa, ?_, ?_, hs.2.2.2.2, by rw [hs.1, hsum]⟩
  · intro kv hkv
    exact mem_sortInts.1 (hmem _ (hs.2.2.2.1 kv hkv))
  · intro kv hkv
    exact le_of_lt (hs.2.2.1 kv hkv)

/-- C4 at the quantity `3` with the sizes `[2, 5]`. -/
theorem breakdown_invariant_witness :
    (0 : Int) < 3 ∧ ([2, 5] : List Int) ≠ [] ∧ (∀ p ∈ ([2, 5] : List Int), 0 < p) ∧
    (∀ p ∈ ([2, 5] : List Int), 3 + p ≤ maxInt32) ∧
    ∃ b T, Calculate 3 [2, 5] = some ⟨some b, none⟩ ∧
      findMinimumAmount 3 (sortInts [2, 5]) = some T ∧
      (∀ kv ∈ b, kv.1 ∈ ([2, 5] : List Int)) ∧ (∀ kv ∈ b, 0 ≤ kv.2) ∧ (b.map Prod.fst).Nodup ∧
      weightedSum b = T :=
  ⟨by decide, by simp, by simp, by simp [maxInt32],
    breakdown_invariant 3 [2, 5] (by decide) (by simp) (by simp) (by simp [maxInt32])⟩

/-- C4 (as stated) fails: for the quantity `2147483647` and the single pack size `1`,
`findMinimumAmount` returns `2147483647` but the breakdown returned by `Calculate` is
empty: the back-pointer walk stops at the target and the weighted sum is `0`; and for the
quantity `1` and the single pack size `9223372036854775807` neither function returns. -/
theorem breakdown_invariant_counterexample :
    (findMinimumAmount 2147483647 (sortInts [1]) = some 2147483647 ∧
      Calculate 2147483647 [1] = some ⟨some [], none⟩ ∧
      weightedSum [] ≠ (2147483647 : Int)) ∧
    (findMinimumAmount 1 (sortInts [9223372036854775807]) = none ∧
      Calculate 1 [9223372036854775807] = none) := by
  refine ⟨⟨?_, Calculate_at_marker, by simp [weightedSum]⟩, by decide, by decide⟩
  have : sortInts [1] = [1] := rfl
  rw [this]
  exact findMinimumAmount_at_marker

/-- C5. For every quantity `q ≤ 0` and every list `P` of pack sizes (empty or with
non-positive entries included), `Calculate q P` returns the empty breakdown, of total
items `0` and total packs `0`, and no error. -/
theorem nonpositive_quantity (q : Int) (P : List Int) (hq : q ≤ 0) :
    Calculate q P = some ⟨some [], none⟩ ∧ weightedSum [] = 0 ∧ totalPacks [] = 0 := by
  refine ⟨?_, rfl, rfl⟩
  unfold Calculate
  rw [if_pos hq]

/-- C5 at the quantity `-3` with the sizes `[0, -1, 5]`. -/
theorem nonpositive_quantity_witness :
    (-3 : Int) ≤ 0 ∧
    (Calculate (-3) [0, -1, 5] = some ⟨some [], none⟩ ∧ weightedSum [] = 0 ∧ totalPacks [] = 0) :=
  ⟨by decide, nonpositive_quantity (-3) [0, -1, 5] (by decide)⟩

/-- C6. For every quantity `q` and every two lists `P` and `P'` that are permutations of one
another, `Calculate q P` and `Calculate q P'` give the same outcome: the same breakdown
(same keys, same counts), or both fail to return. -/
theorem order_independence (q : Int) (P P' : List Int) (h : P.Perm P') :
    Calculate q P = Calculate q P' := by
  unfold Calculate
  rw [sortInts_perm_eq h, h.length_eq]

/-- C6 at the quantity `501` with two orders of the sizes `250, 500, 1000`. -/
theorem order_independence_witness :
    ([500, 250, 1000] : List Int).Perm [250, 1000, 500] ∧
    Calculate 501 [500, 250, 1000] = Calculate 501 [250, 1000, 500] :=
  ⟨by decide, order_independence 501 [500, 250, 1000] [250, 1000, 500] (by decide)⟩

/-- C7 (amended). For every target `S` with `0 ≤ S < math.MaxInt32` and every ascending list
`P` of positive pack sizes, `findMinimumPacks S P` returns exactly the breakdown of the
multiset obtained by starting at `S` and repeatedly removing the smallest pack size
`p ≤ current` such that `current - p` is representable with
`minCount (current - p) + 1 = minCount current`, until `0` is reached or no such size
exists: the count it gives to each size is the number of times the walk removes it. -/
theorem tie_break (S : Int) (P : List Int) (hS0 : 0 ≤ S) (hSM : S < maxInt32)
    (hsorted : P.Sorted (fun a b => a ≤ b)) (hP : ∀ p ∈ P, 0 < p) :
    findMinimumPacks S P = some (tieBreakBreakdown P S) ∧
    ∀ p, lookup (tieBreakBreakdown P S) p = ((tieBreakWalk P S.toNat S).count p : Int) := by
  obtain ⟨n, hn⟩ := Int.eq_ofNat_of_zero_le hS0
  subst hn
  have hnI : (n : Int) < intMax := by unfold intMax; unfold maxInt32 at hSM; omega
  unfold tieBreakBreakdown
  rw [Int.toNat_natCast]
  by_cases h : ∃ k, RepK P k (n : Int)
  · obtain ⟨k, hk⟩ := h
    obtain ⟨k0, _, hmin⟩ := exists_MinK hk
    obtain ⟨l, hl, hlen⟩ := WalkSeq_exists hP k0 _ hmin
    have hle := RepK_le hP hmin.1
    have hfuel : l.length ≤ n := by omega
    rw [tieBreakWalk_eq hP hsorted l _ hl n hfuel]
    exact ⟨findMinimumPacks_walk hP hnI hl (by omega), lookup_countPacks (by omega)⟩
  · have hno : ∀ k, ¬ RepK P k (n : Int) := fun k hk => h ⟨k, hk⟩
    have hpos : 0 < n := by
      rcases Nat.eq_zero_or_pos n with h0 | h0
      · subst h0
        exact absurd (RepK_zero_iff.2 rfl) (hno 0)
      · exact h0
    rw [tieBreakWalk_none hno]
    refine ⟨findMinimumPacks_stop hP hnI hpos (fun k _ => hno k), ?_⟩
    intro p
    simp [countPacks, lookup]

/-- C7 at the target `7` with the sizes `[2, 3, 4, 5]`: the breakdown is `{2:1, 5:1}`. -/
theorem tie_break_witness :
    (0 : Int) ≤ 7 ∧ (7 : Int) < maxInt32 ∧ ([2, 3, 4, 5] : List Int).Sorted (fun a b => a ≤ b) ∧
    (∀ p ∈ ([2, 3, 4, 5] : List Int), 0 < p) ∧
    (findMinimumPacks 7 [2, 3, 4, 5] = some (tieBreakBreakdown [2, 3, 4, 5] 7) ∧
      ∀ p, lookup (tieBreakBreakdown [2, 3, 4, 5] 7) p =
        ((tieBreakWalk [2, 3, 4, 5] (7 : Int).toNat 7).count p : Int)) ∧
    tieBreakBreakdown [2, 3, 4, 5] 7 = [(2, 1), (5, 1)] :=
  ⟨by decide, by decide, by decide, by decide,
    tie_break 7 [2, 3, 4, 5] (by decide) (by decide) (by decide) (by decide), by decide⟩

/-- C7 (as stated) fails: for the target `2147483647` and the single pack size `1`,
`findMinimumPacks` returns the empty breakdown while the walk of the claim removes the
size `1` down to `0` and gives `{1: 2147483647}`; and for the target `-2` the function
does not return at all. -/
theorem tie_break_counterexample :
    findMinimumPacks 2147483647 [1] = some [] ∧
    tieBreakBreakdown [1] 2147483647 = [(1, 2147483647)] ∧
    findMinimumPacks 2147483647 [1] ≠ some (tieBreakBreakdown [1] 2147483647) ∧
    findMinimumPacks (-2) [1] = none := by
  have h1 : findMinimumPacks 2147483647 [1] = some [] := by
    exact_mod_cast findMinimumPacks_ones_marker
  have h2 : tieBreakBreakdown [1] 2147483647 = [(1, 2147483647)] := by
    have := tieBreak_ones 2147483647
    rw [countPacks_replicate 1 (by decide) (by unfold intMax; decide)] at this
    exact_mod_cast this
  refine ⟨h1, h2, ?_, by decide⟩
  rw [h1, h2]
  decide

/-- C8. With pack sizes `[250, 500, 1000, 2000, 5000]`, `Calculate` returns exactly `{250:1}`
for quantity `1`, `{250:1}` for `250`, `{500:1}` for `251`, `{250:1, 500:1}` for `501`
(750 items, 2 packs) and `{5000:2, 2000:1, 250:1}` for `12001` (12250 items, 4 packs). -/
theorem concrete_scenarios :
    Calculate 1 [250, 500, 1000, 2000, 5000] = some ⟨some [(250, 1)], none⟩ ∧
    Calculate 250 [250, 500, 1000, 2000, 5000] = some ⟨some [(250, 1)], none⟩ ∧
    Calculate 251 [250, 500, 1000, 2000, 5000] = some ⟨some [(500, 1)], none⟩ ∧
    Calculate 501 [250, 500, 1000, 2000, 5000] = some ⟨some [(250, 1), (500, 1)], none⟩ ∧
    weightedSum [(250, 1), (500, 1)] = 750 ∧ totalPacks [(250, 1), (500, 1)] = 2 ∧
    Calculate 12001 [250, 500, 1000, 2000, 5000] =
      some ⟨some [(250, 1), (2000, 1), (5000, 2)], none⟩ ∧
    weightedSum [(250, 1), (2000, 1), (5000, 2)] = 12250 ∧
    totalPacks [(250, 1), (2000, 1), (5000, 2)] = 4 := by
  have hne : ([250, 500, 1000, 2000, 5000] : List Int) ≠ [] := by simp
  have hP : ∀ p ∈ ([250, 500, 1000, 2000, 5000] : List Int), 0 < p := by decide
  have hd : ∀ p ∈ ([250, 500, 1000, 2000, 5000] : List Int), (250 : Int) ∣ p := by decide
  refine ⟨?_, ?_, ?_, ?_, by decide, by decide, ?_, by decide, by decide⟩
  · exact Calculate_scenario (T := 250) (l := [250]) (by decide) hne hP (by decide) (by decide)
      (by decide) hd (fun A h1 h2 => by omega) (by decide) (by decide)
  · exact Calculate_scenario (T := 250) (l := [250]) (by decide) hne hP (by decide) (by decide)
      (by decide) hd (fun A h1 h2 => by omega) (by decide) (by decide)
  · exact Calculate_scenario (T := 500) (l := [500]) (by decide) hne hP (by decide) (by decide)
      (by decide) hd (fun A h1 h2 => by omega) (by decide) (by decide)
  · exact Calculate_scenario (T := 750) (l := [250, 500]) (by decide) hne hP (by decide)
      (by decide) (by decide) hd (fun A h1 h2 => by omega) (by decide) (by decide)
  · exact Calculate_scenario (T := 12250) (l := [250, 2000, 5000, 5000]) (by decide) hne hP
      (by decide) (by decide) (by decide) hd (fun A h1 h2 => by omega) (by decide) (by decide)

/-- C9 (amended). For every quantity `q > 0` and every pack size `p > 0` with
`q + p ≤ math.MaxInt32`, `Calculate q [p]` returns exactly the breakdown `{p: ceil(q / p)}`
(here `ceil(q / p)` is `(q + p - 1) / p`), and the amount shipped is the smallest multiple
of `p` that is at least `q`. -/
theorem single_pack_size (q p : Int) (hq : 0 < q) (hp : 0 < p) (hB : q + p ≤ maxInt32) :
    Calculate q [p] = some ⟨some [(p, (q + p - 1) / p)], none⟩ ∧
    weightedSum [(p, (q + p - 1) / p)] = p * ((q + p - 1) / p) ∧
    q ≤ p * ((q + p - 1) / p) ∧ p * ((q + p - 1) / p) < q + p := by
  obtain ⟨h1, h2, h3⟩ := ceil_div_spec hq hp
  refine ⟨?_, by simp [weightedSum], h1, h2⟩
  obtain ⟨k, hk⟩ := Int.eq_ofNat_of_zero_le (show 0 ≤ (q + p - 1) / p by omega)
  have hT := IsMinAmount_single hq hp
  rw [hk] at hT h2 h3 ⊢
  have hkle : (k : Int) ≤ p * (k : Int) := by
    have := mul_le_mul_of_nonneg_right (show (1 : Int) ≤ p by omega) (Int.natCast_nonneg k)
    linarith
  have hs : sortInts [p] = [p] := rfl
  have hw : WalkSeq (sortInts [p]) (p * (k : Int)) (List.replicate k p) := by
    rw [hs]; exact WalkSeq_single hp k
  have hc := Calculate_walk (q := q) (P := [p]) (by omega) (by simp) (by simpa using hp)
    (by
      intro x hx
      have : x = p := by simpa using hx
      subst this
      unfold intMax; unfold maxInt32 at hB; omega) hT hw
    (by rw [List.length_replicate]; unfold maxInt32 at hB ⊢; omega)
  rw [hc, countPacks_replicate p (by omega) (by unfold intMax; unfold maxInt32 at hB; omega)]

/-- C9 at the quantity `7` with the size `3`: three packs, nine items. -/
theorem single_pack_size_witness :
    (0 : Int) < 7 ∧ (0 : Int) < 3 ∧ (7 : Int) + 3 ≤ maxInt32 ∧
    (Calculate 7 [3] = some ⟨some [(3, (7 + 3 - 1) / 3)], none⟩ ∧
    weightedSum [(3, (7 + 3 - 1) / 3)] = 3 * ((7 + 3 - 1) / 3) ∧
    (7 : Int) ≤ 3 * ((7 + 3 - 1) / 3) ∧ (3 : Int) * ((7 + 3 - 1) / 3) < 7 + 3) :=
  ⟨by decide, by decide, by decide, single_pack_size 7 3 (by decide) (by decide) (by decide)⟩

/-- C9 (as stated) fails: for the quantity `2147483647` and the pack size `1`, `Calculate`
returns the empty breakdown and not `{1: 2147483647}`; and for the quantity `1` and the
pack size `9223372036854775807` it does not return. -/
theorem single_pack_size_counterexample :
    (Calculate 2147483647 [1] = some ⟨some [], none⟩ ∧
      Calculate 2147483647 [1] ≠ some ⟨some [(1, (2147483647 + 1 - 1) / 1)], none⟩) ∧
    (Calculate 1 [9223372036854775807] = none ∧
      Calculate 1 [9223372036854775807] ≠
        some ⟨some [(9223372036854775807, (1 + 9223372036854775807 - 1) / 9223372036854775807)],
          none⟩) := by
  refine ⟨⟨Calculate_at_marker, ?_⟩, by decide, by decide⟩
  rw [Calculate_at_marker]
  decide

/-- C10. For every quantity `q > 0`, `Calculate q []` returns the nil breakdown together
with the nil error; and the error returned by `Calculate` is nil on every input, so the
error result never tells this case apart. -/
theorem empty_pack_sizes (q : Int) (hq : 0 < q) :
    Calculate q [] = some ⟨none, none⟩ ∧
    ∀ (q' : Int) (P : List Int) (r : Outcome), Calculate q' P = some r → r.err = none := by
  constructor
  · unfold Calculate
    rw [if_neg (by omega)]
    rfl
  · intro q' P r hr
    unfold Calculate at hr
    split at hr
    · injection hr with hr; rw [← hr]
    · split at hr
      · injection hr with hr; rw [← hr]
      · dsimp only at hr
        cases h1 : findMinimumAmount q' (sortInts P) with
        | none => simp [h1] at hr
        | some a =>
          cases h2 : findMinimumPacks a (sortInts P) with
          | none => simp [h1, h2] at hr
          | some b =>
            rw [h1, Option.some_bind, h2, Option.some_bind] at hr
            injection hr with hr; rw [← hr]

/-- C10 at the quantity `7`. -/
theorem empty_pack_sizes_witness :
    (0 : Int) < 7 ∧ (Calculate 7 [] = some ⟨none, none⟩ ∧
    ∀ (q' : Int) (P : List Int) (r : Outcome), Calculate q' P = some r → r.err = none) :=
  ⟨by decide, empty_pack_sizes 7 (by decide)⟩

/-- C11 at the failing input. For the quantity `1` and the caller's slice `[500, 250]`,
`Calculate` returns the breakdown `{250: 1}` and leaves the caller's slice holding
`[250, 500]`: the same elements, in another order than before the call. -/
theorem purity_failing_input :
    (CalculateInPlace 1 [500, 250]).2 = some ⟨some [(250, 1)], none⟩ ∧
    (CalculateInPlace 1 [500, 250]).1 = [250, 500] ∧
    (CalculateInPlace 1 [500, 250]).1 ≠ [500, 250] := by
  refine ⟨?_, by decide, by decide⟩
  rw [CalculateInPlace_outcome]
  exact Calculate_scenario (T := 250) (l := [250]) (d := 250) (by decide) (by simp) (by decide)
    (by decide) (by decide) (by decide) (by decide) (fun A h1 h2 => by omega) (by decide)
    (by decide)

/-- C12. `Validate` returns a `ValidationError` if and only if `Quantity ≤ 0`, and it returns
the nil error if and only if `Quantity ≥ 1`, whatever `PackSizes` holds. -/
theorem validate_iff (quantity : Int) (packSizes : Option (List Int)) :
    (IsValidationError (PackRequest.Validate ⟨quantity, packSizes⟩) = true ↔ quantity ≤ 0) ∧
    (PackRequest.Validate ⟨quantity, packSizes⟩ = none ↔ 1 ≤ quantity) := by
  unfold PackRequest.Validate
  by_cases h : quantity ≤ 0
  · simp only [if_pos h, NewValidationError, IsValidationError, true_iff]
    refine ⟨h, ?_⟩
    constructor
    · intro hc; exact Option.noConfusion hc
    · intro hc; omega
  · simp only [if_neg h, IsValidationError]
    refine ⟨?_, ?_⟩
    · constructor
      · intro hc; exact absurd hc (by decide)
      · intro hc; exact absurd hc h
    · constructor
      · intro _; omega
      · intro _; trivial

/-- C12 on the quantities of the test: `100` and `1` pass, `0` and `-100` do not. -/
theorem validate_iff_witness :
    PackRequest.Validate ⟨100, none⟩ = none ∧
    PackRequest.Validate ⟨1, some [0, -5]⟩ = none ∧
    IsValidationError (PackRequest.Validate ⟨0, some [250]⟩) = true ∧
    IsValidationError (PackRequest.Validate ⟨-100, none⟩) = true :=
  ⟨(validate_iff 100 none).2.2 (by decide), (validate_iff 1 (some [0, -5])).2.2 (by decide),
    (validate_iff 0 (some [250])).1.2 (by decide), (validate_iff (-100) none).1.2 (by decide)⟩

/-- C13. `GetValidPackSizes` returns exactly the entries of `PackSizes` that are `> 0`, in
their original order and as often as they occur (`[250, 0, 500, -100]` gives `[250, 500]`);
the result is empty exactly when no entry is positive (it is the nil slice exactly when
`PackSizes` has no entry at all), and the request is left as it was. -/
theorem valid_pack_sizes (r : PackRequest) :
    sliceElems r.GetValidPackSizes.2 =
      (sliceElems r.PackSizes).filter (fun x => decide (0 < x)) ∧
    (sliceElems r.GetValidPackSizes.2).Sublist (sliceElems r.PackSizes) ∧
    (∀ x, 0 < x →
      (sliceElems r.GetValidPackSizes.2).count x = (sliceElems r.PackSizes).count x) ∧
    (∀ x ∈ sliceElems r.GetValidPackSizes.2, 0 < x) ∧
    (sliceElems r.GetValidPackSizes.2 = [] ↔ ∀ x ∈ sliceElems r.PackSizes, x ≤ 0) ∧
    (r.GetValidPackSizes.2 = none ↔ sliceElems r.PackSizes = []) ∧
    r.GetValidPackSizes.1 = r ∧
    (PackRequest.GetValidPackSizes ⟨100, some [250, 0, 500, -100]⟩).2 = some [250, 500] := by
  have he := GetValidPackSizes_elems r
  refine ⟨he, ?_, ?_, ?_, ?_, ?_, ?_, by decide⟩
  · rw [he]; exact List.filter_sublist _
  · intro x hx
    rw [he, List.count_filter (by simpa using hx)]
  · intro x hx
    rw [he] at hx
    simpa using (List.mem_filter.1 hx).2
  · rw [he, List.filter_eq_nil_iff]
    constructor
    · intro h x hx
      have := h x hx
      simp at this
      exact this
    · intro h x hx
      have := h x hx
      simp
      exact this
  · unfold PackRequest.GetValidPackSizes
    by_cases h : (sliceElems r.PackSizes).length = 0
    · rw [if_pos h]
      simp [List.length_eq_zero.1 h]
    · rw [if_neg h]
      have : sliceElems r.PackSizes ≠ [] := fun hc => h (by rw [hc]; rfl)
      simp [this]
  · unfold PackRequest.GetValidPackSizes
    split <;> rfl

/-- C14. `CalculateTotals` sets `TotalItems` to the sum over the entries of `PackBreakdown` of
`size * count` and `TotalPacks` to the sum of the counts, both as `int`s (the exact sums
whenever those fit in an `int`), whatever the order in which the entries are visited;
both are `0` for an empty or nil breakdown; `Quantity`, `PackBreakdown` and `PackSizesUsed`
are left as they were; and `NewPackResponse` returns the response with the arguments it
was given and the same totals. -/
theorem calculate_totals (r : PackResponse) (quantity : Int) (breakdown : Option Breakdown)
    (packSizesUsed : Option (List Int)) :
    r.CalculateTotals.TotalItems = wrap (weightedSum (mapEntries r.PackBreakdown)) ∧
    r.CalculateTotals.TotalPacks = wrap (totalPacks (mapEntries r.PackBreakdown)) ∧
    (-9223372036854775808 ≤ weightedSum (mapEntries r.PackBreakdown) ∧
      weightedSum (mapEntries r.PackBreakdown) ≤ intMax →
      r.CalculateTotals.TotalItems = weightedSum (mapEntries r.PackBreakdown)) ∧
    (-9223372036854775808 ≤ totalPacks (mapEntries r.PackBreakdown) ∧
      totalPacks (mapEntries r.PackBreakdown) ≤ intMax →
      r.CalculateTotals.TotalPacks = totalPacks (mapEntries r.PackBreakdown)) ∧
    (∀ b' : Breakdown, b'.Perm (mapEntries r.PackBreakdown) →
      ({ r with PackBreakdown := some b' } : PackResponse).CalculateTotals.TotalItems =
        r.CalculateTotals.TotalItems ∧
      ({ r with PackBreakdown := some b' } : PackResponse).CalculateTotals.TotalPacks =
        r.CalculateTotals.TotalPacks) ∧
    (mapEntries r.PackBreakdown = [] →
      r.CalculateTotals.TotalItems = 0 ∧ r.CalculateTotals.TotalPacks = 0) ∧
    r.CalculateTotals.Quantity = r.Quantity ∧
    r.CalculateTotals.PackBreakdown = r.PackBreakdown ∧
    r.CalculateTotals.PackSizesUsed = r.PackSizesUsed ∧
    NewPackResponse quantity breakdown packSizesUsed =
      { Quantity := quantity,
        TotalItems := wrap (weightedSum (mapEntries breakdown)),
        TotalPacks := wrap (totalPacks (mapEntries breakdown)),
        PackBreakdown := breakdown, PackSizesUsed := packSizesUsed } := by
  have h0 : wrap 0 = 0 := by unfold wrap; decide
  refine ⟨?_, ?_, ?_, ?_, ?_, ?_, ?_, ?_, ?_, ?_⟩
  · rw [CalculateTotals_eq]
  · rw [CalculateTotals_eq]
  · intro h; rw [CalculateTotals_eq]; exact wrap_eq h.1 h.2
  · intro h; rw [CalculateTotals_eq]; exact wrap_eq h.1 h.2
  · intro b' hb'
    rw [CalculateTotals_eq, CalculateTotals_eq]
    simp only [mapEntries]
    exact ⟨by rw [weightedSum_perm hb']; rfl, by rw [totalPacks_perm hb']; rfl⟩
  · intro h
    rw [CalculateTotals_eq, h]
    exact ⟨h0, h0⟩
  · rw [CalculateTotals_eq]
  · rw [CalculateTotals_eq]
  · rw [CalculateTotals_eq]
  · unfold NewPackResponse
    rw [CalculateTotals_eq]

/-- C14 on the breakdowns of the tests: `{1000: 1, 250: 1}` gives 1250 items in 2 packs,
the nil breakdown gives 0 and 0, and `NewPackResponse(250, {250: 1}, [250, 500])` has
the quantity 250, 250 items and 1 pack. -/
theorem calculate_totals_witness :
    (PackResponse.CalculateTotals ⟨0, 0, 0, some [(1000, 1), (250, 1)], none⟩).TotalItems = 1250 ∧
    (PackResponse.CalculateTotals ⟨0, 0, 0, some [(1000, 1), (250, 1)], none⟩).TotalPacks = 2 ∧
    (PackResponse.CalculateTotals ⟨7, 5, 5, none, some [3]⟩).TotalItems = 0 ∧
    (PackResponse.CalculateTotals ⟨7, 5, 5, none, some [3]⟩).TotalPacks = 0 ∧
    NewPackResponse 250 (some [(250, 1)]) (some [250, 500]) =
      ⟨250, 250, 1, some [(250, 1)], some [250, 500]⟩ := by
  have h1 := calculate_totals ⟨0, 0, 0, some [(1000, 1), (250, 1)], none⟩ 250
    (some [(250, 1)]) (some [250, 500])
  have h2 := calculate_totals ⟨7, 5, 5, none, some [3]⟩ 0 none none
  refine ⟨?_, ?_, (h2.2.2.2.2.2.1 rfl).1, (h2.2.2.2.2.2.1 rfl).2, ?_⟩
  · rw [h1.1]; decide
  · rw [h1.2.1]; decide
  · rw [h1.2.2.2.2.2.2.2.2.2]; decide

/-- C15. For every calculator, repository and request, `CalculatePackDistribution` returns a
`ValidationError` if and only if `request.Quantity ≤ 0` or the selected pack-size list is
empty (the positive entries of `request.PackSizes` when the request carries any size, the
sizes of the repository otherwise); in that case the response is nil and the calculator
has not been called, and in the other case every return comes after one call of the
calculator. -/
theorem distribution_validation (s : packService) (request : PackRequest) :
    ((∃ r, s.CalculatePackDistribution request = some r ∧ IsValidationError r.err = true) ↔
      (request.Quantity ≤ 0 ∨ selectedSizes s.repository request = [])) ∧
    ((request.Quantity ≤ 0 ∨ selectedSizes s.repository request = []) →
      ∃ message, s.CalculatePackDistribution request =
        some { response := none, err := some (GoError.validation message),
               calculatorCalls := 0 }) ∧
    (¬ (request.Quantity ≤ 0 ∨ selectedSizes s.repository request = []) →
      ∀ r, s.CalculatePackDistribution request = some r →
        IsValidationError r.err = false ∧ r.calculatorCalls = 1) := by
  have hA : (request.Quantity ≤ 0 ∨ selectedSizes s.repository request = []) →
      ∃ message, s.CalculatePackDistribution request =
        some { response := none, err := some (GoError.validation message),
               calculatorCalls := 0 } := by
    intro h
    rw [CalculatePackDistribution_eq]
    by_cases hq : request.Quantity ≤ 0
    · exact ⟨_, by rw [if_pos hq]⟩
    · rcases h with h | h
      · exact absurd h hq
      · exact ⟨_, by rw [if_neg hq, if_pos h]⟩
  have hB : ¬ (request.Quantity ≤ 0 ∨ selectedSizes s.repository request = []) →
      ∀ r, s.CalculatePackDistribution request = some r →
        IsValidationError r.err = false ∧ r.calculatorCalls = 1 := by
    intro h r hr
    exact CalculatePackDistribution_called (fun hq => h (Or.inl hq)) (fun hs => h (Or.inr hs)) hr
  refine ⟨⟨?_, ?_⟩, hA, hB⟩
  · rintro ⟨r, hr, hv⟩
    by_contra hcon
    have := (hB hcon r hr).1
    rw [hv] at this
    exact absurd this (by decide)
  · intro h
    obtain ⟨message, hm⟩ := hA h
    exact ⟨_, hm, rfl⟩

/-- C15 with the dynamic calculator over the repository holding `[250, 500]`: the request
with sizes `[0, -1]` fails with a `ValidationError` and no call of the calculator. -/
theorem distribution_validation_witness :
    selectedSizes ⟨[250, 500]⟩ ⟨251, some [0, -1]⟩ = [] ∧
    ∃ message, (NewPackService ⟨[250, 500]⟩).CalculatePackDistribution ⟨251, some [0, -1]⟩ =
      some { response := none, err := some (GoError.validation message),
             calculatorCalls := 0 } :=
  ⟨by decide,
    (distribution_validation (NewPackService ⟨[250, 500]⟩) ⟨251, some [0, -1]⟩).2.1
      (Or.inr (by decide))⟩

/-- C16 (amended). For every request with `Quantity > 0` whose selected pack-size list is
non-empty and positive with `Quantity + max ≤ math.MaxInt32`, `CalculatePackDistribution`
with the dynamic calculator returns a response and no error, after one call of the
calculator, with `response.Quantity = request.Quantity`, `TotalItems ≥ request.Quantity`,
and `TotalItems` and `TotalPacks` equal to the weighted sum and the count sum of
`response.PackBreakdown`. -/
theorem distribution_success (repository : InMemoryPackRepository) (request : PackRequest)
    (hq : 0 < request.Quantity) (hne : selectedSizes repository request ≠ [])
    (hpos : ∀ p ∈ selectedSizes repository request, 0 < p)
    (hB : ∀ p ∈ selectedSizes repository request, request.Quantity + p ≤ maxInt32) :
    ∃ response b,
      (NewPackService repository).CalculatePackDistribution request =
        some { response := some response, err := none, calculatorCalls := 1 } ∧
      response.Quantity = request.Quantity ∧ response.PackBreakdown = some b ∧
      request.Quantity ≤ response.TotalItems ∧
      response.TotalItems = weightedSum b ∧ response.TotalPacks = totalPacks b := by
  obtain ⟨T, l, hT, hw, hlen, hTM, hc⟩ := Calculate_bounded hq hne hpos hB
  have hs := countPacks_spec (l := l) (by unfold intMax; unfold maxInt32 at hTM; omega)
  have hsum := (WalkSeq_props hw).1
  have hqT := hT.1
  have hcalc := NewPackService_calculator repository request.Quantity
    (selectedSizes repository request) (by omega) hne
  rw [hc] at hcalc
  have hres := CalculatePackDistribution_ok (s := NewPackService repository) (by omega) hne hcalc
  have hws : weightedSum (countPacks l) = T := by rw [hs.1, hsum]
  have h1 : wrap (weightedSum (countPacks l)) = T := by
    rw [hws]; exact wrap_eq (by omega) (by unfold intMax; unfold maxInt32 at hTM; omega)
  have h2 : wrap (totalPacks (countPacks l)) = (l.length : Int) := by
    rw [hs.2.1]; exact wrap_eq (by omega) (by unfold intMax; unfold maxInt32 at hTM; omega)
  refine ⟨_, countPacks l, hres, ?_, ?_, ?_, ?_, ?_⟩
  · unfold NewPackResponse; rw [CalculateTotals_eq]
  · unfold NewPackResponse; rw [CalculateTotals_eq]
  · unfold NewPackResponse; rw [CalculateTotals_eq]
    show request.Quantity ≤ wrap (weightedSum (countPacks l))
    rw [h1]; exact hqT
  · unfold NewPackResponse; rw [CalculateTotals_eq]
    show wrap (weightedSum (countPacks l)) = weightedSum (countPacks l)
    rw [h1, hws]
  · unfold NewPackResponse; rw [CalculateTotals_eq]
    show wrap (totalPacks (countPacks l)) = totalPacks (countPacks l)
    rw [h2, hs.2.1]

/-- C16 for the quantity `10` with the sizes `[7, 0, 3]` of the request. -/
theorem distribution_success_witness :
    (0 : Int) < 10 ∧ selectedSizes ⟨[]⟩ ⟨10, some [7, 0, 3]⟩ ≠ [] ∧
    (∀ p ∈ selectedSizes ⟨[]⟩ ⟨10, some [7, 0, 3]⟩, 0 < p) ∧
    (∀ p ∈ selectedSizes ⟨[]⟩ ⟨10, some [7, 0, 3]⟩, (10 : Int) + p ≤ maxInt32) ∧
    ∃ response b,
      (NewPackService ⟨[]⟩).CalculatePackDistribution ⟨10, some [7, 0, 3]⟩ =
        some { response := some response, err := none, calculatorCalls := 1 } ∧
      response.Quantity = 10 ∧ response.PackBreakdown = some b ∧
      10 ≤ response.TotalItems ∧
      response.TotalItems = weightedSum b ∧ response.TotalPacks = totalPacks b :=
  ⟨by decide, by decide, by decide, by decide,
    distribution_success ⟨[]⟩ ⟨10, some [7, 0, 3]⟩ (by decide) (by decide) (by decide)
      (by decide)⟩

/-- C16 (as stated) fails: the request for `2147483647` items with the size `1` gets a
response and no error, but with an empty breakdown and `TotalItems = 0`, below the
quantity; and for the request for `1` item with the size `9223372036854775807` the run
does not return. -/
theorem distribution_success_counterexample :
    ((NewPackService ⟨[]⟩).CalculatePackDistribution ⟨2147483647, some [1]⟩ =
        some { response := some ⟨2147483647, 0, 0, some [], some [1]⟩, err := none,
               calculatorCalls := 1 } ∧
      (0 : Int) < 2147483647) ∧
    (NewPackService ⟨[]⟩).CalculatePackDistribution ⟨1, some [9223372036854775807]⟩ = none := by
  constructor
  · refine ⟨?_, by decide⟩
    have hsel : selectedSizes (NewPackService ⟨[]⟩).repository ⟨2147483647, some [1]⟩ = [1] := by
      decide
    have hcalc := NewPackService_calculator ⟨[]⟩ 2147483647 [1] (by decide) (by simp)
    rw [Calculate_at_marker] at hcalc
    have hres := @CalculatePackDistribution_ok (NewPackService ⟨[]⟩)
      ⟨2147483647, some [1]⟩ (sortInts [1]) (some [])
      (by decide) (by rw [hsel]; simp) (by rw [hsel]; exact hcalc)
    rw [hres]
    decide
  · have hsel : selectedSizes (NewPackService ⟨[]⟩).repository
        ⟨1, some [9223372036854775807]⟩ = [9223372036854775807] := by decide
    have hcalc := NewPackService_calculator ⟨[]⟩ 1 [9223372036854775807] (by decide) (by simp)
    have hnone : Calculate 1 [9223372036854775807] = none := by decide
    rw [hnone] at hcalc
    exact @CalculatePackDistribution_none (NewPackService ⟨[]⟩)
      ⟨1, some [9223372036854775807]⟩ (sortInts [9223372036854775807]) (by decide) (by rw [hsel]; simp)
      (by rw [hsel]; exact hcalc)

/-- C17. After `SetPackSizes(s)` with a non-empty `s`, `GetAllPackSizes` returns `s` sorted
ascending, every value as often as it occurs in `s`, and no error; `SetPackSizes([])`
returns no error and leaves the repository as it was; `GetAllPackSizes` leaves the
repository as it was, so that a second call returns the same. -/
theorem repository_round_trip (r : InMemoryPackRepository) (s : List Int) (hs : s ≠ []) :
    (r.SetPackSizes s).2 = none ∧
    (r.SetPackSizes s).1.GetAllPackSizes.2.1 = sortInts s ∧
    (r.SetPackSizes s).1.GetAllPackSizes.2.2 = none ∧
    (sortInts s).Sorted (fun a b => a ≤ b) ∧
    (sortInts s).Perm s ∧
    (∀ x, (sortInts s).count x = s.count x) ∧
    (sortInts s).length = s.length ∧
    r.SetPackSizes [] = (r, none) ∧
    r.GetAllPackSizes.1 = r ∧
    (r.SetPackSizes s).1.GetAllPackSizes.1 = (r.SetPackSizes s).1 ∧
    (r.SetPackSizes s).1.GetAllPackSizes.1.GetAllPackSizes.2.1 = sortInts s := by
  have hlen : ¬ s.length = 0 := fun h => hs (List.length_eq_zero.1 h)
  have hset : r.SetPackSizes s = ({ packSizes := sortInts s }, none) := by
    unfold InMemoryPackRepository.SetPackSizes
    rw [if_neg hlen]
  rw [hset]
  refine ⟨rfl, ?_, rfl, sortInts_sorted s, sortInts_perm s, ?_, (sortInts_perm s).length_eq,
    rfl, rfl, rfl, ?_⟩
  · exact sortInts_idem s
  · intro x; exact (sortInts_perm s).count_eq x
  · exact sortInts_idem s

/-- C17 on the list `[250, 500, 250]`, stored in a new repository: it is read back as
`[250, 250, 500]`. -/
theorem repository_round_trip_witness :
    ([250, 500, 250] : List Int) ≠ [] ∧
    (NewInMemoryPackRepository.SetPackSizes [250, 500, 250]).1.GetAllPackSizes.2.1
      = [250, 250, 500] ∧
    (NewInMemoryPackRepository.SetPackSizes [250, 500, 250]).2 = none :=
  ⟨by decide,
    (repository_round_trip NewInMemoryPackRepository [250, 500, 250] (by decide)).2.1.trans
      (by decide),
    (repository_round_trip NewInMemoryPackRepository [250, 500, 250] (by decide)).1⟩

/-- C18. `UpdatePackSizes(sizes)` returns an error if and only if `sizes` is empty or holds
an entry `≤ 0`, and then the service, with the sizes its repository stores, is as it was;
otherwise the repository stores `sizes` sorted ascending, a following
`GetAvailablePackSizes` returns `sizes` sorted ascending (every value as often as in
`sizes`) with no error, and every stored size is positive. -/
theorem update_pack_sizes (s : packService) (sizes : List Int) :
    ((s.UpdatePackSizes sizes).2 ≠ none ↔ (sizes = [] ∨ ∃ x ∈ sizes, x ≤ 0)) ∧
    ((s.UpdatePackSizes sizes).2 ≠ none →
      (s.UpdatePackSizes sizes).1.repository = s.repository ∧
      (s.UpdatePackSizes sizes).1.GetAvailablePackSizes = s.GetAvailablePackSizes ∧
      IsValidationError (s.UpdatePackSizes sizes).2 = false) ∧
    ((s.UpdatePackSizes sizes).2 = none →
      (s.UpdatePackSizes sizes).1.repository.packSizes = sortInts sizes ∧
      (s.UpdatePackSizes sizes).1.GetAvailablePackSizes = (some (sortInts sizes), none) ∧
      (sortInts sizes).Sorted (fun a b => a ≤ b) ∧
      (sortInts sizes).Perm sizes ∧
      (∀ x ∈ (s.UpdatePackSizes sizes).1.repository.packSizes, 0 < x) ∧
      (s.UpdatePackSizes sizes).1.calculator = s.calculator) := by
  unfold packService.UpdatePackSizes
  by_cases hlen : sizes.length = 0
  · have hnil : sizes = [] := List.length_eq_zero.1 hlen
    rw [if_pos hlen]
    refine ⟨⟨fun _ => Or.inl hnil, fun _ h => Option.noConfusion h⟩, fun _ => ⟨rfl, rfl, rfl⟩,
      fun h => Option.noConfusion h⟩
  · have hne : sizes ≠ [] := fun h => hlen (by rw [h]; rfl)
    rw [if_neg hlen]
    cases hf : sizes.find? (fun size => decide (size ≤ 0)) with
    | some size =>
      have hex : ∃ x ∈ sizes, x ≤ 0 := find?_nonpositive.1 (by rw [hf]; rfl)
      refine ⟨⟨fun _ => Or.inr hex, fun _ h => Option.noConfusion h⟩,
        fun _ => ⟨rfl, rfl, rfl⟩, fun h => Option.noConfusion h⟩
    | none =>
      have hall : ∀ x ∈ sizes, 0 < x := by
        intro x hx
        by_contra hcon
        have := find?_nonpositive.2 ⟨x, hx, by omega⟩
        rw [hf] at this
        exact absurd this (by decide)
      have hset : s.repository.SetPackSizes sizes = ({ packSizes := sortInts sizes }, none) := by
        unfold InMemoryPackRepository.SetPackSizes
        rw [if_neg hlen]
      rw [hset]
      refine ⟨⟨fun h => absurd rfl h, ?_⟩, fun h => absurd rfl h, fun _ => ⟨rfl, ?_,
        sortInts_sorted sizes, sortInts_perm sizes, ?_, rfl⟩⟩
      · rintro (h | ⟨x, hx, hx0⟩)
        · exact absurd h hne
        · have := hall x hx; omega
      · simp only [packService.GetAvailablePackSizes, InMemoryPackRepository.GetAllPackSizes,
          sortInts_idem]
      · intro x hx
        exact hall x (mem_sortInts.1 hx)

/-- C18 on a service over a new repository: `[500, 250, 1000]` is stored and read back as
`[250, 500, 1000]`; the empty list and `[250, 0, 500]` are refused and nothing is stored. -/
theorem update_pack_sizes_witness :
    (((NewPackService NewInMemoryPackRepository).UpdatePackSizes
        [500, 250, 1000]).1.GetAvailablePackSizes = (some [250, 500, 1000], none)) ∧
    ((NewPackService NewInMemoryPackRepository).UpdatePackSizes [250, 0, 500]).2 ≠ none ∧
    ((NewPackService NewInMemoryPackRepository).UpdatePackSizes
        [250, 0, 500]).1.repository = NewInMemoryPackRepository ∧
    ((NewPackService NewInMemoryPackRepository).UpdatePackSizes []).2 ≠ none :=
  ⟨((update_pack_sizes (NewPackService NewInMemoryPackRepository) [500, 250, 1000]).2.2
      (by decide)).2.1.trans (by decide),
    (update_pack_sizes (NewPackService NewInMemoryPackRepository) [250, 0, 500]).1.2
      (Or.inr ⟨0, by decide, by decide⟩),
    ((update_pack_sizes (NewPackService NewInMemoryPackRepository) [250, 0, 500]).2.1
      ((update_pack_sizes (NewPackService NewInMemoryPackRepository) [250, 0, 500]).1.2
        (Or.inr ⟨0, by decide, by decide⟩))).1,
    (update_pack_sizes (NewPackService NewInMemoryPackRepository) []).1.2 (Or.inl rfl)⟩

/-- C19, amended. For every `q > 0` and every non-empty list `P` of positive pack sizes with
`q + p ≤ 2^31 - 1` for every size `p` (ascending or not; the table then has at most `2^31`
entries), the first scan of `findMinimumAmount` returns the smallest reachable amount
`T ≥ q`, which lies below `q + p` for every size `p`, so inside the scanned range;
`findMinimumAmount` returns `T` from that scan. The only call of
`findMinimumAmountExtended` is in the branch where the first scan finds nothing, which is
therefore not taken; the same holds for the sorted list on which `Calculate` calls
`findMinimumAmount`. -/
theorem bound_sufficiency (q : Int) (P : List Int) (hq : 0 < q) (hne : P ≠ [])
    (hP : ∀ p ∈ P, 0 < p) (hB : ∀ p ∈ P, q + p ≤ maxInt32) :
    ∃ T, IsMinAmount P q T ∧ (∀ p ∈ P, T < q + p) ∧
      firstScan q P = some (some T) ∧ findMinimumAmount q P = some T ∧
      firstScan q (sortInts P) = some (some T) ∧
      findMinimumAmount q (sortInts P) = some T ∧
      (∀ (q' : Int) (P' : List Int), findMinimumAmount q' P' =
        (firstScan q' P').bind fun r =>
          match r with
          | some amount => some amount
          | none => findMinimumAmountExtended q' P') := by
  obtain ⟨T, hT⟩ := exists_minAmount hq hne hP
  have hBi : ∀ p ∈ P, q + p < intMax := fun p hp => by
    have := hB p hp
    unfold maxInt32 at this
    unfold intMax
    omega
  have hB1 : q + P.getLast hne < intMax := hBi _ (List.getLast_mem hne)
  have hsne : sortInts P ≠ [] := sortInts_ne_nil hne
  have hsP : ∀ p ∈ sortInts P, 0 < p := fun p hp => hP p (mem_sortInts.1 hp)
  have hsB : q + (sortInts P).getLast hsne < intMax :=
    hBi _ (mem_sortInts.1 (List.getLast_mem hsne))
  have hsT : IsMinAmount (sortInts P) q T :=
    (IsMinAmount_congr (fun x => mem_sortInts)).2 hT
  refine ⟨T, hT, minAmount_lt hq hP hT, firstScan_eq hq hne hP hB1 hT,
    findMinimumAmount_eq hq hne hP hB1 hT, firstScan_eq hq hsne hsP hsB hsT,
    findMinimumAmount_eq hq hsne hsP hsB hsT, findMinimumAmount_firstScan⟩

/-- C19 at the quantity `251` with the sizes `[250, 500]`. -/
theorem bound_sufficiency_witness :
    (0 : Int) < 251 ∧ ([250, 500] : List Int) ≠ [] ∧
    ∃ T, IsMinAmount [250, 500] 251 T ∧ (∀ p ∈ ([250, 500] : List Int), T < 251 + p) ∧
      firstScan 251 [250, 500] = some (some T) ∧ findMinimumAmount 251 [250, 500] = some T ∧
      firstScan 251 (sortInts [250, 500]) = some (some T) ∧
      findMinimumAmount 251 (sortInts [250, 500]) = some T ∧
      (∀ (q' : Int) (P' : List Int), findMinimumAmount q' P' =
        (firstScan q' P').bind fun r =>
          match r with
          | some amount => some amount
          | none => findMinimumAmountExtended q' P') :=
  ⟨by decide, by decide,
    bound_sufficiency 251 [250, 500] (by decide) (by decide) (by decide) (by decide)⟩

/-- C19 as stated fails. For `q = 1` and `P = [9223372036854775807]`, and for
`q = 9223372036854775802` and `P = [5]`, the length `q + max(P) + 1` of the table wraps to
a negative `int`, `make` fails, and the first scan finds no amount, as `findMinimumAmount`
does not return. -/
theorem bound_sufficiency_counterexample :
    ((0 : Int) < 1 ∧ ([9223372036854775807] : List Int) ≠ [] ∧
      (∀ p ∈ ([9223372036854775807] : List Int), 0 < p) ∧
      List.Sorted (fun a b : Int => a ≤ b) [9223372036854775807] ∧
      amountTable 1 [9223372036854775807] = none ∧
      firstScan 1 [9223372036854775807] = none ∧
      findMinimumAmount 1 [9223372036854775807] = none) ∧
    ((0 : Int) < 9223372036854775802 ∧ (∀ p ∈ ([5] : List Int), 0 < p) ∧
      amountTable 9223372036854775802 [5] = none ∧
      firstScan 9223372036854775802 [5] = none ∧
      findMinimumAmount 9223372036854775802 [5] = none) := by
  refine ⟨⟨by decide, by decide, by decide, by simp, by decide, by decide, by decide⟩,
    by decide, by decide, by decide, by decide, by decide⟩

/-- C20, amended. The guard for `quantity ≤ 0` is in `Calculate`, not in
`findMinimumAmount`. For every `q ≤ 0` (an `int`, so `q ≥ -2^63`) and every non-empty
ascending list `P` of positive pack sizes, each at most `2^31 - 1`: `Calculate(q, P)`
returns the empty breakdown and no error, whatever `findMinimumAmount(q, P)` does; the last
size `P[len(P)-1]` is the largest, `max(P)`; `findMinimumAmount(0, P)` returns `0`, from its
first scan, after it has built a table of `max(P) + 1` entries; and for `q < 0`
`findMinimumAmount(q, P)` does not return (the table cannot be made, or its first write or
the first read of the scan is out of range). -/
theorem finder_nonpositive (q : Int) (P : List Int) (hq : q ≤ 0)
    (hmin : -9223372036854775808 ≤ q) (hne : P ≠ [])
    (hs : P.Sorted (fun a b => a ≤ b)) (hP : ∀ p ∈ P, 0 < p ∧ p ≤ maxInt32) :
    Calculate q P = some ⟨some [], none⟩ ∧
    (∀ p ∈ P, p ≤ P.getLast hne) ∧
    (q = 0 → findMinimumAmount q P = some 0 ∧ firstScan q P = some (some 0) ∧
      ∃ dp, amountTable q P = some dp ∧ (dp.length : Int) = P.getLast hne + 1) ∧
    (q < 0 → findMinimumAmount q P = none ∧ firstScan q P = none) := by
  have hpos : ∀ p ∈ P, 0 < p := fun p hp => (hP p hp).1
  have hlast := hP _ (List.getLast_mem hne)
  have hlt : P.getLast hne < intMax := by
    have := hlast.2
    unfold maxInt32 at this
    unfold intMax
    omega
  refine ⟨?_, sorted_le_getLast hne hs, ?_, ?_⟩
  · unfold Calculate
    rw [if_pos hq]
  · rintro rfl
    have hfs := firstScan_zero hne hpos hlt
    refine ⟨?_, hfs, ?_⟩
    · rw [findMinimumAmount_firstScan, hfs]
      rfl
    · obtain ⟨N, hNe⟩ := Int.eq_ofNat_of_zero_le (show 0 ≤ 0 + P.getLast hne by omega)
      obtain ⟨dp, h1, h2⟩ := amountTable_spec hne hpos hNe (by omega)
      exact ⟨dp, h1, by rw [h2.1]; push_cast; omega⟩
  · intro hneg
    have hfs := firstScan_neg hneg hmin hne hpos (le_of_lt hlt)
    refine ⟨?_, hfs⟩
    rw [findMinimumAmount_firstScan, hfs]
    rfl

/-- C20 at the quantity `-1` with the sizes `[5]`: `Calculate` returns the empty breakdown,
`findMinimumAmount` does not return. -/
theorem finder_nonpositive_witness :
    (-1 : Int) ≤ 0 ∧ ([5] : List Int) ≠ [] ∧
    Calculate (-1) [5] = some ⟨some [], none⟩ ∧
    findMinimumAmount (-1) [5] = none :=
  ⟨by decide, by decide,
    (finder_nonpositive (-1) [5] (by decide) (by decide) (by decide) (by simp)
      (by decide)).1,
    ((finder_nonpositive (-1) [5] (by decide) (by decide) (by decide) (by simp)
      (by decide)).2.2.2 (by decide)).1⟩

/-- C20 as stated fails. For `q = -1` and `P = [5]`, `findMinimumAmount` builds a table of
five entries and its scan then reads `dp[-1]`: the run fails, it does not return `0`. For
`q = 0` and `P = [5]` it returns `0`, but after it has built a table of six entries. -/
theorem finder_nonpositive_counterexample :
    ((-1 : Int) ≤ 0 ∧ ([5] : List Int) ≠ [] ∧ (∀ p ∈ ([5] : List Int), 0 < p) ∧
      List.Sorted (fun a b : Int => a ≤ b) [5] ∧
      amountTable (-1) [5] = some [true, false, false, false, false] ∧
      index [true, false, false, false, false] (-1) = none ∧
      firstScan (-1) [5] = none ∧
      findMinimumAmount (-1) [5] = none ∧
      findMinimumAmount (-1) [5] ≠ some 0) ∧
    (amountTable 0 [5] = some [true, false, false, false, false, true] ∧
      findMinimumAmount 0 [5] = some 0) := by
  refine ⟨⟨by decide, by decide, by decide, by simp, by decide, by decide, by decide,
    by decide, by decide⟩, by decide, by decide⟩

/-- C21, amended. `Calculate` has no guard for pack sizes that are not positive. For every
quantity `q > 0` (an `int`): on the empty list it returns the nil breakdown and no error;
on `[0]` it does not return (both searches find nothing and `greedyMinimumAmount`
divides by zero); and on every list of `int`s with a negative entry, as `[-1]` and
`[-5, 5]`, it does not return (the table loop reads `dp[i - pack]` beyond the table, or
the table cannot be made). A zero next to a positive size can pass: `Calculate(1, [0, 5])`
returns `{5: 1}`. -/
theorem graceful_degradation (q : Int) (hq : 0 < q) (hq2 : q ≤ intMax) :
    Calculate q [] = some ⟨none, none⟩ ∧
    (Calculate q [0] = none ∧ findMinimumAmountExtended q [0] = none ∧
      greedyMinimumAmount q [0] = none) ∧
    (∀ P : List Int, (∀ p ∈ P, -9223372036854775808 ≤ p) → (∃ p ∈ P, p < 0) →
      Calculate q P = none) ∧
    Calculate q [-1] = none ∧ Calculate q [-5, 5] = none ∧
    Calculate 1 [0, 5] = some ⟨some [(5, 1)], none⟩ := by
  refine ⟨?_, ⟨Calculate_zero_size hq hq2, findMinimumAmountExtended_zero hq hq2, rfl⟩, ?_,
    ?_, ?_, by decide⟩
  · unfold Calculate
    rw [if_neg (by omega)]
    rfl
  · rintro P hP ⟨x, hx, hneg⟩
    exact Calculate_negative_size hq hP hx hneg
  · exact Calculate_negative_size (x := -1) hq (by decide) (by simp) (by decide)
  · exact Calculate_negative_size (x := -5) hq (by decide) (by simp) (by decide)

/-- C21 at the quantity `1`. -/
theorem graceful_degradation_witness :
    (0 : Int) < 1 ∧ Calculate 1 [] = some ⟨none, none⟩ ∧ Calculate 1 [0] = none ∧
    Calculate 1 [-1] = none ∧ Calculate 1 [-5, 5] = none :=
  ⟨by decide, (graceful_degradation 1 (by decide) (by decide)).1,
    (graceful_degradation 1 (by decide) (by decide)).2.1.1,
    (graceful_degradation 1 (by decide) (by decide)).2.2.2.1,
    (graceful_degradation 1 (by decide) (by decide)).2.2.2.2.1⟩

/-- C21 as stated fails on each of its three lists. For the quantity `1`: on `[0]` both
scans find nothing and the greedy fallback divides by zero; on `[-1]` the first table has
one entry and no scan, and the table loop of the extended search reads `dp[i + 1]` beyond
its table; on `[-5, 5]` the table of seven entries is read at `dp[2 + 5]`. -/
theorem graceful_degradation_counterexample :
    (Calculate 1 [0] = none ∧ firstScan 1 [0] = some none ∧
      greedyMinimumAmount 1 [0] = none) ∧
    (Calculate 1 [-1] = none ∧ firstScan 1 [-1] = some none ∧
      findMinimumAmountExtended 1 [-1] = none ∧ Calculate 2 [-1] = none ∧
      amountTable 2 [-1] = none) ∧
    (Calculate 1 [-5, 5] = none ∧ amountTable 1 [-5, 5] = none ∧
      reachInner [true, false, false, false, false, false, false] 1 [-5, 5]
        = some [true, false, false, false, false, false, false] ∧
      index [true, false, false, false, false, false, false] (wrap (2 - -5)) = none) := by
  refine ⟨⟨Calculate_zero_size (by decide) (by decide), by decide, rfl⟩,
    ⟨Calculate_negative_size (x := -1) (by decide) (by decide) (by simp) (by decide),
      by decide, findMinimumAmountExtended_neg 1 (by decide) (by decide), by decide, by decide⟩,
    by decide, by decide, by decide, by decide⟩

/-- C22, amended. For every `q > 0` and every non-empty list `P` of positive pack sizes with
`q + P[0] ≤ 2^63 - 1` (ascending or not), `greedyMinimumAmount(q, P)` returns a total `G`
that is `≥ q`, is a non-negative integer combination of sizes in `P`, and satisfies
`G < q + P[0]`; `G` equals `q` minus the remainder left after taking
`floor(remaining / size)` packs of each size from the last to the first, plus `P[0]` when
that remainder is not zero; the remainder is below `P[0]`. -/
theorem greedy_valid (q : Int) (P : List Int) (hq : 0 < q) (hne : P ≠ [])
    (hP : ∀ p ∈ P, 0 < p) (hB : q + P.head hne ≤ intMax) :
    greedyMinimumAmount q P = some (greedyTotal q P) ∧
    q ≤ greedyTotal q P ∧ Rep P (greedyTotal q P) ∧ greedyTotal q P < q + P.head hne ∧
    greedyTotal q P = q - remainderAfter P.reverse q +
      (if remainderAfter P.reverse q ≠ 0 then P.head hne else 0) ∧
    0 ≤ remainderAfter P.reverse q ∧ remainderAfter P.reverse q < P.head hne := by
  have hp0 := hP _ (List.head_mem hne)
  obtain ⟨h1, h2, h3, h4, h5, h6⟩ := greedyMinimumAmount_spec hq (by omega) hne hP
  refine ⟨?_, h2, h3, h4, ?_, h5, h6⟩
  · rw [h1, wrap_eq (by omega) (by omega)]
  · obtain ⟨p0, tl, rfl⟩ := List.exists_cons_of_ne_nil hne
    rfl

/-- C22 at the quantity `6` with the sizes `[3, 5]`: one pack of `5` leaves `1`, no pack of
`3` fits, and one pack of `3` is added: the total is `8`. -/
theorem greedy_valid_witness :
    (0 : Int) < 6 ∧ remainderAfter ([3, 5] : List Int).reverse 6 = 1 ∧
    greedyTotal 6 [3, 5] = 8 ∧ greedyMinimumAmount 6 [3, 5] = some 8 ∧
    Rep [3, 5] (greedyTotal 6 [3, 5]) := by
  have h := greedy_valid 6 [3, 5] (by decide) (by decide) (by decide) (by decide)
  have e : greedyTotal 6 [3, 5] = 8 := by decide
  exact ⟨by decide, by decide, e, by rw [h.1, e], h.2.2.1⟩

/-- C22 as stated fails when the total passes the largest `int`: for `q = 9223372036854775807`
and `P = [2]` the remainder is `1` and the total `q - 1 + 2` wraps to
`-9223372036854775808`, which is below `q`. -/
theorem greedy_valid_counterexample :
    (0 : Int) < 9223372036854775807 ∧ (∀ p ∈ ([2] : List Int), 0 < p) ∧
    List.Sorted (fun a b : Int => a ≤ b) [2] ∧
    greedyMinimumAmount 9223372036854775807 [2] = some (-9223372036854775808) ∧
    ¬ (9223372036854775807 : Int) ≤ -9223372036854775808 ∧
    greedyTotal 9223372036854775807 [2] = 9223372036854775808 := by
  refine ⟨by decide, by decide, by simp, by decide, by decide, by decide⟩

/-- C23. The greedy fallback is not minimal: for the quantity `6` and the ascending sizes
`[3, 5]`, `greedyMinimumAmount` returns `8` while `findMinimumAmount` returns `6`, which
is `3 + 3` and the smallest amount that can be made and is at least `6`. -/
theorem greedy_not_minimal :
    (greedyMinimumAmount 6 [3, 5] = some 8 ∧ findMinimumAmount 6 [3, 5] = some 6 ∧
      IsMinAmount [3, 5] 6 6 ∧ ([3, 3] : List Int).sum = 6) ∧
    ∃ (q : Int) (P : List Int) (G T : Int), 0 < q ∧ P.Sorted (fun a b => a ≤ b) ∧
      (∀ p ∈ P, 0 < p) ∧ greedyMinimumAmount q P = some G ∧
      findMinimumAmount q P = some T ∧ T < G := by
  have hrep : Rep [3, 5] 6 := ⟨[3, 3], by simp, by decide⟩
  have hg : greedyMinimumAmount 6 [3, 5] = some 8 := by decide
  have hf : findMinimumAmount 6 [3, 5] = some 6 :=
    findMinimumAmount_eq (by decide) (by simp) (by decide) (by decide) (IsMinAmount_self hrep)
  exact ⟨⟨hg, hf, IsMinAmount_self hrep, by decide⟩,
    6, [3, 5], 8, 6, by decide, by simp, by decide, hg, hf, by decide⟩

/-- C24, amended. For every target `S` with `0 < S ≤ 2^31 - 1` (the two tables then have at
most `2^31` entries) and every list `P` of positive pack sizes (ascending or not):
`findMinimumPacks(S, P)` returns a breakdown (it has no error to signal); when `S` is not a
non-negative integer combination of `P` the breakdown is empty; and in every case the
breakdown is empty or has the weighted sum exactly `S`, so the walk stops at `S` itself or
at `0`, never part-way. -/
theorem unreachable_target (S : Int) (P : List Int) (hS : 0 < S) (hS2 : S ≤ maxInt32)
    (hP : ∀ p ∈ P, 0 < p) :
    (¬ Rep P S → findMinimumPacks S P = some []) ∧
    ∃ b, findMinimumPacks S P = some b ∧ (b = [] ∨ weightedSum b = S) ∧
      (weightedSum b = S ∨ weightedSum b = 0) := by
  obtain ⟨n, hn⟩ := Int.eq_ofNat_of_zero_le (le_of_lt hS)
  subst hn
  have hS3 : (n : Int) < intMax := by
    unfold maxInt32 at hS2
    unfold intMax
    omega
  rcases findMinimumPacks_cases hP hS3 with ⟨l, hl, hlen, hf⟩ | ⟨_, hno, hf⟩
  · have hsum := (weightedSum_walk hl hlen).1
    refine ⟨fun hnr => ?_, countPacks l, hf, Or.inr hsum, Or.inl hsum⟩
    exact absurd ⟨l, (WalkSeq_props hl).2.1, (WalkSeq_props hl).1⟩ hnr
  · exact ⟨fun _ => hf, [], hf, Or.inl rfl, Or.inr rfl⟩

/-- C24 at the target `7` with the sizes `[5]`: the breakdown is empty. -/
theorem unreachable_target_witness :
    (0 : Int) < 7 ∧ (7 : Int) ≤ maxInt32 ∧ ¬ Rep [5] 7 ∧ findMinimumPacks 7 [5] = some [] := by
  have hnr : ¬ Rep [5] 7 := fun h =>
    absurd (Rep_dvd (d := 5) (by simp) h) (by decide)
  exact ⟨by decide, by decide, hnr,
    (unreachable_target 7 [5] (by decide) (by decide) (by decide)).1 hnr⟩

/-- C24 as stated fails at the largest `int`: `S = 9223372036854775807` is odd, so it is not
a combination of the size `2`, but the table length `S + 1` wraps to a negative `int`
and `findMinimumPacks` does not return. -/
theorem unreachable_target_counterexample :
    (0 : Int) < 9223372036854775807 ∧ (∀ p ∈ ([2] : List Int), 0 < p) ∧
    List.Sorted (fun a b : Int => a ≤ b) [2] ∧
    ¬ Rep [2] 9223372036854775807 ∧
    findMinimumPacks 9223372036854775807 [2] = none ∧
    findMinimumPacks 9223372036854775807 [2] ≠ some [] := by
  refine ⟨by decide, by decide, by simp, ?_, by decide, by decide⟩
  intro h
  exact absurd (Rep_dvd (d := 2) (by simp) h) (by decide)

/-- C25 at the failing input. `SetPackSizes([250, 0, -100])` on a new repository returns no
error and stores all three sizes: `GetAllPackSizes` then returns `[-100, 0, 250]`, so not
every stored size is positive. -/
theorem repository_positivity_failing_input :
    (NewInMemoryPackRepository.SetPackSizes [250, 0, -100]).2 = none ∧
    (NewInMemoryPackRepository.SetPackSizes [250, 0, -100]).1.packSizes = [-100, 0, 250] ∧
    (NewInMemoryPackRepository.SetPackSizes [250, 0, -100]).1.GetAllPackSizes.2.1
      = [-100, 0, 250] ∧
    (∀ x ∈ NewInMemoryPackRepository.packSizes, 0 < x) ∧
    ¬ ∀ x ∈ (NewInMemoryPackRepository.SetPackSizes [250, 0, -100]).1.packSizes, 0 < x := by
  decide

/-- C26, amended. For every `q > 0` and every non-empty list `P` of positive pack sizes with
`q + p ≤ math.MaxInt32` for every size `p`, `Calculate(q, P)` returns a breakdown whose
weighted sum `T` satisfies `q ≤ T` and `T - q < p` for every size `p` (so `T - q` is
below the smallest size); `T = q` whenever `1` is a size, whenever `q` is a multiple of a
size, and more generally whenever `q` can be made from the sizes. -/
theorem overshipment_bound (q : Int) (P : List Int) (hq : 0 < q) (hne : P ≠ [])
    (hP : ∀ p ∈ P, 0 < p) (hB : ∀ p ∈ P, q + p ≤ maxInt32) :
    ∃ b, Calculate q P = some ⟨some b, none⟩ ∧ q ≤ weightedSum b ∧
      (∀ p ∈ P, weightedSum b - q < p) ∧
      (Rep P q → weightedSum b = q) ∧
      ((1 : Int) ∈ P → weightedSum b = q) ∧
      ((∃ p ∈ P, p ∣ q) → weightedSum b = q) := by
  obtain ⟨T, l, hT, hw, hlen, hTm, hc⟩ := Calculate_bounded hq hne hP hB
  have hsum : weightedSum (countPacks l) = T := (weightedSum_walk hw (by omega)).1
  have hrep : Rep P q → T = q := by
    intro hr
    by_contra hcon
    have hlt : q < T := lt_of_le_of_ne hT.1 (fun h => hcon h.symm)
    exact hT.2.2 q le_rfl hlt hr
  have hdvd : (∃ p ∈ P, p ∣ q) → Rep P q := by
    rintro ⟨p, hp, k, hk⟩
    have hp0 := hP p hp
    have hk0 : 0 ≤ k := by
      by_contra hneg
      have : p * k < 0 := mul_neg_of_pos_of_neg hp0 (by omega)
      omega
    obtain ⟨n, hn⟩ := Int.eq_ofNat_of_zero_le hk0
    rw [hk, hn]
    exact Rep_mul hp n
  refine ⟨countPacks l, hc, by rw [hsum]; exact hT.1, ?_, ?_, ?_, ?_⟩
  · intro p hp
    have := minAmount_lt hq hP hT p hp
    rw [hsum]; omega
  · intro hr; rw [hsum]; exact hrep hr
  · intro h1; rw [hsum]; exact hrep (hdvd ⟨1, h1, one_dvd q⟩)
  · intro hd; rw [hsum]; exact hrep (hdvd hd)

/-- C26 at the quantity `251` with the sizes `[250, 500]`. -/
theorem overshipment_bound_witness :
    (0 : Int) < 251 ∧ ([250, 500] : List Int) ≠ [] ∧
    ∃ b, Calculate 251 [250, 500] = some ⟨some b, none⟩ ∧ 251 ≤ weightedSum b ∧
      (∀ p ∈ ([250, 500] : List Int), weightedSum b - 251 < p) ∧
      (Rep [250, 500] 251 → weightedSum b = 251) ∧
      ((1 : Int) ∈ ([250, 500] : List Int) → weightedSum b = 251) ∧
      ((∃ p ∈ ([250, 500] : List Int), p ∣ 251) → weightedSum b = 251) :=
  ⟨by decide, by decide,
    overshipment_bound 251 [250, 500] (by decide) (by decide) (by decide) (by decide)⟩

/-- C26 as stated fails: for `q = 2147483647` and `P = [1]` the smallest size is `1` and `q`
is a multiple of it, but `Calculate` returns the empty breakdown, whose weighted sum is
`0`, not `q`; and for `q = 1` and `P = [9223372036854775807]` no breakdown is returned. -/
theorem overshipment_bound_counterexample :
    ((0 : Int) < 2147483647 ∧ (1 : Int) ∈ ([1] : List Int) ∧ (1 : Int) ∣ 2147483647 ∧
      Calculate 2147483647 [1] = some ⟨some [], none⟩ ∧
      weightedSum [] ≠ 2147483647) ∧
    Calculate 1 [9223372036854775807] = none :=
  ⟨⟨by decide, by decide, one_dvd _, Calculate_at_marker, by decide⟩, by decide⟩

/-- C28, amended. For every non-empty list `P` of positive pack sizes and all quantities
`0 < q1 ≤ q2` with `q2 + p ≤ 2^31 - 1` (the value of `math.MaxInt32`) for every size `p`,
`findMinimumAmount` returns for both quantities (on `P` and on `P` sorted), the amount for
`q1` is at most the amount for `q2`, and these amounts are the totals of the breakdowns
that `Calculate` returns for `q1` and `q2`. -/
theorem monotone_quantity (q1 q2 : Int) (P : List Int) (h1 : 0 < q1) (h12 : q1 ≤ q2)
    (hne : P ≠ []) (hP : ∀ p ∈ P, 0 < p) (hB : ∀ p ∈ P, q2 + p ≤ maxInt32) :
    ∃ T1 T2, findMinimumAmount q1 P = some T1 ∧ findMinimumAmount q2 P = some T2 ∧
      findMinimumAmount q1 (sortInts P) = some T1 ∧
      findMinimumAmount q2 (sortInts P) = some T2 ∧ T1 ≤ T2 ∧
      ∃ b1 b2,
        Calculate q1 P = some ⟨some b1, none⟩ ∧ Calculate q2 P = some ⟨some b2, none⟩ ∧
        weightedSum b1 = T1 ∧ weightedSum b2 = T2 ∧ weightedSum b1 ≤ weightedSum b2 := by
  have h2 : 0 < q2 := lt_of_lt_of_le h1 h12
  obtain ⟨T1, hT1⟩ := exists_minAmount h1 hne hP
  obtain ⟨T2, hT2⟩ := exists_minAmount h2 hne hP
  have hle : T1 ≤ T2 := by
    by_contra hcon
    exact hT1.2.2 T2 (le_trans h12 hT2.1) (by omega) hT2.2.1
  have hne' := sortInts_ne_nil hne
  have hP' : ∀ p ∈ sortInts P, 0 < p := fun p hp => hP p (mem_sortInts.1 hp)
  have hBi : ∀ p ∈ P, q2 + p < intMax := fun p hp => by
    have := hB p hp
    unfold maxInt32 at this
    unfold intMax
    omega
  have hB2 := hBi _ (List.getLast_mem hne)
  have hB2' := hBi _ (mem_sortInts.1 (List.getLast_mem hne'))
  obtain ⟨U1, l1, hU1, hw1, hlen1, hm1, hc1⟩ :=
    Calculate_bounded h1 hne hP (fun p hp => by have := hB p hp; omega)
  obtain ⟨U2, l2, hU2, hw2, hlen2, hm2, hc2⟩ := Calculate_bounded h2 hne hP hB
  have e1 : U1 = T1 := minAmount_unique hU1 hT1
  have e2 : U2 = T2 := minAmount_unique hU2 hT2
  subst e1; subst e2
  have s1 := (weightedSum_walk hw1 (by omega)).1
  have s2 := (weightedSum_walk hw2 (by omega)).1
  exact ⟨U1, U2, findMinimumAmount_eq h1 hne hP (by omega) hT1,
    findMinimumAmount_eq h2 hne hP hB2 hT2,
    findMinimumAmount_eq h1 hne' hP' (by omega)
      ((IsMinAmount_congr (fun x => mem_sortInts)).2 hT1),
    findMinimumAmount_eq h2 hne' hP' hB2'
      ((IsMinAmount_congr (fun x => mem_sortInts)).2 hT2), hle,
    countPacks l1, countPacks l2, hc1, hc2, s1, s2, by rw [s1, s2]; exact hle⟩

/-- C28 at the quantities `1` and `251` with the sizes `[250, 500]`. -/
theorem monotone_quantity_witness :
    (0 : Int) < 1 ∧ (1 : Int) ≤ 251 ∧
    ∃ T1 T2, findMinimumAmount 1 [250, 500] = some T1 ∧
      findMinimumAmount 251 [250, 500] = some T2 ∧
      findMinimumAmount 1 (sortInts [250, 500]) = some T1 ∧
      findMinimumAmount 251 (sortInts [250, 500]) = some T2 ∧ T1 ≤ T2 ∧
      ∃ b1 b2,
        Calculate 1 [250, 500] = some ⟨some b1, none⟩ ∧
        Calculate 251 [250, 500] = some ⟨some b2, none⟩ ∧
        weightedSum b1 = T1 ∧ weightedSum b2 = T2 ∧ weightedSum b1 ≤ weightedSum b2 :=
  ⟨by decide, by decide,
    monotone_quantity 1 251 [250, 500] (by decide) (by decide) (by decide) (by decide)
      (by decide)⟩

/-- C28 as stated fails. With the size `5`, `findMinimumAmount` returns `5` for the quantity
`1` and does not return for the quantity `9223372036854775802` (the table length wraps);
and with the size `1`, `Calculate` ships `1` item for the quantity `1` and `0` items for
the quantity `2147483647`. -/
theorem monotone_quantity_counterexample :
    ((0 : Int) < 1 ∧ (1 : Int) ≤ 9223372036854775802 ∧
      findMinimumAmount 1 [5] = some 5 ∧
      findMinimumAmount 9223372036854775802 [5] = none) ∧
    ((1 : Int) ≤ 2147483647 ∧
      Calculate 1 [1] = some ⟨some [(1, 1)], none⟩ ∧
      Calculate 2147483647 [1] = some ⟨some [], none⟩ ∧
      ¬ weightedSum [(1, 1)] ≤ weightedSum []) :=
  ⟨⟨by decide, by decide, by decide, by decide⟩,
    by decide, by decide, Calculate_at_marker, by decide⟩

/-- C29. For every `q > 0` and every non-empty list `P` of positive pack sizes (`q` and the
sizes being `int`s), `Calculate(q, P)` equals `Calculate(q, P')` for `P'` the list `P`
with its duplicates removed, for `P` with one of its sizes repeated, and for every list
`P'` with the same sizes as `P`, whatever their order and number of occurrences: the
same breakdown, so the same amount, pack count and tie-break (and no result for the one
exactly when there is none for the other). The repository and the request pass
duplicates on: `[250, 500, 250]` is stored as `[250, 250, 500]`. -/
theorem duplicates_harmless (q : Int) (P : List Int) (hq : 0 < q) (hq2 : q ≤ intMax)
    (hne : P ≠ []) (hP : ∀ p ∈ P, 0 < p ∧ p ≤ intMax) :
    Calculate q P.dedup = Calculate q P ∧
    (∀ p ∈ P, Calculate q (p :: P) = Calculate q P ∧ Calculate q (P ++ [p]) = Calculate q P) ∧
    (∀ P' : List Int, (∀ x, x ∈ P' ↔ x ∈ P) → Calculate q P' = Calculate q P) ∧
    (NewInMemoryPackRepository.SetPackSizes [250, 500, 250]).1.GetAllPackSizes.2.1
      = [250, 250, 500] ∧
    (PackRequest.GetValidPackSizes ⟨q, some [250, 500, 250]⟩).2 = some [250, 500, 250] := by
  refine ⟨Calculate_mem_congr hq hq2 hne hP (fun x => List.mem_dedup), ?_,
    fun P' h => Calculate_mem_congr hq hq2 hne hP h, by decide, rfl⟩
  intro p hp
  constructor
  · refine Calculate_mem_congr hq hq2 hne hP (fun x => ?_)
    constructor
    · intro h
      rcases List.mem_cons.1 h with rfl | h'
      · exact hp
      · exact h'
    · exact fun h => List.mem_cons_of_mem _ h
  · refine Calculate_mem_congr hq hq2 hne hP (fun x => ?_)
    constructor
    · intro h
      rcases List.mem_append.1 h with h' | h'
      · exact h'
      · rw [List.mem_singleton.1 h']; exact hp
    · exact fun h => List.mem_append_left _ h

/-- C29 at the quantity `251` with the sizes `[250, 500, 250]`: the breakdown is `{500: 1}`,
as for `[500, 250]`, the list without the duplicate. -/
theorem duplicates_harmless_witness :
    (0 : Int) < 251 ∧ ([250, 500, 250] : List Int).dedup = [500, 250] ∧
    Calculate 251 [500, 250] = some ⟨some [(500, 1)], none⟩ ∧
    Calculate 251 [250, 500, 250] = some ⟨some [(500, 1)], none⟩ := by
  have hd : ([250, 500, 250] : List Int).dedup = [500, 250] := by decide
  have h : Calculate 251 [500, 250] = some ⟨some [(500, 1)], none⟩ :=
    Calculate_scenario (T := 500) (l := [500]) (d := 250) (by decide) (by simp) (by decide)
      (by decide) (by decide) (by decide) (by decide) (fun A h1 h2 => by omega) (by decide)
      (by decide)
  have hc := (duplicates_harmless 251 [250, 500, 250] (by decide) (by decide) (by decide)
    (by decide)).1
  rw [hd] at hc
  exact ⟨by decide, hd, h, by rw [← hc]; exact h⟩

/-- C30, amended. For every `q > 0` and every non-empty list `P` of positive pack sizes with
`q + p ≤ 2^31 - 1` for every size `p` (so that the table length `q + max(P) + 1` is at
most `2^31`), no step of `Calculate(q, P)` fails: `findMinimumAmount` returns an amount
`T ≥ q` from its first scan, `findMinimumPacks(T, P)` returns a breakdown `b` within the
`T + 1` iterations allowed to its walk, and `Calculate` returns `b` with no error. -/
theorem index_safety (q : Int) (P : List Int) (hq : 0 < q) (hne : P ≠ [])
    (hP : ∀ p ∈ P, 0 < p) (hB : ∀ p ∈ P, q + p ≤ maxInt32) :
    ∃ T b, q ≤ T ∧ firstScan q (sortInts P) = some (some T) ∧
      findMinimumAmount q (sortInts P) = some T ∧
      findMinimumPacks T (sortInts P) = some b ∧
      Calculate q P = some ⟨some b, none⟩ ∧ Calculate q P ≠ none := by
  have hBi : ∀ p ∈ P, q + p < intMax := fun p hp => by
    have := hB p hp
    unfold maxInt32 at this
    unfold intMax
    omega
  obtain ⟨T, hT, hf, hcase⟩ := Calculate_cases hq hne hP hBi
  have hne' := sortInts_ne_nil hne
  have hfs : firstScan q (sortInts P) = some (some T) :=
    firstScan_eq hq hne' (fun p hp => hP p (mem_sortInts.1 hp))
      (hBi _ (mem_sortInts.1 (List.getLast_mem hne')))
      ((IsMinAmount_congr (fun x => mem_sortInts)).2 hT)
  rcases hcase with ⟨l, _, _, hp, hc⟩ | ⟨_, hp, hc⟩
  · exact ⟨T, countPacks l, hT.1, hfs, hf, hp, hc, by rw [hc]; exact Option.some_ne_none _⟩
  · exact ⟨T, [], hT.1, hfs, hf, hp, hc, by rw [hc]; exact Option.some_ne_none _⟩

/-- C30 at the quantity `12001` with the sizes `[250, 500, 1000, 2000, 5000]`. -/
theorem index_safety_witness :
    (0 : Int) < 12001 ∧
    ∃ T b, 12001 ≤ T ∧
      firstScan 12001 (sortInts [250, 500, 1000, 2000, 5000]) = some (some T) ∧
      findMinimumAmount 12001 (sortInts [250, 500, 1000, 2000, 5000]) = some T ∧
      findMinimumPacks T (sortInts [250, 500, 1000, 2000, 5000]) = some b ∧
      Calculate 12001 [250, 500, 1000, 2000, 5000] = some ⟨some b, none⟩ ∧
      Calculate 12001 [250, 500, 1000, 2000, 5000] ≠ none :=
  ⟨by decide,
    index_safety 12001 [250, 500, 1000, 2000, 5000] (by decide) (by decide) (by decide)
      (by decide)⟩

/-- C30 as stated fails at the end of the integer range: for `q = 9223372036854775802` and
`P = [5]` the bound `q + max(P)` is `2^63 - 1`, still an `int`, but the table length
`bound + 1` is not: `make` gets a negative length and `Calculate` does not return. -/
theorem index_safety_counterexample :
    (0 : Int) < 9223372036854775802 ∧ (∀ p ∈ ([5] : List Int), 0 < p) ∧
    List.Sorted (fun a b : Int => a ≤ b) [5] ∧
    (9223372036854775802 : Int) + 5 ≤ intMax ∧
    wrap (9223372036854775802 + 5) = 9223372036854775802 + 5 ∧
    make false (wrap (wrap (9223372036854775802 + 5) + 1)) = none ∧
    findMinimumAmount 9223372036854775802 [5] = none ∧
    Calculate 9223372036854775802 [5] = none := by
  refine ⟨by decide, by decide, by simp, by decide, by decide, by decide, by decide, by decide⟩

/-- C31, amended. For every `q > 0` with `2 * q ≤ 2^31 - 1` (the table of the extended
search then has at most `2^31` entries) and every non-empty ascending list `P` of positive
pack sizes (`int`s), `findMinimumAmountExtended(q, P)` returns the smallest representable
amount `T ≥ q`, also when its scan over `[q, max(2q, 10000)]` finds nothing: then every
size is above `q`, `greedyMinimumAmount` returns `P[0]`, and `P[0]` is `T`. It agrees with
`findMinimumAmount(q, P)` whenever `q + p ≤ 2^31 - 1` for every size `p`. -/
theorem extended_agrees (q : Int) (P : List Int) (hq : 0 < q) (hq2 : q * 2 ≤ maxInt32)
    (hne : P ≠ []) (hs : P.Sorted (fun a b => a ≤ b)) (hP : ∀ p ∈ P, 0 < p ∧ p ≤ intMax) :
    ∃ T, IsMinAmount P q T ∧ findMinimumAmountExtended q P = some T ∧
      ((if q * 2 < 10000 then 10000 else q * 2) < T →
        greedyMinimumAmount q P = some T ∧ T = P.head hne ∧ ∀ p ∈ P, q < p) ∧
      ((∀ p ∈ P, q + p ≤ maxInt32) →
        findMinimumAmount q P = some T ∧
        findMinimumAmountExtended q P = findMinimumAmount q P) := by
  have hpos : ∀ p ∈ P, 0 < p := fun p hp => (hP p hp).1
  have hq3 : q * 2 ≤ intMax := by
    unfold maxInt32 at hq2
    unfold intMax
    omega
  obtain ⟨T, hT⟩ := exists_minAmount hq hne hpos
  obtain ⟨h1, h2⟩ := findMinimumAmountExtended_eq hq hq3 hne hP hs hT
  refine ⟨T, hT, h1, h2, fun hB => ?_⟩
  have hBl : q + P.getLast hne < intMax := by
    have := hB _ (List.getLast_mem hne)
    unfold maxInt32 at this
    unfold intMax
    omega
  have hf := findMinimumAmount_eq hq hne hpos hBl hT
  exact ⟨hf, by rw [h1, hf]⟩

/-- C31 at the quantity `1` with the size `20000`: the scan over `[1, 10000]` finds nothing,
the greedy fallback returns `20000`, and so do both searches. -/
theorem extended_agrees_witness :
    (0 : Int) < 1 ∧ (10000 : Int) < 20000 ∧
    findMinimumAmountExtended 1 [20000] = some 20000 ∧
    greedyMinimumAmount 1 [20000] = some 20000 ∧
    findMinimumAmount 1 [20000] = some 20000 := by
  obtain ⟨T, hT, hE, hg, hf⟩ :=
    extended_agrees 1 [20000] (by decide) (by decide) (by decide) (by simp) (by decide)
  have hT2 : T = 20000 := by
    have h := minAmount_unique hT (IsMinAmount_single (q := 1) (p := 20000) (by decide)
      (by decide))
    rw [h]; decide
  subst hT2
  exact ⟨by decide, by decide, hE, (hg (by decide)).1, (hf (by decide)).1⟩

/-- C31 as stated fails in both of its readings. For `q = 1` and `P = [9223372036854775807]`
the extended search returns `9223372036854775807` while `findMinimumAmount` does not
return (its table length wraps). For `q = 4611686018427387904` and `P = [3, 5]`, `2 * q`
wraps, the bound is `10000`, the scan has no iteration and the greedy fallback returns
`q + 2`, although `q` itself can be made from `3` and `5`. -/
theorem extended_agrees_counterexample :
    ((0 : Int) < 1 ∧ List.Sorted (fun a b : Int => a ≤ b) [9223372036854775807] ∧
      findMinimumAmountExtended 1 [9223372036854775807] = some 9223372036854775807 ∧
      findMinimumAmount 1 [9223372036854775807] = none) ∧
    ((0 : Int) < 4611686018427387904 ∧ List.Sorted (fun a b : Int => a ≤ b) [3, 5] ∧
      wrap (4611686018427387904 * 2) = -9223372036854775808 ∧
      findMinimumAmountExtended 4611686018427387904 [3, 5] = some 4611686018427387906 ∧
      Rep [3, 5] 4611686018427387904 ∧
      ¬ IsMinAmount [3, 5] 4611686018427387904 4611686018427387906) := by
  have hrep : Rep [3, 5] 4611686018427387904 := by
    have h := Rep_append (Rep_mul (P := [3, 5]) (p := 3) (by simp) 1537228672809129298)
      (Rep_mul (P := [3, 5]) (p := 5) (by simp) 2)
    norm_num at h
    exact h
  refine ⟨⟨by decide, by simp, ?_, by decide⟩, by decide, by simp, by decide, ?_, hrep, ?_⟩
  · have hT : IsMinAmount [9223372036854775807] 1 9223372036854775807 := by
      have h := IsMinAmount_single (q := 1) (p := 9223372036854775807) (by decide) (by decide)
      norm_num at h
      exact h
    exact (findMinimumAmountExtended_eq (by decide) (by decide) (by decide) (by decide)
      (by simp) hT).1
  · rw [findMinimumAmountExtended_beyond (by decide) (by decide)]
    decide
  · intro h
    exact h.2.2 4611686018427387904 le_rfl (by decide) hrep

end PackCalculator
